import Mathlib

/-!
# Advent of Code 2025, day 10 (part two): verification of `src/day10/main.cpp`

The program minimises the number of button presses `sum_j x_j` subject to
`A x = b`, `x_j ≥ 0` integer, `A` a 0/1 matrix given by bit masks.  It runs an
exact-rational Gauss–Jordan elimination, rewrites the pivot variables as scaled
integer expressions of the (at most three) free variables and searches the box
of free-variable values.

## Conventions of the embedding

* `int64_t` / `int` / `__int128` values are mathematical integers (`Int`).
  Every place where the source narrows a wide value to 64 bits
  (`static_cast<int64_t>`), negates or multiplies 64-bit values or adds `int`s
  goes through `narrow64` / `narrow32`, which reduce modulo `2^64` / `2^32`
  (two's complement) and record whether the value was changed.
* A computation is a `Run α`: the outcome `out` (a value or the thrown
  `runtime_error`) together with the flag `wrapped`, which is `true` exactly
  when some narrowing changed a value.  The flag is never read by the
  program: it only lets theorems speak about executions without overflow.
* `/` and `%` on machine integers are the truncating `Int.tdiv` / `Int.tmod`.
* `long double` is not modelled bit by bit: the floating-point operations the
  source uses for its two ordering heuristics are the fields of a `LongDouble`
  record over which every theorem is universally quantified.
* `vector<T>` values that the program updates in place are total functions
  from indices, with the dimensions kept separately.
-/

namespace Day10

/-! ## Errors and the execution monad -/

/-- The `std::runtime_error`s thrown by the program, one constructor per message. -/
inductive Err
  | lcmOverflow      -- "lcm overflow"
  | zeroDenominator  -- "zero denominator"
  | divisionByZero   -- "division by zero"
  | emptyMachine     -- "empty machine"
  | noButtons        -- "no buttons"
  | inconsistent     -- "inconsistent system"
  | largeNullspace   -- "unexpectedly large nullspace (d>3)"
  | badDenominator   -- "bad denominator"
  | noSolution       -- "no solution"
deriving DecidableEq, Repr

/-- Outcome of a computation: a value, or the error that was thrown. -/
inductive Res (α : Type)
  | ok (a : α)
  | error (e : Err)
deriving DecidableEq, Repr

/-- An execution: its outcome and whether some machine-integer narrowing lost information. -/
structure Run (α : Type) where
  out : Res α
  wrapped : Bool
deriving DecidableEq, Repr

/-- Normal return. -/
def Run.ret {α : Type} (a : α) : Run α := ⟨Res.ok a, false⟩

/-- The statement `throw std::runtime_error(...)`. -/
def Run.throw {α : Type} (e : Err) : Run α := ⟨Res.error e, false⟩

/-- Sequencing: an error stops the execution, the overflow flags accumulate. -/
def Run.bind {α β : Type} (x : Run α) (f : α → Run β) : Run β :=
  match x.out with
  | Res.error e => ⟨Res.error e, x.wrapped⟩
  | Res.ok a => ⟨(f a).out, x.wrapped || (f a).wrapped⟩

instance : Monad Run where
  pure := Run.ret
  bind := Run.bind

/-- A counted loop `for (i = lo; i < lo + n; ++i) s = body(i, s)`. -/
def forUp {σ : Type} (body : Nat → σ → Run σ) : Nat → Nat → σ → Run σ
  | _, 0, s => Run.ret s
  | lo, n + 1, s => Run.bind (body lo s) (forUp body (lo + 1) n)

/-- A counted loop running downwards: `for (i = n - 1; i >= 0; --i) s = body(i, s)`. -/
def forDown {σ : Type} (body : Nat → σ → Run σ) : Nat → σ → Run σ
  | 0, s => Run.ret s
  | n + 1, s => Run.bind (body n s) (forDown body n)

/-! ## Machine integers -/

/-- The value `std::numeric_limits<int64_t>::max()`. -/
def INT64_MAX : Int := 9223372036854775807

/-- Two's complement reduction to 64 bits. -/
def wrap64 (x : Int) : Int := (x + 9223372036854775808) % 18446744073709551616 - 9223372036854775808

/-- Two's complement reduction to 32 bits. -/
def wrap32 (x : Int) : Int := (x + 2147483648) % 4294967296 - 2147483648

/-- Membership in the range of `int64_t`. -/
def inI64 (x : Int) : Bool := decide (-9223372036854775808 ≤ x) && decide (x ≤ 9223372036854775807)

/-- Membership in the range of `int`. -/
def inI32 (x : Int) : Bool := decide (-2147483648 ≤ x) && decide (x ≤ 2147483647)

/-- Store a wide value in an `int64_t`; flags the execution when the value does not fit. -/
def narrow64 (x : Int) : Run Int := ⟨Res.ok (wrap64 x), !inI64 x⟩

/-- Store a wide value in an `int`; flags the execution when the value does not fit. -/
def narrow32 (x : Int) : Run Int := ⟨Res.ok (wrap32 x), !inI32 x⟩

/-- The loop `while (b != 0) { t = a % b; a = b; b = t; }` of `igcd`; the first
argument bounds the number of iterations (`|b|` always suffices). -/
def igcdLoop : Nat → Int → Int → Int
  | 0, a, _ => a
  | fuel + 1, a, b => if b = 0 then a else igcdLoop fuel b (Int.tmod a b)

/-- Source function `igcd`. -/
def igcd (a b : Int) : Run Int := do
  let a ← (if a < 0 then narrow64 (-a) else pure a)
  let b ← (if b < 0 then narrow64 (-b) else pure b)
  pure (igcdLoop b.natAbs a b)

/-- Source function `ilcm`. -/
def ilcm (a b : Int) : Run Int :=
  if a = 0 ∨ b = 0 then pure 0
  else do
    let g ← igcd a b
    let v := Int.tdiv a g * b
    if v > INT64_MAX then Run.throw Err.lcmOverflow
    else narrow64 v

/-! ## Exact rationals (`struct Rat`) -/

/-- The source structure `Rat`: numerator `n`, denominator `d`. -/
structure Rat where
  n : Int := 0
  d : Int := 1
deriving DecidableEq, Repr

/-- Source method `Rat::normalize`. -/
def Rat.normalize (r : Rat) : Run Rat :=
  if r.d = 0 then Run.throw Err.zeroDenominator
  else if r.n = 0 then pure ⟨r.n, 1⟩
  else do
    let d ← (if r.d < 0 then narrow64 (-r.d) else pure r.d)
    let n ← (if r.d < 0 then narrow64 (-r.n) else pure r.n)
    let g ← igcd n d
    pure ⟨Int.tdiv n g, Int.tdiv d g⟩

/-- The constructor `Rat(int64_t n_)`. -/
def Rat.ofInt (n : Int) : Rat := ⟨n, 1⟩

/-- The constructor `Rat(int64_t n_, int64_t d_)`. -/
def Rat.mk2 (n d : Int) : Run Rat := Rat.normalize ⟨n, d⟩

/-- Source `operator==` on `Rat`. -/
def Rat.eq (a b : Rat) : Bool := decide (a.n = b.n) && decide (a.d = b.d)

/-- Source `is_zero`. -/
def Rat.is_zero (a : Rat) : Bool := decide (a.n = 0)

/-- Source `operator+` on `Rat`. -/
def Rat.add (a b : Rat) : Run Rat := do
  let g ← igcd a.d b.d
  let ad := Int.tdiv a.d g
  let bd := Int.tdiv b.d g
  let num := a.n * bd + b.n * ad
  let den := ad * b.d
  let rn ← narrow64 num
  let rd ← narrow64 den
  Rat.normalize ⟨rn, rd⟩

/-- Source `operator-` on `Rat`: `a + Rat(-b.n, b.d)`. -/
def Rat.sub (a b : Rat) : Run Rat := do
  let nb ← narrow64 (-b.n)
  let mb ← Rat.mk2 nb b.d
  Rat.add a mb

/-- Source `operator*` on `Rat`. -/
def Rat.mul (a b : Rat) : Run Rat :=
  if a.n = 0 ∨ b.n = 0 then pure (Rat.ofInt 0)
  else do
    let g1 ← igcd a.n b.d
    let g2 ← igcd b.n a.d
    let an := Int.tdiv a.n g1
    let bd := Int.tdiv b.d g1
    let bn := Int.tdiv b.n g2
    let ad := Int.tdiv a.d g2
    let num := an * bn
    let den := ad * bd
    let rn ← narrow64 num
    let rd ← narrow64 den
    Rat.normalize ⟨rn, rd⟩

/-- Source `operator/` on `Rat`. -/
def Rat.div (a b : Rat) : Run Rat :=
  if b.n = 0 then Run.throw Err.divisionByZero
  else do
    let inv ← Rat.mk2 b.d b.n
    let inv ← Rat.normalize inv
    Rat.mul a inv

/-- The rational number a `Rat` stands for. -/
def Rat.toQ (r : Rat) : ℚ := (r.n : ℚ) / (r.d : ℚ)

/-- The normal form of the source comment: positive denominator, lowest terms. -/
def Rat.Normal (r : Rat) : Prop := 0 < r.d ∧ Int.gcd r.n r.d = 1

/-- Both fields are `int64_t` values. -/
def Rat.In64 (r : Rat) : Prop := inI64 r.n = true ∧ inI64 r.d = true

/-! ## Floating point -/

/-- The `long double` operations used by the two ordering heuristics of the
source, left abstract: `ofInt` is `static_cast<long double>` (also used for the
literals `1.0L` and `0`), `add` and `div` are `+` and `/`, `lt` and `ne` are
`<` and `!=`. -/
structure LongDouble where
  F : Type
  ofInt : Int → F
  add : F → F → F
  div : F → F → F
  lt : F → F → Bool
  ne : F → F → Bool

/-- An instance of `LongDouble` computing with exact rationals. -/
def exactLD : LongDouble where
  F := ℚ
  ofInt := fun z => (z : ℚ)
  add := fun a b => a + b
  div := fun a b => a / b
  lt := fun a b => decide (a < b)
  ne := fun a b => decide (a ≠ b)

/-! ## The solver (`struct SolveMachine`) -/

/-- Source structure `ExprScaled`. -/
structure ExprScaled where
  D : Int := 1
  base : Int := 0
  coef : List Int := []
deriving DecidableEq, Repr

/-- The matrix data of `SolveMachine` during elimination, with the local
variable `row` of `gauss_jordan_rref`. -/
structure Elim where
  A : Nat → Nat → Rat
  rhs : Nat → Rat
  pivot_col : Nat → Int
  row : Nat

/-- Assignment `A[r][j] = v`. -/
def set2 (A : Nat → Nat → Rat) (r j : Nat) (v : Rat) : Nat → Nat → Rat :=
  fun i c => if i = r ∧ c = j then v else A i c

/-- Assignment `v[r] = x`. -/
def set1 {α : Type} (f : Nat → α) (r : Nat) (x : α) : Nat → α :=
  fun i => if i = r then x else f i

/-- The statement `std::swap(v[p], v[q])`. -/
def swap1 {α : Type} (f : Nat → α) (p q : Nat) : Nat → α :=
  fun i => if i = p then f q else if i = q then f p else f i

/-- The test `mask & (1u << i)`. -/
def maskBit (mask : Nat) (i : Nat) : Bool := mask.testBit i

/-- Source method `build_matrix`: `A[i][j]` is 1 when bit `i` of `masks[j]` is set,
`rhs[i] = b[i]`. -/
def build_matrix (b : List Int) (masks : List Nat) : Elim where
  A := fun i j => Rat.ofInt (if maskBit (masks.getD j 0) i then 1 else 0)
  rhs := fun i => Rat.ofInt (b.getD i 0)
  pivot_col := fun _ => -1
  row := 0

/-- The pivot search `for (r = row; r < m; ++r) if (!is_zero(A[r][col])) { piv = r; break; }`,
started at `r` with `n` rows left; `none` stands for `piv == -1`. -/
def findPivot (A : Nat → Nat → Rat) (col : Nat) : Nat → Nat → Option Nat
  | _, 0 => none
  | r, n + 1 => if !(A r col).is_zero then some r else findPivot A col (r + 1) n

/-- The loop `for (j = col; j < k; ++j) A[row][j] /= pv`. -/
def scaleRow (k col row : Nat) (pv : Rat) (A : Nat → Nat → Rat) : Run (Nat → Nat → Rat) :=
  forUp (fun j A => do
    let v ← Rat.div (A row j) pv
    pure (set2 A row j v)) col (k - col) A

/-- The loop `for (j = col; j < k; ++j) A[r][j] -= f * A[row][j]`. -/
def elimRow (k col row r : Nat) (f : Rat) (A : Nat → Nat → Rat) : Run (Nat → Nat → Rat) :=
  forUp (fun j A => do
    let p ← Rat.mul f (A row j)
    let v ← Rat.sub (A r j) p
    pure (set2 A r j v)) col (k - col) A

/-- The loop over `r` that clears column `col` in every row but `row`. -/
def elimCol (m k col row : Nat) (s : (Nat → Nat → Rat) × (Nat → Rat)) :
    Run ((Nat → Nat → Rat) × (Nat → Rat)) :=
  forUp (fun r s =>
    if r = row then pure s
    else
      let f := s.1 r col
      if f.is_zero then pure s
      else do
        let A ← elimRow k col row r f s.1
        let p ← Rat.mul f (s.2 row)
        let v ← Rat.sub (s.2 r) p
        pure (A, set1 s.2 r v)) 0 m s

/-- One iteration of the column loop of `gauss_jordan_rref`.  The loop condition
`row < m` is tested here: once it fails the remaining iterations do nothing. -/
def gaussStep (m k col : Nat) (s : Elim) : Run Elim :=
  if ¬ s.row < m then pure s
  else
    match findPivot s.A col s.row (m - s.row) with
    | none => pure s
    | some piv => do
      let A0 := if piv ≠ s.row then swap1 s.A piv s.row else s.A
      let rhs0 := if piv ≠ s.row then swap1 s.rhs piv s.row else s.rhs
      let pv := A0 s.row col
      let A1 ← scaleRow k col s.row pv A0
      let rv ← Rat.div (rhs0 s.row) pv
      let rhs1 := set1 rhs0 s.row rv
      let s2 ← elimCol m k col s.row (A1, rhs1)
      pure ⟨s2.1, s2.2, set1 s.pivot_col s.row (col : Int), s.row + 1⟩

/-- The elimination loop of `gauss_jordan_rref`. -/
def gaussLoop (m k : Nat) (s : Elim) : Run Elim :=
  forUp (gaussStep m k) 0 k s

/-- The scan `all0` of the inconsistency check. -/
def rowAllZero (A : Nat → Nat → Rat) (k r : Nat) : Bool :=
  (List.range k).all (fun c => (A r c).is_zero)

/-- The inconsistency check at the end of `gauss_jordan_rref`. -/
def checkConsistent (m k : Nat) (s : Elim) : Run Unit :=
  forUp (fun r _ =>
    if rowAllZero s.A k r && !(s.rhs r).is_zero then Run.throw Err.inconsistent
    else pure ()) 0 m ()

/-- Source method `gauss_jordan_rref`, started from the matrix in `s`. -/
def gauss_jordan_rref (m k : Nat) (s : Elim) : Run Elim := do
  let s1 ← gaussLoop m k ⟨s.A, s.rhs, fun _ => -1, 0⟩
  checkConsistent m k s1
  pure s1

/-- The enumeration data computed by `build_parametrization`. -/
structure Param where
  free_cols : List Nat
  free_order : List Nat
  ub : List Int
  piv_exprs : List ExprScaled

/-- The test `pivcols.contains(c)`. -/
def isPivotCol (m : Nat) (pivot_col : Nat → Int) (c : Nat) : Bool :=
  (List.range m).any (fun r => decide (pivot_col r = (c : Int)))

/-- The list `free_cols`: the columns that are no pivot column, in increasing order. -/
def freeCols (m k : Nat) (pivot_col : Nat → Int) : List Nat :=
  (List.range k).filter (fun c => !isPivotCol m pivot_col c)

/-- The loop `for (int v : b) sumB += v`. -/
def sumTargets : List Int → Int → Run Int
  | [], s => pure s
  | v :: vs, s => do
    let s1 ← narrow32 (s + v)
    sumTargets vs s1

/-- The loop computing `bestb` for one mask. -/
def bestBound (m : Nat) (b : List Int) (mask : Nat) (sumB : Int) : Int :=
  (List.range m).foldl (fun bestb i => if maskBit mask i then min bestb (b.getD i 0) else bestb) sumB

/-- The entry `ub0[fi]` for the free column `fc`. -/
def ub0Of (m : Nat) (b : List Int) (masks : List Nat) (sumB : Int) (fc : Nat) : Int :=
  let u := min sumB (bestBound m b (masks.getD fc 0) sumB)
  if u < 0 then 0 else u

/-- The loops computing the ordering weights `weight[fi]`. -/
def weights (ld : LongDouble) (m : Nat) (s : Elim) (free_cols : List Nat) : Run (List ld.F) :=
  forUp (fun r w =>
    if s.pivot_col r = -1 then pure w
    else
      forUp (fun fi w => do
        let coef ← Rat.sub (Rat.ofInt 0) (s.A r (free_cols.getD fi 0))
        pure (w.set fi (ld.add (w.getD fi (ld.ofInt 1))
          (ld.div (ld.ofInt coef.n) (ld.ofInt coef.d))))) 0 free_cols.length w)
    0 m (List.replicate free_cols.length (ld.ofInt 1))

/-- The comparison passed to `std::sort`. -/
def orderLess (ld : LongDouble) (w : List ld.F) (ub0 : List Int) (a b : Nat) : Bool :=
  if ld.ne (w.getD a (ld.ofInt 1)) (w.getD b (ld.ofInt 1)) then
    ld.lt (w.getD a (ld.ofInt 1)) (w.getD b (ld.ofInt 1))
  else decide (ub0.getD a 0 < ub0.getD b 0)

/-- The vector `free_order`: `0 .. d-1` sorted with `orderLess` (`std::sort` is
rendered by an insertion sort; only the fact that the result is a permutation of
`0 .. d-1` is ever used). -/
def freeOrder (ld : LongDouble) (w : List ld.F) (ub0 : List Int) (d : Nat) : List Nat :=
  List.insertionSort (fun a b => orderLess ld w ub0 a b = true) (List.range d)

/-- Apply an effectful function to every element of a list, left to right. -/
def mapRun {α β : Type} (f : α → Run β) : List α → Run (List β)
  | [] => pure []
  | a :: l => do
    let b ← f a
    let bs ← mapRun f l
    pure (b :: bs)

/-- The loop `for (oi = 0; oi < d; ++oi) D = ilcm(D, coef_r[oi].d)`. -/
def lcmAll : List Rat → Int → Run Int
  | [], D => pure D
  | c :: cs, D => do
    let D1 ← ilcm D c.d
    lcmAll cs D1

/-- The body of the loop building `piv_exprs`, for the pivot row `r`. -/
def buildExpr (s : Elim) (free_cols free_order : List Nat) (r : Nat) : Run ExprScaled := do
  let base := s.rhs r
  let coef_r ← mapRun (fun fi => Rat.sub (Rat.ofInt 0) (s.A r (free_cols.getD fi 0))) free_order
  let D ← lcmAll coef_r base.d
  if D ≤ 0 then Run.throw Err.badDenominator
  else do
    let eb ← narrow64 (base.n * Int.tdiv D base.d)
    let ec ← mapRun (fun c => narrow64 (c.n * Int.tdiv D c.d)) coef_r
    pure ⟨D, eb, ec⟩

/-- The rows `r` with `pivot_col[r] != -1`, in increasing order. -/
def pivotRows (m : Nat) (pivot_col : Nat → Int) : List Nat :=
  (List.range m).filter (fun r => decide (pivot_col r ≠ -1))

/-- Source method `build_parametrization`. -/
def build_parametrization (ld : LongDouble) (m k : Nat) (b : List Int) (masks : List Nat)
    (s : Elim) : Run Param :=
  let free_cols := freeCols m k s.pivot_col
  let d := free_cols.length
  if d > 3 then Run.throw Err.largeNullspace
  else do
    let sumB ← sumTargets b 0
    let ub0 := free_cols.map (ub0Of m b masks sumB)
    let w ← weights ld m s free_cols
    let free_order := freeOrder ld w ub0 d
    let ub := free_order.map (fun fi => ub0.getD fi 0)
    let piv_exprs ← mapRun (buildExpr s free_cols free_order) (pivotRows m s.pivot_col)
    pure ⟨free_cols, free_order, ub, piv_exprs⟩

/-- The sum `sum_{lo <= i < lo + n} f i`. -/
def sumFrom (f : Nat → Int) (lo n : Nat) : Int :=
  ((List.range n).map (fun i => f (lo + i))).sum

/-- The numerator `e.base + sum_{i < d} e.coef[i] * x[i]` of a pivot expression. -/
def exprNum (e : ExprScaled) (d : Nat) (x : Nat → Int) : Int :=
  e.base + sumFrom (fun i => e.coef.getD i 0 * x i) 0 d

/-- The value `maxv` of `can_still_be_nonneg` for one expression. -/
def maxNum (e : ExprScaled) (ub : List Int) (d : Nat) (x : Nat → Int) (pos : Nat) : Int :=
  e.base + sumFrom (fun i => e.coef.getD i 0 * x i) 0 pos
    + sumFrom (fun i => if e.coef.getD i 0 > 0 then e.coef.getD i 0 * ub.getD i 0 else 0) pos (d - pos)

/-- Source method `can_still_be_nonneg`. -/
def can_still_be_nonneg (exprs : List ExprScaled) (ub : List Int) (d : Nat) (x : Nat → Int)
    (pos : Nat) : Bool :=
  exprs.all (fun e => !decide (maxNum e ub d x pos < 0))

/-- The loop over `piv_exprs` at a leaf of `dfs`: `none` when the leaf is rejected
(one of the `return`s inside the loop), otherwise the final `total`. -/
def evalLeaf (d : Nat) (x : Nat → Int) (best : Int) : List ExprScaled → Int → Run (Option Int)
  | [], total => pure (some total)
  | e :: es, total =>
    let num := exprNum e d x
    if num < 0 then pure none
    else do
      let n64 ← narrow64 num
      if Int.tmod n64 e.D ≠ 0 then pure none
      else
        let val := Int.tdiv n64 e.D
        if val < 0 then pure none
        else do
          let total1 ← narrow64 (total + val)
          if total1 ≥ best then pure none
          else evalLeaf d x best es total1

/-- The value `approx_w` of `dfs`. -/
def approxW (ld : LongDouble) (exprs : List ExprScaled) (pos : Nat) : ld.F :=
  exprs.foldl (fun w e => ld.add w (ld.div (ld.ofInt (e.coef.getD pos 0)) (ld.ofInt e.D)))
    (ld.ofInt 1)

/-- Source method `dfs`.  The first argument is `d - pos`; `x` and `sum_free` are
passed down (the source restores `sum_free` after each call and only reads
`x[i]` at positions assigned on the current path), `best` is threaded through. -/
def dfs (ld : LongDouble) (exprs : List ExprScaled) (ub : List Int) (d : Nat) :
    Nat → Nat → (Nat → Int) → Int → Int → Run Int
  | rem, pos, x, sum_free, best =>
    if sum_free ≥ best then pure best
    else if !can_still_be_nonneg exprs ub d x pos then pure best
    else
      match rem with
      | 0 => do
        let r ← evalLeaf d x best exprs sum_free
        match r with
        | none => pure best
        | some total => pure (min best total)
      | rem1 + 1 =>
        let hi := ub.getD pos 0
        if ld.lt (approxW ld exprs pos) (ld.ofInt 0) then
          forDown (fun v best1 => do
            let s1 ← narrow64 (sum_free + (v : Int))
            dfs ld exprs ub d rem1 (pos + 1) (set1 x pos (v : Int)) s1 best1) (hi + 1).toNat best
        else
          forUp (fun v best1 => do
            let s1 ← narrow64 (sum_free + (v : Int))
            dfs ld exprs ub d rem1 (pos + 1) (set1 x pos (v : Int)) s1 best1) 0 (hi + 1).toNat best

/-- The initial value `1LL << 60` of `best`. -/
def BEST0 : Int := 1152921504606846976

/-- Source method `enumerate`. -/
def enumerate (ld : LongDouble) (p : Param) : Run Int := do
  let best ← dfs ld p.piv_exprs p.ub p.free_cols.length p.free_cols.length 0 (fun _ => 0) 0 BEST0
  if best ≥ BEST0 then Run.throw Err.noSolution
  else pure best

/-- The constructor of `SolveMachine` followed by the read of `best`:
source function `minimal_presses_for_machine`. -/
def minimal_presses_for_machine (ld : LongDouble) (b : List Int) (masks : List Nat) : Run Int :=
  let m := b.length
  let k := masks.length
  if m = 0 then Run.throw Err.emptyMachine
  else if k = 0 then Run.throw Err.noButtons
  else do
    let s ← gauss_jordan_rref m k (build_matrix b masks)
    let p ← build_parametrization ld m k b masks s
    enumerate ld p

/-! ## Specification vocabulary -/

/-- A Hoare-style judgement for executions: if no narrowing changed a value,
then a normal return satisfies `P` and a thrown error satisfies `Q`. -/
def Run.Sat {α : Type} (x : Run α) (P : α → Prop) (Q : Err → Prop) : Prop :=
  x.wrapped = false →
    match x.out with
    | Res.ok a => P a
    | Res.error e => Q e

/-- A well-formed fraction: normal form with both fields in the symmetric 64-bit range. -/
def Rat.WF (r : Rat) : Prop :=
  0 < r.d ∧ Int.gcd r.n r.d = 1 ∧ -INT64_MAX ≤ r.n ∧ r.n ≤ INT64_MAX ∧ r.d ≤ INT64_MAX

/-- The rational value of the row sum `sum_{j < k} A[i][j] * x[j]`. -/
def rowDot (k : Nat) (A : Nat → Nat → Rat) (x : Nat → ℚ) (i : Nat) : ℚ :=
  ∑ j in Finset.range k, (A i j).toQ * x j

/-- The rational vector `x` solves the `m × k` system `A x = rhs`. -/
def Solves (m k : Nat) (A : Nat → Nat → Rat) (rhs : Nat → Rat) (x : Nat → ℚ) : Prop :=
  ∀ i, i < m → rowDot k A x i = (rhs i).toQ

/-- All entries of the `m × k` system are well-formed fractions. -/
def EntriesWF (m k : Nat) (A : Nat → Nat → Rat) (rhs : Nat → Rat) : Prop :=
  (∀ i j, i < m → j < k → (A i j).WF) ∧ (∀ i, i < m → (rhs i).WF)

/-- The shape reached by the elimination loop after the columns `< col`:
the first `s.row` rows carry pivots in strictly increasing columns `< col`, each
pivot column is a unit vector, entries left of a pivot are zero, and the rows
from `s.row` on vanish in every column `< col`. -/
structure Echelon (m k col : Nat) (s : Elim) : Prop where
  row_le : s.row ≤ m
  row_le_col : s.row ≤ col
  pivot_lt : ∀ r, r < s.row → ∃ c : Nat, s.pivot_col r = (c : Int) ∧ c < col ∧ c < k
  pivot_mono : ∀ r r1, r < r1 → r1 < s.row → s.pivot_col r < s.pivot_col r1
  pivot_none : ∀ r, s.row ≤ r → s.pivot_col r = -1
  pivot_one : ∀ r (c : Nat), r < s.row → s.pivot_col r = (c : Int) → (s.A r c).toQ = 1
  pivot_clear : ∀ r (c : Nat), r < s.row → s.pivot_col r = (c : Int) →
    ∀ i, i < m → i ≠ r → (s.A i c).toQ = 0
  below_zero : ∀ i j, s.row ≤ i → i < m → j < col → j < k → (s.A i j).toQ = 0
  left_zero : ∀ r (c : Nat), r < s.row → s.pivot_col r = (c : Int) →
    ∀ j, j < c → (s.A r j).toQ = 0

/-- The invariant of the elimination loop: well-formed entries, the same rational
solutions as the initial system `s0`, and the echelon shape up to column `col`. -/
structure GaussInv (m k : Nat) (s0 : Elim) (col : Nat) (s : Elim) : Prop where
  wf : EntriesWF m k s.A s.rhs
  sol : ∀ x, Solves m k s.A s.rhs x ↔ Solves m k s0.A s0.rhs x
  ech : Echelon m k col s

/-- The state reached by a successful `gauss_jordan_rref`. -/
structure Reduced (m k : Nat) (A : Nat → Nat → Rat) (rhs : Nat → Rat) (s : Elim) : Prop where
  inv : GaussInv m k ⟨A, rhs, fun _ => -1, 0⟩ k s
  zero_rows : ∀ r c, s.row ≤ r → r < m → c < k → (s.A r c).toQ = 0
  zero_rhs : ∀ r, s.row ≤ r → r < m → (s.rhs r).toQ = 0

/-- Every pivot numerator at the point `x` is non-negative and divisible by its scale. -/
def Feasible (exprs : List ExprScaled) (d : Nat) (x : Nat → Int) : Prop :=
  ∀ e, e ∈ exprs → 0 ≤ exprNum e d x ∧ e.D ∣ exprNum e d x

/-- The sum of the pivot quotients at the point `x`. -/
def valSum (exprs : List ExprScaled) (d : Nat) (x : Nat → Int) : Int :=
  (exprs.map (fun e => exprNum e d x / e.D)).sum

/-- The total of a leaf: the free values plus the pivot quotients. -/
def leafTotal (exprs : List ExprScaled) (d : Nat) (x : Nat → Int) : Int :=
  sumFrom x 0 d + valSum exprs d x

/-- The point `y` extends the first `pos` coordinates of `x` inside the box `0 ≤ y[i] ≤ ub[i]`. -/
def Ext (ub : List Int) (d pos : Nat) (x y : Nat → Int) : Prop :=
  (∀ i, i < pos → y i = x i) ∧ (∀ i, pos ≤ i → i < d → 0 ≤ y i ∧ y i ≤ ub.getD i 0)

/-- What a part of the search guarantees about `best`: it only decreases, a new value
is the total of a feasible point of `inbox`, and it is at most the total of every
feasible point of `cover`. -/
def SearchPost (exprs : List ExprScaled) (d : Nat) (cover inbox : (Nat → Int) → Prop)
    (best best1 : Int) : Prop :=
  best1 ≤ best ∧
  (best1 = best ∨ ∃ y, inbox y ∧ Feasible exprs d y ∧ leafTotal exprs d y = best1) ∧
  ∀ y, cover y → Feasible exprs d y → best1 ≤ leafTotal exprs d y

/-- The column visited at search position `oi`: `free_cols[free_order[oi]]`. -/
def Param.fcol (p : Param) (oi : Nat) : Nat :=
  p.free_cols.getD (p.free_order.getD oi 0) 0

/-- What a successful `build_parametrization` establishes about its result. -/
structure ParamOK (m k : Nat) (b : List Int) (masks : List Nat) (s : Elim) (p : Param) : Prop where
  fc : p.free_cols = freeCols m k s.pivot_col
  d_le : p.free_cols.length ≤ 3
  fo : List.Perm p.free_order (List.range p.free_cols.length)
  sum_ok : b ≠ [] → inI32 b.sum = true
  ub : p.ub = p.free_order.map (fun fi => ub0Of m b masks b.sum (p.free_cols.getD fi 0))
  ex_len : p.piv_exprs.length = s.row
  ex_D : ∀ r, r < s.row → 0 < (p.piv_exprs.getD r ⟨1, 0, []⟩).D
  ex_base : ∀ r, r < s.row →
    (((p.piv_exprs.getD r ⟨1, 0, []⟩).base : Int) : ℚ)
      = ((p.piv_exprs.getD r ⟨1, 0, []⟩).D : ℚ) * (s.rhs r).toQ
  ex_coef : ∀ r, r < s.row → ∀ oi, oi < p.free_cols.length →
    ((((p.piv_exprs.getD r ⟨1, 0, []⟩).coef.getD oi 0 : Int)) : ℚ)
      = ((p.piv_exprs.getD r ⟨1, 0, []⟩).D : ℚ) * (-(s.A r (p.fcol oi)).toQ)

/-- The pivot column of row `r` as a natural number. -/
def Elim.pcol (s : Elim) (r : Nat) : Nat := (s.pivot_col r).toNat

/-- The columns `0 .. k-1` split into the pivot columns `pc 0 .. pc (rank-1)` and the
free columns `fc 0 .. fc (d-1)`, without repetition. -/
structure ColFacts (k rank d : Nat) (pc fc : Nat → Nat) : Prop where
  pc_lt : ∀ r, r < rank → pc r < k
  pc_inj : ∀ r r1, r < rank → r1 < rank → pc r = pc r1 → r = r1
  fc_lt : ∀ oi, oi < d → fc oi < k
  fc_inj : ∀ oi oi1, oi < d → oi1 < d → fc oi = fc oi1 → oi = oi1
  disj : ∀ r oi, r < rank → oi < d → pc r ≠ fc oi
  cover : ∀ j, j < k → (∃ r, r < rank ∧ pc r = j) ∨ (∃ oi, oi < d ∧ fc oi = j)

/-- The number of presses that reach counter `i` under the assignment `x`:
the sum of `x j` over the masks `j` that contain `i`. -/
def rowPresses (masks : List Nat) (x : Nat → Nat) (i : Nat) : Nat :=
  ∑ j in Finset.range masks.length, if maskBit (masks.getD j 0) i then x j else 0

/-- The assignment `x` of press counts to the masks reaches every target exactly. -/
def IsSolution (b : List Int) (masks : List Nat) (x : Nat → Nat) : Prop :=
  ∀ i, i < b.length → (rowPresses masks x i : Int) = b.getD i 0

/-- The total number of presses of the assignment `x`. -/
def totalPresses (masks : List Nat) (x : Nat → Nat) : Nat :=
  ∑ j in Finset.range masks.length, x j

/-- The assignment `x` with the press counts of the masks that touch none of the
`m` counters reset to zero. -/
def zeroEmpty (m : Nat) (masks : List Nat) (x : Nat → Nat) : Nat → Nat :=
  fun j => if (List.range m).any (fun i => maskBit (masks.getD j 0) i) then x j else 0

/-- The number of free columns left by the elimination loop on the instance
`(b, masks)` (`0` when the loop does not finish). -/
def freeCount (b : List Int) (masks : List Nat) : Nat :=
  match (gaussLoop b.length masks.length
      ⟨(build_matrix b masks).A, (build_matrix b masks).rhs, fun _ => -1, 0⟩).out with
  | Res.ok s => (freeCols b.length masks.length s.pivot_col).length
  | Res.error _ => 0

/-- The guarantee on a value returned by the solver: some assignment of press
counts reaches all targets with this total, and no assignment does with less. -/
def IsMinimum (b : List Int) (masks : List Nat) (v : Int) : Prop :=
  (∃ x, IsSolution b masks x ∧ (totalPresses masks x : Int) = v) ∧
  ∀ x, IsSolution b masks x → v ≤ (totalPresses masks x : Int)

/-- The guarantee on an error thrown by the solver. -/
def ErrorSpec (b : List Int) (masks : List Nat) (e : Err) : Prop :=
  (e = Err.emptyMachine ∧ b = []) ∨
  (e = Err.noButtons ∧ b ≠ [] ∧ masks = []) ∨
  ((e = Err.inconsistent ∨ e = Err.noSolution) ∧ b ≠ [] ∧ masks ≠ [] ∧
    ¬ ∃ x, IsSolution b masks x) ∨
  (e = Err.largeNullspace ∧ 3 < freeCount b masks) ∨
  e = Err.lcmOverflow

/-- The 0/1 coefficient matrix of an instance with `m` counters, over the rationals:
entry `(i, j)` is 1 when mask `j` contains counter `i`. -/
def maskMatrix (m : Nat) (masks : List Nat) : Matrix (Fin m) (Fin masks.length) ℚ :=
  fun i j => if maskBit (masks.getD j 0) i then 1 else 0

/-- A vector indexed by `Fin k`, extended by zero to all indices. -/
def extFin {k : Nat} (z : Fin k → ℚ) : Nat → ℚ :=
  fun j => if h : j < k then z ⟨j, h⟩ else 0

/-- Every error the execution can throw satisfies `S` (whether or not a narrowing
changed a value on the way). -/
def Run.Throws {α : Type} (x : Run α) (S : Err → Prop) : Prop :=
  ∀ e, x.out = Res.error e → S e

/-! ## Exhaustive enumeration of the search box -/

/-- The integer points of the box `0 ≤ x[i] ≤ ub[i]`, as lists of coordinates. -/
def boxPoints : List Int → List (List Int)
  | [] => [[]]
  | u :: us =>
    ((List.range (u + 1).toNat).map
      (fun (v : Nat) => (boxPoints us).map (fun l => (v : Int) :: l))).flatten

/-- A list of coordinates read as an assignment of the free variables. -/
def pointOf (l : List Int) : Nat → Int := fun i => l.getD i 0

/-- The test "every pivot numerator is non-negative and divisible by its `D`". -/
def feasibleB (exprs : List ExprScaled) (d : Nat) (x : Nat → Int) : Bool :=
  exprs.all (fun e => decide (0 ≤ exprNum e d x) && decide (e.D ∣ exprNum e d x))

/-- The totals `sum(x) + sum of the pivot quotients` of the feasible points of the box. -/
def feasibleTotals (exprs : List ExprScaled) (ub : List Int) : List Int :=
  ((boxPoints ub).filter (fun l => feasibleB exprs ub.length (pointOf l))).map
    (fun l => leafTotal exprs ub.length (pointOf l))

/-- The result of exhaustive enumeration as the specification words it: the minimum
of the totals over the feasible points of the box, and `2^60` when there is none. -/
def exhaustiveMin (exprs : List ExprScaled) (ub : List Int) : Int :=
  match feasibleTotals exprs ub with
  | [] => BEST0
  | t :: ts => ts.foldl min t

end Day10

namespace Day10

/-! ## Laws of the execution monad -/

@[simp] theorem pure_eq_ret {α : Type} (a : α) : (pure a : Run α) = Run.ret a := rfl

@[simp] theorem bind_eq_bind {α β : Type} (x : Run α) (f : α → Run β) :
    x >>= f = Run.bind x f := rfl

@[simp] theorem Run.ret_out {α : Type} (a : α) : (Run.ret a).out = Res.ok a := rfl
@[simp] theorem Run.ret_wrapped {α : Type} (a : α) : (Run.ret a).wrapped = false := rfl
@[simp] theorem Run.throw_out {α : Type} (e : Err) : (Run.throw e : Run α).out = Res.error e := rfl
@[simp] theorem Run.throw_wrapped {α : Type} (e : Err) : (Run.throw e : Run α).wrapped = false := rfl

@[simp] theorem Run.ret_bind {α β : Type} (a : α) (f : α → Run β) :
    Run.bind (Run.ret a) f = f a := by
  simp [Run.bind, Run.ret]

theorem Run.bind_of_ok {α β : Type} {x : Run α} {a : α} (f : α → Run β)
    (h : x = ⟨Res.ok a, false⟩) : Run.bind x f = f a := by
  subst h; simp [Run.bind]

theorem Run.bind_of_error {α β : Type} {x : Run α} {e : Err} (f : α → Run β)
    (h : x.out = Res.error e) : Run.bind x f = ⟨Res.error e, x.wrapped⟩ := by
  simp [Run.bind, h]

theorem Run.bind_wrapped {α β : Type} {x : Run α} {f : α → Run β}
    (h : (Run.bind x f).wrapped = false) : x.wrapped = false := by
  unfold Run.bind at h
  cases hx : x.out with
  | error e => simpa [hx] using h
  | ok a => simp [hx] at h; exact h.1

theorem Run.bind_eq_ok {α β : Type} {x : Run α} {f : α → Run β} {b : β}
    (h : Run.bind x f = ⟨Res.ok b, false⟩) :
    ∃ a, x = ⟨Res.ok a, false⟩ ∧ f a = ⟨Res.ok b, false⟩ := by
  obtain ⟨xo, xw⟩ := x
  cases xo with
  | error e => simp [Run.bind] at h
  | ok a =>
    refine ⟨a, ?_, ?_⟩
    · simp [Run.bind] at h
      simp [h.2.1]
    · simp [Run.bind] at h
      cases hfa : f a with
      | mk fo fw =>
        simp [hfa] at h
        simp [h.1, h.2.2]

theorem Run.sat_ret {α : Type} {a : α} {P : α → Prop} {Q : Err → Prop} (h : P a) :
    (Run.ret a).Sat P Q := fun _ => h

theorem Run.sat_throw {α : Type} {e : Err} {P : α → Prop} {Q : Err → Prop} (h : Q e) :
    (Run.throw e : Run α).Sat P Q := fun _ => h

theorem Run.sat_bind {α β : Type} {x : Run α} {f : α → Run β} {P : α → Prop}
    {R : β → Prop} {Q : Err → Prop} (hx : x.Sat P Q) (hf : ∀ a, P a → (f a).Sat R Q) :
    (Run.bind x f).Sat R Q := by
  intro hw
  have hxw := Run.bind_wrapped hw
  have h1 := hx hxw
  unfold Run.bind at hw ⊢
  cases hxo : x.out with
  | error e => simp only [hxo] at h1 ⊢; exact h1
  | ok a =>
    simp only [hxo] at h1 hw ⊢
    simp only [Bool.or_eq_false_iff] at hw
    exact hf a h1 hw.2

theorem Run.Sat.mono {α : Type} {x : Run α} {P P1 : α → Prop} {Q Q1 : Err → Prop}
    (h : x.Sat P Q) (hP : ∀ a, P a → P1 a) (hQ : ∀ e, Q e → Q1 e) : x.Sat P1 Q1 := by
  intro hw
  have := h hw
  cases hxo : x.out with
  | error e => simp only [hxo] at this ⊢; exact hQ e this
  | ok a => simp only [hxo] at this ⊢; exact hP a this

theorem Run.Sat.of_ok {α : Type} {x : Run α} {P : α → Prop} {Q : Err → Prop} {a : α}
    (h : x.Sat P Q) (hx : x = ⟨Res.ok a, false⟩) : P a := by
  subst hx; exact h rfl

theorem Run.Sat.exists_ok {α : Type} {x : Run α} {P : α → Prop}
    (h : x.Sat P (fun _ => False)) (hw : x.wrapped = false) :
    ∃ a, x = ⟨Res.ok a, false⟩ ∧ P a := by
  have := h hw
  obtain ⟨xo, xw⟩ := x
  cases xo with
  | error e => exact this.elim
  | ok a => exact ⟨a, by simp at hw; simp [hw], this⟩

theorem Run.Sat.and {α : Type} {x : Run α} {P1 P2 : α → Prop} {Q : Err → Prop}
    (h1 : x.Sat P1 Q) (h2 : x.Sat P2 Q) : x.Sat (fun a => P1 a ∧ P2 a) Q := by
  intro hw
  have a1 := h1 hw
  have a2 := h2 hw
  cases hxo : x.out with
  | error e => simp only [hxo] at a1 ⊢; exact a1
  | ok a => simp only [hxo] at a1 a2 ⊢; exact ⟨a1, a2⟩

/-- Invariant rule for the counted loop. -/
theorem forUp_sat {σ : Type} (body : Nat → σ → Run σ) (I : Nat → σ → Prop) (Q : Err → Prop) :
    ∀ (n lo : Nat) (s : σ), I lo s →
      (∀ i s, lo ≤ i → i < lo + n → I i s → (body i s).Sat (I (i + 1)) Q) →
      (forUp body lo n s).Sat (I (lo + n)) Q := by
  intro n
  induction n with
  | zero => intro lo s h _; exact Run.sat_ret (by simpa using h)
  | succ n ih =>
    intro lo s h hb
    unfold forUp
    refine Run.sat_bind (hb lo s (le_refl _) (by omega) h) ?_
    intro s1 h1
    have := ih (lo + 1) s1 h1 (fun i s hi hi2 hI => hb i s (by omega) (by omega) hI)
    rw [show lo + (n + 1) = lo + 1 + n by omega]
    exact this

/-- Invariant rule for the downward loop: `I i` holds before index `i - 1` is processed. -/
theorem forDown_sat {σ : Type} (body : Nat → σ → Run σ) (I : Nat → σ → Prop) (Q : Err → Prop) :
    ∀ (n : Nat) (s : σ), I n s →
      (∀ i s, i < n → I (i + 1) s → (body i s).Sat (I i) Q) →
      (forDown body n s).Sat (I 0) Q := by
  intro n
  induction n with
  | zero => intro s h _; exact Run.sat_ret h
  | succ n ih =>
    intro s h hb
    unfold forDown
    refine Run.sat_bind (hb n s (by omega) h) ?_
    intro s1 h1
    exact ih s1 h1 (fun i s hi hI => hb i s (by omega) hI)

/-! ## Machine integers -/

theorem inI64_iff (x : Int) : inI64 x = true ↔ -9223372036854775808 ≤ x ∧ x ≤ 9223372036854775807 := by
  simp [inI64]

theorem wrap64_eq {x : Int} (h : inI64 x = true) : wrap64 x = x := by
  rw [inI64_iff] at h
  unfold wrap64
  omega

theorem narrow64_sat (x : Int) :
    (narrow64 x).Sat (fun y => y = x ∧ inI64 x = true) (fun _ => False) := by
  intro hw
  simp only [narrow64, Bool.not_eq_false'] at hw
  simp only [narrow64]
  exact ⟨wrap64_eq hw, hw⟩

theorem narrow64_ok {x : Int} (h : inI64 x = true) : narrow64 x = ⟨Res.ok x, false⟩ := by
  simp [narrow64, wrap64_eq h, h]

theorem igcdLoop_nat (fuel : Nat) : ∀ (A B : Nat), B ≤ fuel →
    igcdLoop fuel (A : Int) (B : Int) = ((Nat.gcd A B : Nat) : Int) := by
  induction fuel with
  | zero =>
    intro A B hB
    have : B = 0 := by omega
    subst this
    simp [igcdLoop]
  | succ fuel ih =>
    intro A B hB
    unfold igcdLoop
    by_cases hb : (B : Int) = 0
    · have : B = 0 := by exact_mod_cast hb
      subst this
      simp
    · have hB0 : B ≠ 0 := by intro h; apply hb; simp [h]
      rw [if_neg hb]
      have hmod : Int.tmod (A : Int) (B : Int) = ((A % B : Nat) : Int) := by
        rw [Int.tmod_eq_emod (Int.ofNat_nonneg A) (Int.ofNat_nonneg B)]
        simp
      rw [hmod, ih B (A % B) (by
        have := Nat.mod_lt A (Nat.pos_of_ne_zero hB0)
        omega)]
      congr 1
      rw [Nat.gcd_comm B (A % B), Nat.gcd_comm A B, Nat.gcd_rec B A]

theorem igcdLoop_eq {a b : Int} (ha : 0 ≤ a) (hb : 0 ≤ b) :
    igcdLoop b.natAbs a b = (Int.gcd a b : Int) := by
  obtain ⟨A, rfl⟩ := Int.eq_ofNat_of_zero_le ha
  obtain ⟨B, rfl⟩ := Int.eq_ofNat_of_zero_le hb
  rw [Int.natAbs_ofNat, igcdLoop_nat B A B (le_refl _)]
  simp [Int.gcd]

/-- Specification of `igcd`: absent overflow it returns `gcd(|a|, |b|)`, and neither
argument is `INT64_MIN` (given that they are `int64_t` values). -/
theorem igcd_sat (a b : Int) :
    (igcd a b).Sat (fun g => g = (Int.gcd a b : Int) ∧ -INT64_MAX ≤ a ∧ -INT64_MAX ≤ b)
      (fun _ => False) := by
  unfold igcd
  simp only [bind_eq_bind, pure_eq_ret]
  refine Run.sat_bind (P := fun a1 => a1 = |a| ∧ -INT64_MAX ≤ a) ?_ ?_
  · split
    · refine (narrow64_sat (-a)).mono ?_ (fun _ h => h)
      rintro y ⟨rfl, hy⟩
      rw [inI64_iff] at hy
      refine ⟨?_, by unfold INT64_MAX; omega⟩
      rw [abs_of_neg (by assumption)]
    · refine Run.sat_ret ⟨?_, by unfold INT64_MAX; omega⟩
      rw [abs_of_nonneg (by omega)]
  · rintro a1 ⟨rfl, ha⟩
    refine Run.sat_bind (P := fun b1 => b1 = |b| ∧ -INT64_MAX ≤ b) ?_ ?_
    · split
      · refine (narrow64_sat (-b)).mono ?_ (fun _ h => h)
        rintro y ⟨rfl, hy⟩
        rw [inI64_iff] at hy
        refine ⟨?_, by unfold INT64_MAX; omega⟩
        rw [abs_of_neg (by assumption)]
      · refine Run.sat_ret ⟨?_, by unfold INT64_MAX; omega⟩
        rw [abs_of_nonneg (by omega)]
    · rintro b1 ⟨rfl, hb⟩
      refine Run.sat_ret ⟨?_, ha, hb⟩
      rw [igcdLoop_eq (abs_nonneg a) (abs_nonneg b)]
      simp [Int.gcd, Int.natAbs_abs]

end Day10

namespace Day10

/-! ## Exact rationals -/

theorem Rat.WF.normal {r : Rat} (h : r.WF) : r.Normal := ⟨h.1, h.2.1⟩

theorem Rat.WF.in64 {r : Rat} (h : r.WF) : r.In64 := by
  obtain ⟨h1, _, h3, h4, h5⟩ := h
  unfold INT64_MAX at h3 h4 h5
  refine ⟨?_, ?_⟩ <;> rw [inI64_iff] <;> omega

theorem Rat.WF.dpos {r : Rat} (h : r.WF) : 0 < r.d := h.1

theorem Rat.toQ_eq_zero {r : Rat} (h : 0 < r.d) : r.toQ = 0 ↔ r.n = 0 := by
  unfold Rat.toQ
  have : (r.d : ℚ) ≠ 0 := by exact_mod_cast h.ne'
  rw [div_eq_zero_iff]
  simp [this]

theorem Rat.is_zero_iff {r : Rat} (h : 0 < r.d) : r.is_zero = true ↔ r.toQ = 0 := by
  rw [Rat.toQ_eq_zero h]
  simp [Rat.is_zero]

/-- A fraction in normal form is determined by its value. -/
theorem Rat.eq_of_toQ_eq {a b : Rat} (ha : a.Normal) (hb : b.Normal) (h : a.toQ = b.toQ) :
    a = b := by
  have hna := Rat.num_div_eq_of_coprime ha.1 (by simpa [Int.gcd] using ha.2 : Nat.Coprime a.n.natAbs a.d.natAbs)
  have hda := Rat.den_div_eq_of_coprime ha.1 (by simpa [Int.gcd] using ha.2 : Nat.Coprime a.n.natAbs a.d.natAbs)
  have hnb := Rat.num_div_eq_of_coprime hb.1 (by simpa [Int.gcd] using hb.2 : Nat.Coprime b.n.natAbs b.d.natAbs)
  have hdb := Rat.den_div_eq_of_coprime hb.1 (by simpa [Int.gcd] using hb.2 : Nat.Coprime b.n.natAbs b.d.natAbs)
  unfold Rat.toQ at h
  rw [h] at hna hda
  obtain ⟨an, ad⟩ := a
  obtain ⟨bn, bd⟩ := b
  simp only at hna hda hnb hdb
  have h1 : an = bn := by rw [← hna, hnb]
  have h2 : ad = bd := by rw [← hda, hdb]
  rw [h1, h2]

theorem Rat.WF_zero : (Rat.ofInt 0).WF := by
  refine ⟨by decide, by decide, by decide, by decide, by decide⟩

theorem Rat.WF_one : (Rat.ofInt 1).WF := by
  refine ⟨by decide, by decide, by decide, by decide, by decide⟩

theorem Rat.WF_ofInt {z : Int} (h1 : -INT64_MAX ≤ z) (h2 : z ≤ INT64_MAX) : (Rat.ofInt z).WF := by
  refine ⟨by simp [Rat.ofInt], by simp [Rat.ofInt], h1, h2, ?_⟩
  show (1 : Int) ≤ INT64_MAX
  decide

@[simp] theorem Rat.toQ_ofInt (z : Int) : (Rat.ofInt z).toQ = (z : ℚ) := by
  simp [Rat.toQ, Rat.ofInt]

/-- Dividing numerator and denominator by their gcd gives a well-formed fraction of the same value. -/
theorem Rat.reduce_wf {n d : Int} (hd : 0 < d) (hn1 : -INT64_MAX ≤ n) (hn2 : n ≤ INT64_MAX)
    (hd2 : d ≤ INT64_MAX) :
    (Rat.mk (Int.tdiv n (Int.gcd n d)) (Int.tdiv d (Int.gcd n d))).WF ∧
      (Rat.mk (Int.tdiv n (Int.gcd n d)) (Int.tdiv d (Int.gcd n d))).toQ = (n : ℚ) / (d : ℚ) := by
  have hg : 0 < Int.gcd n d := Int.gcd_pos_of_ne_zero_right n hd.ne'
  have hgz : (0 : Int) < (Int.gcd n d : Int) := by exact_mod_cast hg
  have h1 : ((Int.gcd n d : Int)) ∣ n := Int.gcd_dvd_left
  have h2 : ((Int.gcd n d : Int)) ∣ d := Int.gcd_dvd_right
  rw [Int.tdiv_eq_ediv_of_dvd h1, Int.tdiv_eq_ediv_of_dvd h2]
  obtain ⟨n1, hn⟩ := h1
  obtain ⟨d1, hd1⟩ := h2
  have e1 : n / (Int.gcd n d : Int) = n1 := Int.ediv_eq_of_eq_mul_right hgz.ne' hn
  have e2 : d / (Int.gcd n d : Int) = d1 := Int.ediv_eq_of_eq_mul_right hgz.ne' hd1
  have hcop := Int.gcd_div_gcd_div_gcd hg
  rw [e1, e2] at hcop
  rw [e1, e2]
  have hd1pos : 0 < d1 := by
    by_contra hc
    have : (Int.gcd n d : Int) * d1 ≤ 0 := Int.mul_nonpos_of_nonneg_of_nonpos hgz.le (by omega)
    omega
  have hg1 : (1 : Int) ≤ (Int.gcd n d : Int) := hgz
  refine ⟨⟨hd1pos, hcop, ?_, ?_, ?_⟩, ?_⟩
  · -- |n1| ≤ |n|
    simp only
    by_contra hc
    have hn1neg : n1 < -INT64_MAX := by omega
    have : (Int.gcd n d : Int) * n1 ≤ 1 * n1 :=
      Int.mul_le_mul_of_nonpos_right hg1 (by unfold INT64_MAX at hn1neg; omega)
    omega
  · simp only
    by_contra hc
    have hn1pos : INT64_MAX < n1 := by omega
    have : 1 * n1 ≤ (Int.gcd n d : Int) * n1 :=
      Int.mul_le_mul_of_nonneg_right hg1 (by unfold INT64_MAX at hn1pos; omega)
    omega
  · simp only
    have : 1 * d1 ≤ (Int.gcd n d : Int) * d1 :=
      Int.mul_le_mul_of_nonneg_right hg1 hd1pos.le
    omega
  · unfold Rat.toQ
    simp only
    have hgq : ((Int.gcd n d : Int) : ℚ) ≠ 0 := by exact_mod_cast hgz.ne'
    have hd1q : (d1 : ℚ) ≠ 0 := by exact_mod_cast hd1pos.ne'
    have hnq : (n : ℚ) = ((Int.gcd n d : Int) : ℚ) * n1 := by exact_mod_cast hn
    have hdq : (d : ℚ) = ((Int.gcd n d : Int) : ℚ) * d1 := by exact_mod_cast hd1
    rw [hnq, hdq]
    field_simp
    ring

/-- Specification of `Rat::normalize`. -/
theorem Rat.normalize_sat (r : Rat) (hd : r.d ≠ 0) (h64 : r.In64) :
    (Rat.normalize r).Sat (fun q => q.WF ∧ q.toQ = r.toQ) (fun _ => False) := by
  obtain ⟨hn64, hd64⟩ := h64
  rw [inI64_iff] at hn64 hd64
  unfold Rat.normalize
  rw [if_neg hd]
  split
  · rename_i hn
    refine Run.sat_ret ⟨?_, ?_⟩
    · rw [hn]; exact Rat.WF_zero
    · simp [Rat.toQ, hn]
  · rename_i hn
    simp only [bind_eq_bind, pure_eq_ret]
    refine Run.sat_bind
      (P := fun d1 => d1 = |r.d| ∧ d1 ≤ INT64_MAX) ?_ ?_
    · split
      · refine (narrow64_sat (-r.d)).mono ?_ (fun _ h => h)
        rintro y ⟨rfl, hy⟩
        rw [inI64_iff] at hy
        exact ⟨(abs_of_neg (by assumption)).symm, by unfold INT64_MAX; omega⟩
      · exact Run.sat_ret ⟨(abs_of_nonneg (by omega)).symm, by unfold INT64_MAX; omega⟩
    · rintro d1 ⟨rfl, hd1⟩
      refine Run.sat_bind
        (P := fun n1 => n1 = (if r.d < 0 then -r.n else r.n) ∧ n1 ≤ INT64_MAX) ?_ ?_
      · split
        · refine (narrow64_sat (-r.n)).mono ?_ (fun _ h => h)
          rintro y ⟨rfl, hy⟩
          rw [inI64_iff] at hy
          exact ⟨rfl, by unfold INT64_MAX; omega⟩
        · exact Run.sat_ret ⟨rfl, by unfold INT64_MAX; omega⟩
      · rintro n1 ⟨hn1, hn1max⟩
        refine Run.sat_bind (igcd_sat n1 |r.d|) ?_
        rintro g ⟨rfl, hlo, -⟩
        have hdpos : 0 < |r.d| := abs_pos.mpr hd
        have := Rat.reduce_wf hdpos hlo hn1max hd1
        refine Run.sat_ret ⟨this.1, ?_⟩
        rw [this.2, hn1]
        unfold Rat.toQ
        split
        · rw [abs_of_neg (by assumption)]
          push_cast
          rw [neg_div_neg_eq]
        · rw [abs_of_nonneg (by omega)]

theorem Rat.tdiv_gcd_mul {a b g : Int} (hb : 0 < b) (hgdef : g = (Int.gcd a b : Int)) :
    ∃ a1 b1 : Int, Int.tdiv a g = a1 ∧ Int.tdiv b g = b1 ∧
      a = g * a1 ∧ b = g * b1 ∧ 0 < b1 ∧ 0 < g := by
  have hg : 0 < Int.gcd a b := Int.gcd_pos_of_ne_zero_right a hb.ne'
  have hgz : (0 : Int) < g := by rw [hgdef]; exact_mod_cast hg
  have h1 : g ∣ a := by rw [hgdef]; exact Int.gcd_dvd_left
  have h2 : g ∣ b := by rw [hgdef]; exact Int.gcd_dvd_right
  rw [Int.tdiv_eq_ediv_of_dvd h1, Int.tdiv_eq_ediv_of_dvd h2]
  obtain ⟨a1, ha⟩ := h1
  obtain ⟨b1, hb1⟩ := h2
  refine ⟨a1, b1, ?_, ?_, ha, hb1, ?_, hgz⟩
  · exact Int.ediv_eq_of_eq_mul_right hgz.ne' ha
  · exact Int.ediv_eq_of_eq_mul_right hgz.ne' hb1
  · by_contra hc
    have : g * b1 ≤ 0 := Int.mul_nonpos_of_nonneg_of_nonpos hgz.le (by omega)
    omega

/-- Specification of `operator+`. -/
theorem Rat.add_sat {a b : Rat} (ha : a.Normal) (hb : b.Normal) :
    (Rat.add a b).Sat (fun q => q.WF ∧ q.toQ = a.toQ + b.toQ) (fun _ => False) := by
  unfold Rat.add
  simp only [bind_eq_bind]
  refine Run.sat_bind (igcd_sat a.d b.d) ?_
  rintro g ⟨hgdef, -, -⟩
  obtain ⟨ad, bd, e1, e2, h1, h2, hbd, hg⟩ := Rat.tdiv_gcd_mul hb.1 hgdef
  have had : 0 < ad := by
    by_contra hc
    have : g * ad ≤ 0 := Int.mul_nonpos_of_nonneg_of_nonpos hg.le (by omega)
    have := ha.1
    omega
  simp only [e1, e2]
  refine Run.sat_bind (narrow64_sat _) ?_
  rintro rn ⟨rfl, hrn⟩
  refine Run.sat_bind (narrow64_sat _) ?_
  rintro rd ⟨rfl, hrd⟩
  have hden : 0 < ad * b.d := Int.mul_pos had hb.1
  refine (Rat.normalize_sat _ (by simpa using hden.ne') ⟨hrn, hrd⟩).mono ?_ (fun _ h => h)
  rintro q ⟨hq, hv⟩
  refine ⟨hq, ?_⟩
  rw [hv]
  unfold Rat.toQ
  simp only
  have hgq : (g : ℚ) ≠ 0 := by exact_mod_cast hg.ne'
  have hadq : (ad : ℚ) ≠ 0 := by exact_mod_cast had.ne'
  have hbdq : (bd : ℚ) ≠ 0 := by exact_mod_cast hbd.ne'
  have hbq : (b.d : ℚ) = (g : ℚ) * bd := by exact_mod_cast h2
  have haq : (a.d : ℚ) = (g : ℚ) * ad := by exact_mod_cast h1
  push_cast
  rw [hbq, haq]
  field_simp
  ring

/-- Specification of `operator*`. -/
theorem Rat.mul_sat {a b : Rat} (ha : a.Normal) (hb : b.Normal) :
    (Rat.mul a b).Sat (fun q => q.WF ∧ q.toQ = a.toQ * b.toQ) (fun _ => False) := by
  unfold Rat.mul
  split
  · rename_i h0
    refine Run.sat_ret ⟨Rat.WF_zero, ?_⟩
    rcases h0 with h0 | h0
    · simp [Rat.toQ, Rat.ofInt, h0]
    · simp [Rat.toQ, Rat.ofInt, h0]
  · simp only [bind_eq_bind]
    refine Run.sat_bind (igcd_sat a.n b.d) ?_
    rintro g1 ⟨hg1def, -, -⟩
    refine Run.sat_bind (igcd_sat b.n a.d) ?_
    rintro g2 ⟨hg2def, -, -⟩
    obtain ⟨an, bd, e1, e2, h1, h2, hbd, hg1⟩ := Rat.tdiv_gcd_mul hb.1 hg1def
    obtain ⟨bn, ad, e3, e4, h3, h4, had, hg2⟩ := Rat.tdiv_gcd_mul ha.1 hg2def
    simp only [e1, e2, e3, e4]
    refine Run.sat_bind (narrow64_sat _) ?_
    rintro rn ⟨rfl, hrn⟩
    refine Run.sat_bind (narrow64_sat _) ?_
    rintro rd ⟨rfl, hrd⟩
    have hden : 0 < ad * bd := Int.mul_pos had hbd
    refine (Rat.normalize_sat _ (by simpa using hden.ne') ⟨hrn, hrd⟩).mono ?_ (fun _ h => h)
    rintro q ⟨hq, hv⟩
    refine ⟨hq, ?_⟩
    rw [hv]
    unfold Rat.toQ
    simp only
    have hg1q : (g1 : ℚ) ≠ 0 := by exact_mod_cast hg1.ne'
    have hg2q : (g2 : ℚ) ≠ 0 := by exact_mod_cast hg2.ne'
    have hadq : (ad : ℚ) ≠ 0 := by exact_mod_cast had.ne'
    have hbdq : (bd : ℚ) ≠ 0 := by exact_mod_cast hbd.ne'
    have q1 : (a.n : ℚ) = (g1 : ℚ) * an := by exact_mod_cast h1
    have q2 : (b.d : ℚ) = (g1 : ℚ) * bd := by exact_mod_cast h2
    have q3 : (b.n : ℚ) = (g2 : ℚ) * bn := by exact_mod_cast h3
    have q4 : (a.d : ℚ) = (g2 : ℚ) * ad := by exact_mod_cast h4
    push_cast
    rw [q1, q2, q3, q4]
    field_simp
    ring

/-- Specification of `operator-`. -/
theorem Rat.sub_sat {a b : Rat} (ha : a.Normal) (hb : b.Normal) (hb64 : b.In64) :
    (Rat.sub a b).Sat (fun q => q.WF ∧ q.toQ = a.toQ - b.toQ) (fun _ => False) := by
  unfold Rat.sub Rat.mk2
  simp only [bind_eq_bind]
  refine Run.sat_bind (narrow64_sat _) ?_
  rintro nb ⟨rfl, hnb⟩
  refine Run.sat_bind (Rat.normalize_sat _ (by simpa using hb.1.ne') ⟨hnb, hb64.2⟩) ?_
  rintro mb ⟨hmb, hv⟩
  refine (Rat.add_sat ha hmb.normal).mono ?_ (fun _ h => h)
  rintro q ⟨hq, hqv⟩
  refine ⟨hq, ?_⟩
  rw [hqv, hv]
  unfold Rat.toQ
  push_cast
  ring

/-- Specification of `operator/` for a non-zero divisor. -/
theorem Rat.div_sat {a b : Rat} (ha : a.Normal) (hb64 : b.In64) (hbn : b.n ≠ 0) :
    (Rat.div a b).Sat (fun q => q.WF ∧ q.toQ = a.toQ / b.toQ) (fun _ => False) := by
  unfold Rat.div Rat.mk2
  rw [if_neg hbn]
  simp only [bind_eq_bind]
  refine Run.sat_bind (Rat.normalize_sat _ (by simpa using hbn) ⟨hb64.2, hb64.1⟩) ?_
  rintro inv ⟨hinv, hv⟩
  refine Run.sat_bind (Rat.normalize_sat _ hinv.1.ne' hinv.in64) ?_
  rintro inv2 ⟨hinv2, hv2⟩
  refine (Rat.mul_sat ha hinv2.normal).mono ?_ (fun _ h => h)
  rintro q ⟨hq, hqv⟩
  refine ⟨hq, ?_⟩
  rw [hqv, hv2, hv]
  unfold Rat.toQ
  simp only
  rw [div_div_eq_mul_div, mul_div_assoc, div_mul_eq_mul_div, mul_div_assoc]

end Day10

namespace Day10

/-! ## Elimination: the inner loops -/

theorem findPivot_some {A : Nat → Nat → Rat} {col : Nat} :
    ∀ (n r piv : Nat), findPivot A col r n = some piv →
      r ≤ piv ∧ piv < r + n ∧ (A piv col).is_zero = false ∧
        ∀ i, r ≤ i → i < piv → (A i col).is_zero = true := by
  intro n
  induction n with
  | zero => intro r piv h; simp [findPivot] at h
  | succ n ih =>
    intro r piv h
    unfold findPivot at h
    by_cases hz : (A r col).is_zero = true
    · simp only [hz, Bool.not_true, Bool.false_eq_true, if_false] at h
      obtain ⟨h1, h2, h3, h4⟩ := ih (r + 1) piv h
      refine ⟨by omega, by omega, h3, ?_⟩
      intro i hi1 hi2
      by_cases hir : i = r
      · rw [hir]; exact hz
      · exact h4 i (by omega) hi2
    · simp only [Bool.not_eq_true] at hz
      simp only [hz, Bool.not_false, if_true, Option.some.injEq] at h
      subst h
      exact ⟨le_refl _, by omega, hz, fun i h1 h2 => by omega⟩

theorem findPivot_none {A : Nat → Nat → Rat} {col : Nat} :
    ∀ (n r : Nat), findPivot A col r n = none →
      ∀ i, r ≤ i → i < r + n → (A i col).is_zero = true := by
  intro n
  induction n with
  | zero => intro r _ i h1 h2; omega
  | succ n ih =>
    intro r h i h1 h2
    unfold findPivot at h
    by_cases hz : (A r col).is_zero = true
    · simp only [hz, Bool.not_true, Bool.false_eq_true, if_false] at h
      by_cases hir : i = r
      · rw [hir]; exact hz
      · exact ih (r + 1) h i (by omega) (by omega)
    · simp only [Bool.not_eq_true] at hz
      simp [hz] at h

theorem swap1_self {α : Type} (f : Nat → α) (p : Nat) : swap1 f p p = f := by
  funext i
  unfold swap1
  split
  · rename_i h; rw [h]
  · rfl

/-- Specification of the scaling loop. -/
theorem scaleRow_sat {k col row : Nat} {pv : Rat} {A0 : Nat → Nat → Rat} (hcol : col ≤ k)
    (hpv : pv.WF) (hpv0 : pv.n ≠ 0) (hA : ∀ j, j < k → (A0 row j).WF) :
    (scaleRow k col row pv A0).Sat (fun A =>
      (∀ i c, (i ≠ row ∨ c < col ∨ k ≤ c) → A i c = A0 i c) ∧
      (∀ c, col ≤ c → c < k → (A row c).WF ∧ (A row c).toQ = (A0 row c).toQ / pv.toQ))
      (fun _ => False) := by
  unfold scaleRow
  have := forUp_sat (fun j A => do
      let v ← Rat.div (A row j) pv
      pure (set2 A row j v))
    (fun j A => (∀ i c, (i ≠ row ∨ c < col ∨ j ≤ c) → A i c = A0 i c) ∧
      (∀ c, col ≤ c → c < j → (A row c).WF ∧ (A row c).toQ = (A0 row c).toQ / pv.toQ))
    (fun _ => False) (k - col) col A0 ⟨fun _ _ _ => rfl, fun c h1 h2 => by omega⟩ ?_
  · rw [show col + (k - col) = k by omega] at this
    exact this
  · intro j A hj1 hj2 ⟨hI1, hI2⟩
    simp only [bind_eq_bind, pure_eq_ret]
    have hAj : A row j = A0 row j := hI1 row j (Or.inr (Or.inr (le_refl _)))
    have hwf : (A row j).WF := by rw [hAj]; exact hA j (by omega)
    refine Run.sat_bind (Rat.div_sat hwf.normal hpv.in64 hpv0) ?_
    rintro v ⟨hv, hvq⟩
    refine Run.sat_ret ⟨?_, ?_⟩
    · intro i c hic
      unfold set2
      split
      · rename_i h; omega
      · exact hI1 i c (by omega)
    · intro c hc1 hc2
      unfold set2
      by_cases hcj : c = j
      · subst hcj
        simp only [and_self, if_true]
        exact ⟨hv, by rw [hvq, hAj]⟩
      · simp only [hcj, and_false, if_false]
        exact hI2 c hc1 (by omega)

/-- Specification of the innermost elimination loop. -/
theorem elimRow_sat {k col row r : Nat} {f : Rat} {A0 : Nat → Nat → Rat} (hcol : col ≤ k)
    (hr : r ≠ row) (hf : f.WF) (hA : ∀ j, j < k → (A0 r j).WF)
    (hArow : ∀ j, j < k → (A0 row j).WF) :
    (elimRow k col row r f A0).Sat (fun A =>
      (∀ i c, (i ≠ r ∨ c < col ∨ k ≤ c) → A i c = A0 i c) ∧
      (∀ c, col ≤ c → c < k → (A r c).WF ∧
        (A r c).toQ = (A0 r c).toQ - f.toQ * (A0 row c).toQ))
      (fun _ => False) := by
  unfold elimRow
  have := forUp_sat (fun j A => do
      let p ← Rat.mul f (A row j)
      let v ← Rat.sub (A r j) p
      pure (set2 A r j v))
    (fun j A => (∀ i c, (i ≠ r ∨ c < col ∨ j ≤ c) → A i c = A0 i c) ∧
      (∀ c, col ≤ c → c < j → (A r c).WF ∧
        (A r c).toQ = (A0 r c).toQ - f.toQ * (A0 row c).toQ))
    (fun _ => False) (k - col) col A0 ⟨fun _ _ _ => rfl, fun c h1 h2 => by omega⟩ ?_
  · rw [show col + (k - col) = k by omega] at this
    exact this
  · intro j A hj1 hj2 ⟨hI1, hI2⟩
    simp only [bind_eq_bind, pure_eq_ret]
    have hAj : A r j = A0 r j := hI1 r j (Or.inr (Or.inr (le_refl _)))
    have hArj : A row j = A0 row j := hI1 row j (Or.inl (Ne.symm hr))
    have hwf : (A r j).WF := by rw [hAj]; exact hA j (by omega)
    have hwf2 : (A row j).WF := by rw [hArj]; exact hArow j (by omega)
    refine Run.sat_bind (Rat.mul_sat hf.normal hwf2.normal) ?_
    rintro p ⟨hp, hpq⟩
    refine Run.sat_bind (Rat.sub_sat hwf.normal hp.normal hp.in64) ?_
    rintro v ⟨hv, hvq⟩
    refine Run.sat_ret ⟨?_, ?_⟩
    · intro i c hic
      unfold set2
      split
      · rename_i h; omega
      · exact hI1 i c (by omega)
    · intro c hc1 hc2
      unfold set2
      by_cases hcj : c = j
      · subst hcj
        simp only [and_self, if_true]
        exact ⟨hv, by rw [hvq, hpq, hAj, hArj]⟩
      · simp only [hcj, and_false, if_false]
        exact hI2 c hc1 (by omega)

/-- Specification of the loop clearing column `col`: every row `i ≠ row` becomes
`row_i - A[i][col] * row_row` on the columns `col ≤ c < k` and on the right-hand
side, and nothing else changes. -/
theorem elimCol_sat {m k col row : Nat} {A1 : Nat → Nat → Rat} {rhs1 : Nat → Rat}
    (hcol : col < k) (hwf : EntriesWF m k A1 rhs1) (hrow : row < m) :
    (elimCol m k col row (A1, rhs1)).Sat (fun s =>
      EntriesWF m k s.1 s.2 ∧
      (∀ c, s.1 row c = A1 row c) ∧ s.2 row = rhs1 row ∧
      (∀ i c, (c < col ∨ k ≤ c ∨ m ≤ i) → s.1 i c = A1 i c) ∧
      (∀ i, m ≤ i → s.2 i = rhs1 i) ∧
      (∀ i, i < m → i ≠ row →
        (∀ c, col ≤ c → c < k →
          (s.1 i c).toQ = (A1 i c).toQ - (A1 i col).toQ * (A1 row c).toQ) ∧
        (s.2 i).toQ = (rhs1 i).toQ - (A1 i col).toQ * (rhs1 row).toQ))
      (fun _ => False) := by
  unfold elimCol
  have := forUp_sat (fun r (s : (Nat → Nat → Rat) × (Nat → Rat)) =>
      if r = row then pure s
      else
        let f := s.1 r col
        if f.is_zero then pure s
        else do
          let A ← elimRow k col row r f s.1
          let p ← Rat.mul f (s.2 row)
          let v ← Rat.sub (s.2 r) p
          pure (A, set1 s.2 r v))
    (fun r s => EntriesWF m k s.1 s.2 ∧
      (∀ i, (r ≤ i ∨ i = row) → (∀ c, s.1 i c = A1 i c) ∧ s.2 i = rhs1 i) ∧
      (∀ i c, (c < col ∨ k ≤ c) → s.1 i c = A1 i c) ∧
      (∀ i, i < r → i ≠ row →
        (∀ c, col ≤ c → c < k →
          (s.1 i c).toQ = (A1 i c).toQ - (A1 i col).toQ * (A1 row c).toQ) ∧
        (s.2 i).toQ = (rhs1 i).toQ - (A1 i col).toQ * (rhs1 row).toQ))
    (fun _ => False) m 0 (A1, rhs1)
    ⟨hwf, fun _ _ => ⟨fun _ => rfl, rfl⟩, fun _ _ _ => rfl, fun i h => by omega⟩ ?_
  · rw [Nat.zero_add] at this
    refine this.mono ?_ (fun _ h => h)
    rintro s ⟨h1, h2, h3, h4⟩
    refine ⟨h1, (h2 row (Or.inr rfl)).1, (h2 row (Or.inr rfl)).2, ?_, ?_, h4⟩
    · intro i c hc
      rcases hc with hc | hc | hc
      · exact h3 i c (Or.inl hc)
      · exact h3 i c (Or.inr hc)
      · exact (h2 i (Or.inl hc)).1 c
    · intro i hi
      exact (h2 i (Or.inl hi)).2
  · intro r s hr1 hr2 ⟨hI1, hI2, hI3, hI4⟩
    have hrm : r < m := by omega
    by_cases hrr : r = row
    · simp only [hrr, if_true, pure_eq_ret]
      refine Run.sat_ret ⟨hI1, ?_, hI3, ?_⟩
      · intro i hi
        exact hI2 i (by omega)
      · intro i hi hir
        exact hI4 i (by omega) hir
    · simp only [hrr, if_false]
      have hrowA : ∀ c, s.1 row c = A1 row c := (hI2 row (Or.inr rfl)).1
      have hrA : ∀ c, s.1 r c = A1 r c := (hI2 r (Or.inl (le_refl _))).1
      have hrowR : s.2 row = rhs1 row := (hI2 row (Or.inr rfl)).2
      have hrR : s.2 r = rhs1 r := (hI2 r (Or.inl (le_refl _))).2
      by_cases hz : (s.1 r col).is_zero = true
      · simp only [hz, if_true, pure_eq_ret]
        have hz0 : (A1 r col).toQ = 0 := by
          rw [← hrA col]
          exact (Rat.is_zero_iff (hI1.1 r col hrm hcol).dpos).mp hz
        refine Run.sat_ret ⟨hI1, ?_, hI3, ?_⟩
        · intro i hi
          exact hI2 i (by omega)
        · intro i hi hir
          by_cases hir2 : i = r
          · subst hir2
            refine ⟨fun c _ _ => ?_, ?_⟩
            · rw [hrA c, hz0]; ring
            · rw [hrR, hz0]; ring
          · exact hI4 i (by omega) hir
      · simp only [hz, Bool.false_eq_true, if_false, bind_eq_bind, pure_eq_ret]
        have hfwf : (s.1 r col).WF := hI1.1 r col hrm hcol
        refine Run.sat_bind (elimRow_sat (Nat.le_of_lt hcol) hrr hfwf
          (fun j hj => hI1.1 r j hrm hj) (fun j hj => hI1.1 row j hrow hj)) ?_
        rintro A ⟨hA1, hA2⟩
        refine Run.sat_bind (Rat.mul_sat hfwf.normal (hI1.2 row hrow).normal) ?_
        rintro p ⟨hp, hpq⟩
        refine Run.sat_bind (Rat.sub_sat (hI1.2 r hrm).normal hp.normal hp.in64) ?_
        rintro v ⟨hv, hvq⟩
        refine Run.sat_ret ⟨⟨?_, ?_⟩, ?_, ?_, ?_⟩
        · intro i j hi hj
          show (A i j).WF
          by_cases hir : i = r
          · by_cases hjc : col ≤ j
            · rw [hir]; exact (hA2 j hjc hj).1
            · rw [hA1 i j (Or.inr (Or.inl (by omega)))]; exact hI1.1 i j hi hj
          · rw [hA1 i j (Or.inl hir)]; exact hI1.1 i j hi hj
        · intro i hi
          show (set1 s.2 r v i).WF
          unfold set1
          split
          · exact hv
          · exact hI1.2 i hi
        · intro i hi
          have hir : i ≠ r := by omega
          refine ⟨fun c => ?_, ?_⟩
          · show A i c = A1 i c
            rw [hA1 i c (Or.inl hir)]
            exact (hI2 i (by omega)).1 c
          · show set1 s.2 r v i = rhs1 i
            unfold set1
            rw [if_neg hir]
            exact (hI2 i (by omega)).2
        · intro i c hc
          show A i c = A1 i c
          rw [hA1 i c (Or.inr hc)]
          exact hI3 i c hc
        · intro i hi hir
          by_cases hir2 : i = r
          · subst hir2
            refine ⟨fun c hc1 hc2 => ?_, ?_⟩
            · show (A i c).toQ = _
              rw [(hA2 c hc1 hc2).2, hrA c, hrA col, hrowA c]
            · show (set1 s.2 i v i).toQ = _
              unfold set1
              rw [if_pos rfl, hvq, hpq, hrR, hrowR, hrA col]
          · obtain ⟨h41, h42⟩ := hI4 i (by omega) hir
            refine ⟨fun c hc1 hc2 => ?_, ?_⟩
            · show (A i c).toQ = _
              rw [hA1 i c (Or.inl hir2)]
              exact h41 c hc1 hc2
            · show (set1 s.2 r v i).toQ = _
              unfold set1
              rw [if_neg hir2]
              exact h42

end Day10

namespace Day10

/-! ## Elimination: one column -/

theorem rowop_solves {m k p col : Nat} {B C : Nat → Nat → Rat} {rb rc : Nat → Rat} {v : ℚ}
    (hp : p < m) (hv : v ≠ 0)
    (h1 : ∀ j, j < k → (C p j).toQ = (B p j).toQ / v)
    (h1r : (rc p).toQ = (rb p).toQ / v)
    (h2 : ∀ i, i < m → i ≠ p → ∀ j, j < k →
      (C i j).toQ = (B i j).toQ - (B i col).toQ * (C p j).toQ)
    (h2r : ∀ i, i < m → i ≠ p → (rc i).toQ = (rb i).toQ - (B i col).toQ * (rc p).toQ)
    (x : Nat → ℚ) : Solves m k C rc x ↔ Solves m k B rb x := by
  have e1 : rowDot k C x p = rowDot k B x p / v := by
    unfold rowDot
    rw [Finset.sum_div]
    refine Finset.sum_congr rfl (fun j hj => ?_)
    rw [h1 j (Finset.mem_range.mp hj)]
    ring
  have e2 : ∀ i, i < m → i ≠ p →
      rowDot k C x i = rowDot k B x i - (B i col).toQ * rowDot k C x p := by
    intro i hi hip
    unfold rowDot
    rw [Finset.mul_sum, ← Finset.sum_sub_distrib]
    refine Finset.sum_congr rfl (fun j hj => ?_)
    rw [h2 i hi hip j (Finset.mem_range.mp hj)]
    ring
  constructor
  · intro hC i hi
    by_cases hip : i = p
    · subst hip
      have := hC i hi
      rw [e1, h1r] at this
      field_simp at this
      exact this
    · have hcp := hC p hp
      have hci := hC i hi
      rw [e2 i hi hip, hcp, h2r i hi hip] at hci
      linarith
  · intro hB i hi
    by_cases hip : i = p
    · subst hip
      rw [e1, h1r, hB i hi]
    · have hcp : rowDot k C x p = (rc p).toQ := by rw [e1, h1r, hB p hp]
      rw [e2 i hi hip, hcp, h2r i hi hip, hB i hi]

theorem swap_solves {m k p q : Nat} {A : Nat → Nat → Rat} {rhs : Nat → Rat}
    (hp : p < m) (hq : q < m) (x : Nat → ℚ) :
    Solves m k (swap1 A p q) (swap1 rhs p q) x ↔ Solves m k A rhs x := by
  have key : ∀ i, rowDot k (swap1 A p q) x i = rowDot k A x (swap1 (fun t => t) p q i) ∧
      swap1 rhs p q i = rhs (swap1 (fun t => t) p q i) := by
    intro i
    unfold rowDot swap1
    by_cases h1 : i = p
    · simp [h1]
    · by_cases h2 : i = q
      · have h3 : ¬ q = p := by rw [← h2]; exact h1
        simp [h2, h3]
      · simp [h1, h2]
  have hlt : ∀ i, i < m → swap1 (fun t => t) p q i < m := by
    intro i hi
    unfold swap1
    split
    · exact hq
    · split
      · exact hp
      · exact hi
  have hinv : ∀ i, swap1 (fun t => t) p q (swap1 (fun t => t) p q i) = i := by
    intro i
    unfold swap1
    by_cases h1 : i = p
    · by_cases h3 : q = p
      · simp [h1, h3]
      · simp [h1, h3]
    · by_cases h2 : i = q
      · simp [h1, h2]
      · simp [h1, h2]
  constructor
  · intro h i hi
    have := h _ (hlt i hi)
    rw [(key _).1, (key _).2, hinv] at this
    exact this
  · intro h i hi
    rw [(key i).1, (key i).2]
    exact h _ (hlt i hi)

theorem swap1_rows {α : Type} (f : Nat → α) {p q m : Nat} (hp : q ≤ p) (hpm : p < m) (hq : q < m) (i : Nat) :
    ∃ i1, swap1 f p q i = f i1 ∧ (i < q → i1 = i) ∧ (q ≤ i → q ≤ i1) ∧ (i < m → i1 < m) ∧
      (m ≤ i → i1 = i) := by
  unfold swap1
  by_cases h1 : i = p
  · exact ⟨q, by simp [h1], by omega, by omega, by omega, by omega⟩
  · by_cases h2 : i = q
    · have h3 : ¬ q = p := by rw [← h2]; exact h1
      exact ⟨p, by simp [h2, h3], by omega, by omega, by omega, by omega⟩
    · exact ⟨i, by simp [h1, h2], by omega, by omega, by omega, by omega⟩

theorem swap1_rows2 (A : Nat → Nat → Rat) (rhs : Nat → Rat) {p q m : Nat} (hp : q ≤ p)
    (hpm : p < m) (hq : q < m) (i : Nat) :
    ∃ i1, swap1 A p q i = A i1 ∧ swap1 rhs p q i = rhs i1 ∧ (i < q → i1 = i) ∧
      (q ≤ i → q ≤ i1) ∧ (i < m → i1 < m) ∧ (m ≤ i → i1 = i) := by
  unfold swap1
  by_cases h1 : i = p
  · exact ⟨q, by simp [h1], by simp [h1], by omega, by omega, by omega, by omega⟩
  · by_cases h2 : i = q
    · have h3 : ¬ q = p := by rw [← h2]; exact h1
      exact ⟨p, by simp [h2, h3], by simp [h2, h3], by omega, by omega, by omega, by omega⟩
    · exact ⟨i, by simp [h1, h2], by simp [h1, h2], by omega, by omega, by omega, by omega⟩

theorem GaussInv.skip {m k col : Nat} {s0 s : Elim} (h : GaussInv m k s0 col s)
    (hz : ∀ i, s.row ≤ i → i < m → (s.A i col).toQ = 0) : GaussInv m k s0 (col + 1) s := by
  obtain ⟨hwf, hsol, hech⟩ := h
  refine ⟨hwf, hsol, ?_⟩
  refine ⟨hech.row_le, by have := hech.row_le_col; omega, ?_, hech.pivot_mono, hech.pivot_none,
    hech.pivot_one, hech.pivot_clear, ?_, hech.left_zero⟩
  · intro r hr
    obtain ⟨c, h1, h2, h3⟩ := hech.pivot_lt r hr
    exact ⟨c, h1, by omega, h3⟩
  · intro i j hi1 hi2 hj hjk
    by_cases hjc : j = col
    · rw [hjc]; exact hz i hi1 hi2
    · exact hech.below_zero i j hi1 hi2 (by omega) hjk

end Day10

namespace Day10

/-- One column of the elimination preserves the invariant. -/
theorem gaussStep_sat {m k col : Nat} {s0 s : Elim} (hcol : col < k)
    (h : GaussInv m k s0 col s) :
    (gaussStep m k col s).Sat (GaussInv m k s0 (col + 1)) (fun _ => False) := by
  unfold gaussStep
  by_cases hrow : s.row < m
  swap
  · rw [if_pos hrow]
    refine Run.sat_ret (h.skip ?_)
    intro i h1 h2; omega
  rw [if_neg (not_not.mpr hrow)]
  cases hfp : findPivot s.A col s.row (m - s.row) with
  | none =>
    simp only
    refine Run.sat_ret (h.skip ?_)
    intro i h1 h2
    have := findPivot_none _ _ hfp i h1 (by omega)
    exact (Rat.is_zero_iff (h.wf.1 i col h2 hcol).dpos).mp this
  | some piv =>
    simp only
    obtain ⟨hp1, hp2, hp3, hp4⟩ := findPivot_some _ _ _ hfp
    have hpm : piv < m := by omega
    have hA0 : (if piv ≠ s.row then swap1 s.A piv s.row else s.A) = swap1 s.A piv s.row := by
      split
      · rfl
      · rename_i hh; push_neg at hh; rw [hh, swap1_self]
    have hR0 : (if piv ≠ s.row then swap1 s.rhs piv s.row else s.rhs)
        = swap1 s.rhs piv s.row := by
      split
      · rfl
      · rename_i hh; push_neg at hh; rw [hh, swap1_self]
    rw [hA0, hR0]
    obtain ⟨hwf, hsol, hech⟩ := h
    generalize hB : swap1 s.A piv s.row = B
    generalize hrb : swap1 s.rhs piv s.row = rb
    have hBrow : ∀ i, ∃ i1, B i = s.A i1 ∧ rb i = s.rhs i1 ∧ (i < s.row → i1 = i) ∧
        (s.row ≤ i → s.row ≤ i1) ∧ (i < m → i1 < m) ∧ (m ≤ i → i1 = i) := by
      intro i
      rw [← hB, ← hrb]
      exact swap1_rows2 s.A s.rhs hp1 hpm hrow i
    have hBpiv : B s.row = s.A piv := by
      rw [← hB]
      unfold swap1
      split
      · rename_i hh; rw [hh]
      · simp
    have hwfB : EntriesWF m k B rb := by
      refine ⟨fun i j hi hj => ?_, fun i hi => ?_⟩
      · obtain ⟨i1, e1, -, -, -, e5, -⟩ := hBrow i
        rw [e1]; exact hwf.1 i1 j (e5 hi) hj
      · obtain ⟨i1, -, e2, -, -, e5, -⟩ := hBrow i
        rw [e2]; exact hwf.2 i1 (e5 hi)
    have hpv : (B s.row col).WF := hwfB.1 _ _ hrow hcol
    have hpv0 : (B s.row col).n ≠ 0 := by
      rw [hBpiv]
      simpa [Rat.is_zero] using hp3
    have hpvq : (B s.row col).toQ ≠ 0 := by
      rw [Ne, Rat.toQ_eq_zero hpv.dpos]; exact hpv0
    have hBlow : ∀ i, i < s.row → B i = s.A i ∧ rb i = s.rhs i := by
      intro i hi
      obtain ⟨i1, e1, e2, e3, -, -, -⟩ := hBrow i
      rw [e1, e2, e3 hi]; exact ⟨rfl, rfl⟩
    have hB0 : ∀ i j, s.row ≤ i → i < m → j < col → j < k → (B i j).toQ = 0 := by
      intro i j hi1 hi2 hj hjk
      obtain ⟨i1, e1, -, -, e4, e5, -⟩ := hBrow i
      rw [e1]; exact hech.below_zero i1 j (e4 hi1) (e5 hi2) hj hjk
    have hBclear : ∀ r (c : Nat), r < s.row → s.pivot_col r = (c : Int) →
        ∀ i, i < m → i ≠ r → (B i c).toQ = 0 := by
      intro r c hr hc i hi hir
      obtain ⟨i1, e1, -, e3, e4, e5, -⟩ := hBrow i
      rw [e1]
      refine hech.pivot_clear r c hr hc i1 (e5 hi) ?_
      by_cases hlt : i < s.row
      · rw [e3 hlt]; exact hir
      · have := e4 (by omega); omega
    simp only [bind_eq_bind, pure_eq_ret]
    refine Run.sat_bind
      (scaleRow_sat (Nat.le_of_lt hcol) hpv hpv0 (fun j hj => hwfB.1 _ j hrow hj)) ?_
    rintro A1 ⟨hS1, hS2⟩
    refine Run.sat_bind (Rat.div_sat (hwfB.2 _ hrow).normal hpv.in64 hpv0) ?_
    rintro rv ⟨hrv, hrvq⟩
    have hwf1 : EntriesWF m k A1 (set1 rb s.row rv) := by
      refine ⟨fun i j hi hj => ?_, fun i hi => ?_⟩
      · by_cases hir : i = s.row
        · by_cases hjc : col ≤ j
          · rw [hir]; exact (hS2 j hjc hj).1
          · rw [hS1 i j (Or.inr (Or.inl (by omega)))]; exact hwfB.1 i j hi hj
        · rw [hS1 i j (Or.inl hir)]; exact hwfB.1 i j hi hj
      · unfold set1
        split
        · exact hrv
        · exact hwfB.2 i hi
    refine Run.sat_bind (elimCol_sat hcol hwf1 hrow) ?_
    rintro ⟨C, rc⟩ ⟨hwfC, hE1, hE1r, hE3, hE3r, hE2⟩
    simp only at hwfC hE1 hE1r hE3 hE3r hE2
    refine Run.sat_ret ?_
    -- the new pivot row
    have F1 : ∀ j, j < k → (C s.row j).toQ = (B s.row j).toQ / (B s.row col).toQ := by
      intro j hj
      rw [hE1 j]
      by_cases hjc : col ≤ j
      · exact (hS2 j hjc hj).2
      · rw [hS1 s.row j (Or.inr (Or.inl (by omega))), hB0 s.row j (le_refl _) hrow (by omega) hj]
        simp
    have F1r : (rc s.row).toQ = (rb s.row).toQ / (B s.row col).toQ := by
      rw [hE1r]
      unfold set1
      rw [if_pos rfl, hrvq]
    have hC0row : ∀ j, j < col → j < k → (C s.row j).toQ = 0 := by
      intro j hj hjk
      rw [F1 j hjk, hB0 s.row j (le_refl _) hrow hj hjk]
      simp
    have hCrowcol : (C s.row col).toQ = 1 := by
      rw [F1 col hcol]
      exact div_self hpvq
    have hA1i : ∀ i, i ≠ s.row → ∀ c, A1 i c = B i c := fun i hi c => hS1 i c (Or.inl hi)
    -- the other rows
    have F2 : ∀ i, i < m → i ≠ s.row → ∀ j, j < k →
        (C i j).toQ = (B i j).toQ - (B i col).toQ * (C s.row j).toQ := by
      intro i hi hir j hj
      by_cases hjc : col ≤ j
      · rw [(hE2 i hi hir).1 j hjc hj, hA1i i hir, hA1i i hir, hE1 j]
      · rw [hE3 i j (Or.inl (by omega)), hA1i i hir, hC0row j (by omega) hj]
        ring
    have F2r : ∀ i, i < m → i ≠ s.row →
        (rc i).toQ = (rb i).toQ - (B i col).toQ * (rc s.row).toQ := by
      intro i hi hir
      rw [(hE2 i hi hir).2, hA1i i hir, hE1r]
      unfold set1
      rw [if_neg hir]
    have hCcol : ∀ i, i < m → i ≠ s.row → (C i col).toQ = 0 := by
      intro i hi hir
      rw [F2 i hi hir col hcol, hCrowcol]
      ring
    have hCleft : ∀ i j, i < m → i ≠ s.row → j < col → j < k → (C i j).toQ = (B i j).toQ := by
      intro i j hi hir hj hjk
      rw [F2 i hi hir j hjk, hC0row j hj hjk]
      ring
    have hpc : ∀ r (c : Nat), r < s.row → s.pivot_col r = (c : Int) → c < col ∧ c < k := by
      intro r c hr hc
      obtain ⟨c1, h1, h2, h3⟩ := hech.pivot_lt r hr
      rw [hc] at h1
      have : c = c1 := by exact_mod_cast h1
      rw [this]; exact ⟨h2, h3⟩
    refine ⟨hwfC, ?_, ?_⟩
    · intro x
      rw [rowop_solves hrow hpvq F1 F1r F2 F2r x, ← hsol x, ← hB, ← hrb]
      exact swap_solves hpm hrow x
    · have hrc := hech.row_le_col
      refine ⟨by simp only; omega, by simp only; omega, ?_, ?_, ?_, ?_, ?_, ?_, ?_⟩
      · -- pivot_lt
        intro r hr
        simp only at hr ⊢
        by_cases hrr : r = s.row
        · exact ⟨col, by simp [set1, hrr], Nat.lt_succ_self col, hcol⟩
        · obtain ⟨c, h1, h2, h3⟩ := hech.pivot_lt r (by omega)
          exact ⟨c, by simp [set1, hrr, h1], Nat.lt_succ_of_lt h2, h3⟩
      · -- pivot_mono
        intro r r1 hr hr1
        simp only at hr1 ⊢
        have hrr : r ≠ s.row := by omega
        by_cases hr1r : r1 = s.row
        · obtain ⟨c, h1, h2, h3⟩ := hech.pivot_lt r (by omega)
          simp only [set1, hrr, hr1r, if_true, if_false, h1]
          exact_mod_cast h2
        · simp only [set1, hrr, hr1r, if_false]
          exact hech.pivot_mono r r1 hr (by omega)
      · -- pivot_none
        intro r hr
        simp only at hr ⊢
        have hrr : r ≠ s.row := by omega
        simp only [set1, hrr, if_false]
        exact hech.pivot_none r (by omega)
      · -- pivot_one
        intro r c hr hc
        simp only at hr hc ⊢
        by_cases hrr : r = s.row
        · simp only [set1, hrr, if_true] at hc
          have : c = col := by exact_mod_cast hc.symm
          rw [hrr, this]; exact hCrowcol
        · simp only [set1, hrr, if_false] at hc
          have hr2 : r < s.row := by omega
          obtain ⟨hc1, hc2⟩ := hpc r c hr2 hc
          rw [hCleft r c (by omega) hrr hc1 hc2, (hBlow r hr2).1]
          exact hech.pivot_one r c hr2 hc
      · -- pivot_clear
        intro r c hr hc i hi hir
        simp only at hr hc ⊢
        by_cases hrr : r = s.row
        · simp only [set1, hrr, if_true] at hc
          have : c = col := by exact_mod_cast hc.symm
          rw [this]
          exact hCcol i hi (by omega)
        · simp only [set1, hrr, if_false] at hc
          have hr2 : r < s.row := by omega
          obtain ⟨hc1, hc2⟩ := hpc r c hr2 hc
          by_cases hirow : i = s.row
          · rw [hirow]; exact hC0row c hc1 hc2
          · rw [hCleft i c hi hirow hc1 hc2]
            exact hBclear r c hr2 hc i hi hir
      · -- below_zero
        intro i j hi1 hi2 hj hjk
        simp only at hi1 ⊢
        have hir : i ≠ s.row := by omega
        by_cases hjc : j = col
        · rw [hjc]; exact hCcol i hi2 hir
        · rw [hCleft i j hi2 hir (by omega) hjk]
          exact hB0 i j (by omega) hi2 (by omega) hjk
      · -- left_zero
        intro r c hr hc j hj
        simp only at hr hc ⊢
        by_cases hrr : r = s.row
        · simp only [set1, hrr, if_true] at hc
          have : c = col := by exact_mod_cast hc.symm
          rw [hrr]
          exact hC0row j (by omega) (by omega)
        · simp only [set1, hrr, if_false] at hc
          have hr2 : r < s.row := by omega
          obtain ⟨hc1, hc2⟩ := hpc r c hr2 hc
          rw [hCleft r j (by omega) hrr (by omega) (by omega), (hBlow r hr2).1]
          exact hech.left_zero r c hr2 hc j hj

/-- The initial matrix satisfies the invariant trivially. -/
theorem GaussInv.init {m k : Nat} {A : Nat → Nat → Rat} {rhs : Nat → Rat}
    (hwf : EntriesWF m k A rhs) :
    GaussInv m k ⟨A, rhs, fun _ => -1, 0⟩ 0 ⟨A, rhs, fun _ => -1, 0⟩ := by
  refine ⟨hwf, fun _ => Iff.rfl, ?_⟩
  refine ⟨Nat.zero_le _, le_refl _, ?_, ?_, ?_, ?_, ?_, ?_, ?_⟩
  · intro r hr; simp at hr
  · intro r r1 _ hr; simp at hr
  · intro r _; rfl
  · intro r c hr; simp at hr
  · intro r c hr; simp at hr
  · intro i j _ _ hj; omega
  · intro r c hr; simp at hr

/-- Specification of the elimination loop. -/
theorem gaussLoop_sat {m k : Nat} {A : Nat → Nat → Rat} {rhs : Nat → Rat}
    (hwf : EntriesWF m k A rhs) :
    (gaussLoop m k ⟨A, rhs, fun _ => -1, 0⟩).Sat
      (GaussInv m k ⟨A, rhs, fun _ => -1, 0⟩ k) (fun _ => False) := by
  unfold gaussLoop
  have := forUp_sat (gaussStep m k) (fun col s => GaussInv m k ⟨A, rhs, fun _ => -1, 0⟩ col s)
    (fun _ => False) k 0 _ (GaussInv.init hwf)
    (fun i s _ hi hI => gaussStep_sat (by omega) hI)
  rw [Nat.zero_add] at this
  exact this

end Day10

namespace Day10

/-! ## Elimination: the consistency check -/

theorem rowAllZero_iff {A : Nat → Nat → Rat} {k r : Nat} :
    rowAllZero A k r = true ↔ ∀ c, c < k → (A r c).is_zero = true := by
  unfold rowAllZero
  simp [List.all_eq_true]

theorem checkConsistent_sat (m k : Nat) (s : Elim) :
    (checkConsistent m k s).Sat
      (fun _ => ∀ r, r < m → rowAllZero s.A k r = true → (s.rhs r).is_zero = true)
      (fun e => e = Err.inconsistent ∧
        ∃ r, r < m ∧ rowAllZero s.A k r = true ∧ (s.rhs r).is_zero = false) := by
  unfold checkConsistent
  have := forUp_sat (fun r (_ : Unit) =>
      if rowAllZero s.A k r && !(s.rhs r).is_zero then Run.throw Err.inconsistent
      else pure ())
    (fun n _ => ∀ r, r < n → rowAllZero s.A k r = true → (s.rhs r).is_zero = true)
    (fun e => e = Err.inconsistent ∧
        ∃ r, r < m ∧ rowAllZero s.A k r = true ∧ (s.rhs r).is_zero = false)
    m 0 () (fun r hr => by omega) ?_
  · rw [Nat.zero_add] at this
    exact this
  · intro i _ _ hi hI
    beta_reduce
    by_cases hc : (rowAllZero s.A k i && !(s.rhs i).is_zero) = true
    · rw [if_pos hc]
      refine Run.sat_throw ⟨rfl, i, by omega, ?_⟩
      simpa using hc
    · rw [if_neg hc]
      refine Run.sat_ret ?_
      intro r hr hz
      by_cases hri : r = i
      · subst hri
        simp only [Bool.and_eq_true, Bool.not_eq_true', not_and, Bool.not_eq_false] at hc
        exact hc hz
      · exact hI r (by omega) hz

/-- Specification of `gauss_jordan_rref`: it either reaches a reduced system with the
same rational solutions, or throws "inconsistent system", and then the system has no
rational solution. -/
theorem gauss_jordan_rref_sat {m k : Nat} {s0 : Elim} (hwf : EntriesWF m k s0.A s0.rhs) :
    (gauss_jordan_rref m k s0).Sat (Reduced m k s0.A s0.rhs)
      (fun e => e = Err.inconsistent ∧ ¬ ∃ x, Solves m k s0.A s0.rhs x) := by
  unfold gauss_jordan_rref
  simp only [bind_eq_bind, pure_eq_ret]
  refine Run.sat_bind ((gaussLoop_sat hwf).mono (fun _ h => h) (fun _ h => h.elim)) ?_
  intro s hs
  have hzero : ∀ r c, s.row ≤ r → r < m → c < k → (s.A r c).toQ = 0 :=
    fun r c h1 h2 h3 => hs.ech.below_zero r c h1 h2 h3 h3
  refine Run.sat_bind ((checkConsistent_sat m k s).mono (fun _ h => h) ?_) ?_
  · rintro e ⟨he, r, hr, hz, hnz⟩
    refine ⟨he, ?_⟩
    rintro ⟨x, hx⟩
    have hx2 := (hs.sol x).mpr hx r hr
    have : rowDot k s.A x r = 0 := by
      unfold rowDot
      refine Finset.sum_eq_zero (fun j hj => ?_)
      have hj2 := Finset.mem_range.mp hj
      have := (Rat.is_zero_iff (hs.wf.1 r j hr hj2).dpos).mp (rowAllZero_iff.mp hz j hj2)
      rw [this]; ring
    rw [this] at hx2
    have h3 := (Rat.is_zero_iff (hs.wf.2 r hr).dpos).mpr hx2.symm
    rw [h3] at hnz
    exact Bool.noConfusion hnz
  · intro _ hc
    refine Run.sat_ret ⟨hs, hzero, ?_⟩
    intro r h1 h2
    refine (Rat.is_zero_iff (hs.wf.2 r h2).dpos).mp (hc r h2 ?_)
    rw [rowAllZero_iff]
    intro c hc2
    exact (Rat.is_zero_iff (hs.wf.1 r c h2 hc2).dpos).mpr (hzero r c h1 h2 hc2)

end Day10

namespace Day10

/-! ## Parametrisation: the scaled pivot expressions -/

theorem mapRun_sat {α β : Type} {f : α → Run β} {P : α → β → Prop} {Q : Err → Prop}
    (a0 : α) (b0 : β) :
    ∀ (l : List α), (∀ a, a ∈ l → (f a).Sat (P a) Q) →
      (mapRun f l).Sat (fun bs => bs.length = l.length ∧
        ∀ i, i < l.length → P (l.getD i a0) (bs.getD i b0)) Q := by
  intro l
  induction l with
  | nil =>
    intro _
    unfold mapRun
    exact Run.sat_ret ⟨rfl, fun i hi => by simp at hi⟩
  | cons a l ih =>
    intro h
    unfold mapRun
    simp only [bind_eq_bind, pure_eq_ret]
    refine Run.sat_bind (h a (List.mem_cons_self a l)) ?_
    intro b hb
    refine Run.sat_bind (ih (fun a1 ha1 => h a1 (List.mem_cons_of_mem a ha1))) ?_
    rintro bs ⟨hlen, hbs⟩
    refine Run.sat_ret ⟨by simp [hlen], ?_⟩
    intro i hi
    cases i with
    | zero => simpa using hb
    | succ i =>
      simp only [List.length_cons, Nat.add_lt_add_iff_right] at hi
      simpa using hbs i hi

/-- Specification of `ilcm` on positive arguments. -/
theorem ilcm_sat {a b : Int} (ha : 0 < a) (hb : 0 < b) :
    (ilcm a b).Sat (fun v => 0 < v ∧ a ∣ v ∧ b ∣ v ∧ v ≤ INT64_MAX)
      (fun e => e = Err.lcmOverflow) := by
  unfold ilcm
  rw [if_neg (by omega)]
  simp only [bind_eq_bind]
  refine Run.sat_bind ((igcd_sat a b).mono (fun _ h => h) (fun _ h => h.elim)) ?_
  rintro g ⟨hgdef, -, -⟩
  obtain ⟨a1, b1, e1, -, h1, h2, hb1, hg⟩ := Rat.tdiv_gcd_mul hb hgdef
  have ha1 : 0 < a1 := by
    by_contra hc
    have : g * a1 ≤ 0 := Int.mul_nonpos_of_nonneg_of_nonpos hg.le (by omega)
    omega
  rw [e1]
  have hv : 0 < a1 * b := Int.mul_pos ha1 hb
  split
  · exact Run.sat_throw rfl
  · rename_i hle
    refine (narrow64_sat _).mono ?_ (fun _ h => h.elim)
    rintro v ⟨rfl, -⟩
    refine ⟨hv, ?_, Dvd.intro_left a1 rfl, by omega⟩
    refine ⟨b1, ?_⟩
    conv_lhs => rw [h2]
    conv_rhs => rw [h1]
    ring

theorem lcmAll_sat : ∀ (cs : List Rat) (D0 : Int), 0 < D0 → (∀ c, c ∈ cs → 0 < c.d) →
    (lcmAll cs D0).Sat (fun D => 0 < D ∧ D0 ∣ D ∧ ∀ c, c ∈ cs → c.d ∣ D)
      (fun e => e = Err.lcmOverflow) := by
  intro cs
  induction cs with
  | nil =>
    intro D0 h0 _
    unfold lcmAll
    exact Run.sat_ret ⟨h0, dvd_refl _, fun c hc => by simp at hc⟩
  | cons c cs ih =>
    intro D0 h0 hcs
    unfold lcmAll
    simp only [bind_eq_bind]
    refine Run.sat_bind (ilcm_sat h0 (hcs c (List.mem_cons_self c cs))) ?_
    rintro D1 ⟨hD1, hd1, hd2, -⟩
    refine (ih D1 hD1 (fun c1 hc1 => hcs c1 (List.mem_cons_of_mem c hc1))).mono ?_ (fun _ h => h)
    rintro D ⟨hD, hdv, hall⟩
    refine ⟨hD, dvd_trans hd1 hdv, ?_⟩
    intro c1 hc1
    rcases List.mem_cons.mp hc1 with rfl | hc1
    · exact dvd_trans hd2 hdv
    · exact hall c1 hc1

theorem sumFrom_eq (f : Nat → Int) (lo n : Nat) :
    sumFrom f lo n = ∑ i in Finset.range n, f (lo + i) := by
  unfold sumFrom
  induction n with
  | zero => simp
  | succ n ih =>
    rw [List.range_succ, List.map_append, List.sum_append, ih, Finset.sum_range_succ]
    simp

/-- Scaling a well-formed fraction to the denominator `D`. -/
theorem scaled_value {c : Rat} {D : Int} (hc : 0 < c.d) (hdvd : c.d ∣ D) :
    ((c.n * Int.tdiv D c.d : Int) : ℚ) = (D : ℚ) * c.toQ := by
  rw [Int.tdiv_eq_ediv_of_dvd hdvd]
  obtain ⟨q, hq⟩ := hdvd
  have : D / c.d = q := Int.ediv_eq_of_eq_mul_right hc.ne' hq
  rw [this, hq]
  unfold Rat.toQ
  have hcq : (c.d : ℚ) ≠ 0 := by exact_mod_cast hc.ne'
  push_cast
  field_simp
  ring

/-- Specification of the construction of one pivot expression. -/
theorem buildExpr_sat {m k r : Nat} {s : Elim} {free_cols free_order : List Nat}
    (hwf : EntriesWF m k s.A s.rhs) (hr : r < m)
    (hfc : ∀ fi, fi ∈ free_order → free_cols.getD fi 0 < k) :
    (buildExpr s free_cols free_order r).Sat (fun e =>
      0 < e.D ∧ e.coef.length = free_order.length ∧
      (e.base : ℚ) = (e.D : ℚ) * (s.rhs r).toQ ∧
      ∀ i, i < free_order.length →
        ((e.coef.getD i 0 : Int) : ℚ)
          = (e.D : ℚ) * (-(s.A r (free_cols.getD (free_order.getD i 0) 0)).toQ))
      (fun e => e = Err.lcmOverflow) := by
  unfold buildExpr
  simp only [bind_eq_bind, pure_eq_ret]
  refine Run.sat_bind (P := fun coef_r => coef_r.length = free_order.length ∧
      ∀ i, i < free_order.length → (coef_r.getD i (Rat.ofInt 0)).WF ∧
        (coef_r.getD i (Rat.ofInt 0)).toQ
          = -(s.A r (free_cols.getD (free_order.getD i 0) 0)).toQ) ?_ ?_
  · refine (mapRun_sat (P := fun fi c => c.WF ∧ c.toQ = -(s.A r (free_cols.getD fi 0)).toQ)
      0 (Rat.ofInt 0) free_order ?_).mono (fun _ h => h) (fun _ h => h)
    intro fi hfi
    have hA := hwf.1 r _ hr (hfc fi hfi)
    refine (Rat.sub_sat Rat.WF_zero.normal hA.normal hA.in64).mono ?_ (fun _ h => h.elim)
    rintro q ⟨hq, hv⟩
    refine ⟨hq, ?_⟩
    rw [hv]; simp
  · rintro coef_r ⟨hlen, hcoef⟩
    have hmem : ∀ c, c ∈ coef_r → c.WF := by
      intro c hc
      obtain ⟨i, hi, rfl⟩ := List.getElem_of_mem hc
      have := (hcoef i (by omega)).1
      rwa [List.getD_eq_getElem _ _ hi] at this
    refine Run.sat_bind (lcmAll_sat coef_r (s.rhs r).d (hwf.2 r hr).dpos
      (fun c hc => (hmem c hc).dpos)) ?_
    rintro D ⟨hD, hbd, hcd⟩
    rw [if_neg (by omega)]
    refine Run.sat_bind ((narrow64_sat _).mono (fun _ h => h) (fun _ h => h.elim)) ?_
    rintro eb ⟨rfl, -⟩
    refine Run.sat_bind (P := fun ec => ec.length = coef_r.length ∧
      ∀ i, i < coef_r.length →
        ec.getD i 0 = (coef_r.getD i (Rat.ofInt 0)).n * Int.tdiv D (coef_r.getD i (Rat.ofInt 0)).d)
      ?_ ?_
    · refine (mapRun_sat (P := fun c v => v = c.n * Int.tdiv D c.d)
        (Rat.ofInt 0) 0 coef_r ?_).mono (fun _ h => h) (fun _ h => h)
      intro c _
      refine (narrow64_sat _).mono ?_ (fun _ h => h.elim)
      rintro v ⟨rfl, -⟩
      rfl
    · rintro ec ⟨hlen2, hec⟩
      refine Run.sat_ret ⟨hD, by simp only; omega, ?_, ?_⟩
      · simp only
        exact scaled_value (hwf.2 r hr).dpos hbd
      · intro i hi
        simp only
        have hi2 : i < coef_r.length := by omega
        rw [hec i hi2]
        have hc := hcoef i hi
        have hcm : coef_r.getD i (Rat.ofInt 0) ∈ coef_r := by
          rw [List.getD_eq_getElem _ _ hi2]
          exact List.getElem_mem _
        rw [scaled_value hc.1.dpos (hcd _ hcm), hc.2]

end Day10

namespace Day10

/-! ## The search -/

theorem sumFrom_congr {f g : Nat → Int} {lo n : Nat} (h : ∀ i, lo ≤ i → i < lo + n → f i = g i) :
    sumFrom f lo n = sumFrom g lo n := by
  rw [sumFrom_eq, sumFrom_eq]
  refine Finset.sum_congr rfl (fun i hi => ?_)
  have := Finset.mem_range.mp hi
  exact h _ (by omega) (by omega)

theorem sumFrom_split (f : Nat → Int) {pos d : Nat} (h : pos ≤ d) :
    sumFrom f 0 d = sumFrom f 0 pos + sumFrom f pos (d - pos) := by
  rw [sumFrom_eq, sumFrom_eq, sumFrom_eq]
  have : d = pos + (d - pos) := by omega
  conv_lhs => rw [this]
  rw [Finset.sum_range_add]
  simp

theorem sumFrom_succ (f : Nat → Int) (n : Nat) :
    sumFrom f 0 (n + 1) = sumFrom f 0 n + f n := by
  rw [sumFrom_eq, sumFrom_eq, Finset.sum_range_succ]
  simp

theorem sumFrom_le {f g : Nat → Int} {lo n : Nat} (h : ∀ i, lo ≤ i → i < lo + n → f i ≤ g i) :
    sumFrom f lo n ≤ sumFrom g lo n := by
  rw [sumFrom_eq, sumFrom_eq]
  refine Finset.sum_le_sum (fun i hi => ?_)
  have := Finset.mem_range.mp hi
  exact h _ (by omega) (by omega)

theorem sumFrom_nonneg {f : Nat → Int} {lo n : Nat} (h : ∀ i, lo ≤ i → i < lo + n → 0 ≤ f i) :
    0 ≤ sumFrom f lo n := by
  rw [sumFrom_eq]
  refine Finset.sum_nonneg (fun i hi => ?_)
  have := Finset.mem_range.mp hi
  exact h _ (by omega) (by omega)

theorem exprNum_congr (e : ExprScaled) {d : Nat} {x y : Nat → Int}
    (h : ∀ i, i < d → y i = x i) : exprNum e d y = exprNum e d x := by
  unfold exprNum
  rw [sumFrom_congr (fun i _ hi => by rw [h i (by omega)])]

theorem Feasible_congr {exprs : List ExprScaled} {d : Nat} {x y : Nat → Int}
    (h : ∀ i, i < d → y i = x i) : Feasible exprs d y ↔ Feasible exprs d x := by
  unfold Feasible
  constructor
  · intro hy e he
    rw [← exprNum_congr e h]; exact hy e he
  · intro hx e he
    rw [exprNum_congr e h]; exact hx e he

theorem valSum_congr {exprs : List ExprScaled} {d : Nat} {x y : Nat → Int}
    (h : ∀ i, i < d → y i = x i) : valSum exprs d y = valSum exprs d x := by
  unfold valSum
  congr 1
  refine List.map_congr_left (fun e _ => ?_)
  rw [exprNum_congr e h]

theorem leafTotal_congr {exprs : List ExprScaled} {d : Nat} {x y : Nat → Int}
    (h : ∀ i, i < d → y i = x i) : leafTotal exprs d y = leafTotal exprs d x := by
  unfold leafTotal
  rw [valSum_congr h, sumFrom_congr (fun i _ hi => h i (by omega))]

theorem valSum_nonneg {exprs : List ExprScaled} {d : Nat} {x : Nat → Int}
    (hD : ∀ e, e ∈ exprs → 0 < e.D) (hf : Feasible exprs d x) : 0 ≤ valSum exprs d x := by
  unfold valSum
  refine List.sum_nonneg ?_
  intro v hv
  obtain ⟨e, he, rfl⟩ := List.mem_map.mp hv
  exact Int.ediv_nonneg (hf e he).1 (hD e he).le

theorem Feasible_cons {e : ExprScaled} {es : List ExprScaled} {d : Nat} {x : Nat → Int} :
    Feasible (e :: es) d x ↔ (0 ≤ exprNum e d x ∧ e.D ∣ exprNum e d x) ∧ Feasible es d x := by
  unfold Feasible
  simp

theorem valSum_cons {e : ExprScaled} {es : List ExprScaled} {d : Nat} {x : Nat → Int} :
    valSum (e :: es) d x = exprNum e d x / e.D + valSum es d x := by
  simp [valSum]

/-- A feasible point of the box below a node has a total of at least the sum
already assigned. -/
theorem leafTotal_ge {exprs : List ExprScaled} {ub : List Int} {d pos : Nat} {x y : Nat → Int}
    (hD : ∀ e, e ∈ exprs → 0 < e.D) (hpos : pos ≤ d) (hy : Ext ub d pos x y)
    (hf : Feasible exprs d y) : sumFrom x 0 pos ≤ leafTotal exprs d y := by
  unfold leafTotal
  rw [sumFrom_split y hpos]
  have h1 : sumFrom y 0 pos = sumFrom x 0 pos := sumFrom_congr (fun i _ hi => hy.1 i (by omega))
  have h2 : 0 ≤ sumFrom y pos (d - pos) :=
    sumFrom_nonneg (fun i h1 h2 => (hy.2 i h1 (by omega)).1)
  have h3 := valSum_nonneg hD hf
  omega

/-- The bound `maxv` of `can_still_be_nonneg` dominates the numerator at every point
of the box below the node. -/
theorem exprNum_le_maxNum (e : ExprScaled) {ub : List Int} {d pos : Nat} {x y : Nat → Int}
    (hpos : pos ≤ d) (hy : Ext ub d pos x y) : exprNum e d y ≤ maxNum e ub d x pos := by
  unfold exprNum maxNum
  rw [sumFrom_split _ hpos]
  have h1 : sumFrom (fun i => e.coef.getD i 0 * y i) 0 pos
      = sumFrom (fun i => e.coef.getD i 0 * x i) 0 pos :=
    sumFrom_congr (fun i _ hi => by rw [hy.1 i (by omega)])
  have h2 : sumFrom (fun i => e.coef.getD i 0 * y i) pos (d - pos)
      ≤ sumFrom (fun i => if e.coef.getD i 0 > 0 then e.coef.getD i 0 * ub.getD i 0 else 0)
          pos (d - pos) := by
    refine sumFrom_le (fun i hi1 hi2 => ?_)
    obtain ⟨hy0, hyu⟩ := hy.2 i hi1 (by omega)
    split
    · rename_i hc
      exact Int.mul_le_mul_of_nonneg_left hyu hc.le
    · rename_i hc
      exact Int.mul_nonpos_of_nonpos_of_nonneg (by omega) hy0
  rw [h1]
  omega

theorem can_still_false {exprs : List ExprScaled} {ub : List Int} {d pos : Nat} {x y : Nat → Int}
    (hpos : pos ≤ d) (hc : can_still_be_nonneg exprs ub d x pos = false)
    (hy : Ext ub d pos x y) : ¬ Feasible exprs d y := by
  intro hf
  unfold can_still_be_nonneg at hc
  rw [List.all_eq_false] at hc
  obtain ⟨e, he, hlt⟩ := hc
  simp only [Bool.not_eq_true', decide_eq_false_iff_not, not_not, Bool.not_eq_true,
    Bool.not_eq_false', decide_eq_true_eq] at hlt
  have := exprNum_le_maxNum e hpos hy
  have := (hf e he).1
  omega

/-- Specification of the loop over the pivot expressions at a leaf. -/
theorem evalLeaf_sat (d : Nat) (x : Nat → Int) (best : Int) :
    ∀ (es : List ExprScaled) (total : Int), (∀ e, e ∈ es → 0 < e.D) →
      (evalLeaf d x best es total).Sat (fun r =>
        match r with
        | none => Feasible es d x → best ≤ total + valSum es d x
        | some t => Feasible es d x ∧ t = total + valSum es d x)
        (fun _ => False) := by
  intro es
  induction es with
  | nil =>
    intro total _
    unfold evalLeaf
    refine Run.sat_ret ⟨?_, ?_⟩
    · intro e he; simp at he
    · simp [valSum]
  | cons e es ih =>
    intro total hD
    have hDe : 0 < e.D := hD e (List.mem_cons_self e es)
    have hDes : ∀ e1, e1 ∈ es → 0 < e1.D := fun e1 h1 => hD e1 (List.mem_cons_of_mem e h1)
    unfold evalLeaf
    simp only
    by_cases hneg : exprNum e d x < 0
    · rw [if_pos hneg]
      refine Run.sat_ret ?_
      intro hf
      have := (Feasible_cons.mp hf).1.1
      omega
    · rw [if_neg hneg]
      simp only [bind_eq_bind, pure_eq_ret]
      refine Run.sat_bind (narrow64_sat _) ?_
      rintro n64 ⟨rfl, -⟩
      have hnn : 0 ≤ exprNum e d x := by omega
      have hmod : Int.tmod (exprNum e d x) e.D = exprNum e d x % e.D :=
        Int.tmod_eq_emod hnn hDe.le
      have hdiv : Int.tdiv (exprNum e d x) e.D = exprNum e d x / e.D :=
        Int.tdiv_eq_ediv hnn hDe.le
      rw [hmod, hdiv]
      by_cases hrem : exprNum e d x % e.D ≠ 0
      · rw [if_pos hrem]
        refine Run.sat_ret ?_
        intro hf
        have := (Feasible_cons.mp hf).1.2
        exact absurd (Int.emod_eq_zero_of_dvd this) hrem
      · rw [if_neg hrem]
        push_neg at hrem
        have hdvd : e.D ∣ exprNum e d x := Int.dvd_of_emod_eq_zero hrem
        have hval : 0 ≤ exprNum e d x / e.D := Int.ediv_nonneg hnn hDe.le
        rw [if_neg (by omega)]
        refine Run.sat_bind (narrow64_sat _) ?_
        rintro total1 ⟨rfl, -⟩
        by_cases hge : total + exprNum e d x / e.D ≥ best
        · rw [if_pos hge]
          refine Run.sat_ret ?_
          intro hf
          have := valSum_nonneg hDes (Feasible_cons.mp hf).2
          rw [valSum_cons]
          omega
        · rw [if_neg hge]
          refine (ih _ hDes).mono ?_ (fun _ h => h)
          intro r hr
          cases r with
          | none =>
            simp only at hr ⊢
            intro hf
            have := hr (Feasible_cons.mp hf).2
            rw [valSum_cons]
            omega
          | some t =>
            simp only at hr ⊢
            refine ⟨Feasible_cons.mpr ⟨⟨hnn, hdvd⟩, hr.1⟩, ?_⟩
            rw [valSum_cons, hr.2]
            omega

end Day10

namespace Day10

theorem SearchPost.refl_of_empty {exprs : List ExprScaled} {d : Nat}
    {cover inbox : (Nat → Int) → Prop} {best : Int}
    (h : ∀ y, cover y → Feasible exprs d y → best ≤ leafTotal exprs d y) :
    SearchPost exprs d cover inbox best best :=
  ⟨le_refl _, Or.inl rfl, h⟩

theorem ext_succ_iff {ub : List Int} {d pos : Nat} {x y : Nat → Int} {v : Int}
    (_hpos : pos < d) (hv0 : 0 ≤ v) (hv : v ≤ ub.getD pos 0) :
    Ext ub d (pos + 1) (set1 x pos v) y ↔ Ext ub d pos x y ∧ y pos = v := by
  unfold Ext set1
  constructor
  · rintro ⟨h1, h2⟩
    have hp : y pos = v := by simpa using h1 pos (by omega)
    refine ⟨⟨?_, ?_⟩, hp⟩
    · intro i hi
      have := h1 i (by omega)
      rwa [if_neg (by omega)] at this
    · intro i hi1 hi2
      by_cases hip : i = pos
      · rw [hip, hp]; exact ⟨hv0, hv⟩
      · exact h2 i (by omega) hi2
  · rintro ⟨⟨h1, h2⟩, hp⟩
    refine ⟨?_, ?_⟩
    · intro i hi
      by_cases hip : i = pos
      · rw [if_pos hip, hip]; exact hp
      · rw [if_neg hip]; exact h1 i (by omega)
    · intro i hi1 hi2
      exact h2 i (by omega) hi2

/-- Visiting the value `v` at position `pos`. -/
theorem visit_sat {ld : LongDouble} {exprs : List ExprScaled} {ub : List Int} {d rem : Nat}
    (ih : ∀ pos x sum best, rem + pos = d → sum = sumFrom x 0 pos →
      (dfs ld exprs ub d rem pos x sum best).Sat
        (SearchPost exprs d (Ext ub d pos x) (Ext ub d pos x) best) (fun _ => False))
    {pos : Nat} {x : Nat → Int} {sum : Int} (hpos : rem + 1 + pos = d)
    (hsum : sum = sumFrom x 0 pos) (v : Nat) (hv : (v : Int) ≤ ub.getD pos 0) (b : Int) :
    (Run.bind (narrow64 (sum + (v : Int)))
      (fun s1 => dfs ld exprs ub d rem (pos + 1) (set1 x pos (v : Int)) s1 b)).Sat
      (SearchPost exprs d (fun y => Ext ub d pos x y ∧ y pos = (v : Int)) (Ext ub d pos x) b)
      (fun _ => False) := by
  refine Run.sat_bind (narrow64_sat _) ?_
  rintro s1 ⟨rfl, -⟩
  have hs : sum + (v : Int) = sumFrom (set1 x pos (v : Int)) 0 (pos + 1) := by
    rw [sumFrom_succ, hsum]
    have : sumFrom (set1 x pos (v : Int)) 0 pos = sumFrom x 0 pos :=
      sumFrom_congr (fun i _ hi => by unfold set1; rw [if_neg (by omega)])
    rw [this]
    simp [set1]
  refine (ih (pos + 1) _ _ b (by omega) hs).mono ?_ (fun _ h => h)
  rintro b1 ⟨h1, h2, h3⟩
  have hiff := fun y => ext_succ_iff (x := x) (y := y) (show pos < d by omega)
    (Int.ofNat_nonneg v) hv
  refine ⟨h1, ?_, ?_⟩
  · rcases h2 with h2 | ⟨y, hy1, hy2, hy3⟩
    · exact Or.inl h2
    · exact Or.inr ⟨y, ((hiff y).mp hy1).1, hy2, hy3⟩
  · intro y hy hf
    exact h3 y ((hiff y).mpr hy) hf

theorem SearchPost.step {exprs : List ExprScaled} {d : Nat}
    {c1 c2 c3 inbox : (Nat → Int) → Prop} {best b b1 : Int}
    (h1 : SearchPost exprs d c1 inbox best b) (h2 : SearchPost exprs d c2 inbox b b1)
    (hc : ∀ y, c3 y → c1 y ∨ c2 y) : SearchPost exprs d c3 inbox best b1 := by
  obtain ⟨a1, a2, a3⟩ := h1
  obtain ⟨b1', b2, b3⟩ := h2
  refine ⟨le_trans b1' a1, ?_, ?_⟩
  · rcases b2 with b2 | b2
    · rw [b2]; exact a2
    · exact Or.inr b2
  · intro y hy hf
    rcases hc y hy with h | h
    · exact le_trans b1' (a3 y h hf)
    · exact b3 y h hf

/-- Specification of `dfs`: below the node `(pos, x)` the search lowers `best` to the
least total of a feasible point of the box, when that is smaller. -/
theorem dfs_sat (ld : LongDouble) (exprs : List ExprScaled) (ub : List Int) (d : Nat)
    (hD : ∀ e, e ∈ exprs → 0 < e.D) :
    ∀ (rem pos : Nat) (x : Nat → Int) (sum best : Int), rem + pos = d → sum = sumFrom x 0 pos →
      (dfs ld exprs ub d rem pos x sum best).Sat
        (SearchPost exprs d (Ext ub d pos x) (Ext ub d pos x) best) (fun _ => False) := by
  intro rem
  induction rem with
  | zero =>
    intro pos x sum best hpos hsum
    have hpd : pos = d := by omega
    unfold dfs
    by_cases h1 : sum ≥ best
    · rw [if_pos h1]
      refine Run.sat_ret (SearchPost.refl_of_empty ?_)
      intro y hy hf
      have := leafTotal_ge hD (by omega) hy hf
      omega
    rw [if_neg h1]
    by_cases h2 : can_still_be_nonneg exprs ub d x pos = true
    swap
    · simp only [Bool.not_eq_true] at h2
      simp only [h2, Bool.not_false, if_true]
      refine Run.sat_ret (SearchPost.refl_of_empty ?_)
      intro y hy hf
      exact absurd hf (can_still_false (by omega) h2 hy)
    simp only [h2, Bool.not_true, Bool.false_eq_true, if_false, bind_eq_bind, pure_eq_ret]
    refine Run.sat_bind (evalLeaf_sat d x best exprs sum hD) ?_
    intro r hr
    have hagree : ∀ y, Ext ub d pos x y → ∀ i, i < d → y i = x i :=
      fun y hy i hi => hy.1 i (by omega)
    have hxx : Ext ub d pos x x := ⟨fun _ _ => rfl, fun i h1 h2 => by omega⟩
    have htot : leafTotal exprs d x = sum + valSum exprs d x := by
      unfold leafTotal; rw [hsum, hpd]
    cases r with
    | none =>
      simp only at hr ⊢
      refine Run.sat_ret (SearchPost.refl_of_empty ?_)
      intro y hy hf
      rw [leafTotal_congr (hagree y hy), htot]
      exact hr ((Feasible_congr (hagree y hy)).mp hf)
    | some t =>
      simp only at hr ⊢
      refine Run.sat_ret ⟨min_le_left _ _, ?_, ?_⟩
      · by_cases hlt : best ≤ t
        · exact Or.inl (min_eq_left hlt)
        · refine Or.inr ⟨x, hxx, hr.1, ?_⟩
          rw [htot, ← hr.2]
          exact (min_eq_right (by omega)).symm
      · intro y hy _
        rw [leafTotal_congr (hagree y hy), htot, ← hr.2]
        exact min_le_right _ _
  | succ rem ih =>
    intro pos x sum best hpos hsum
    unfold dfs
    by_cases h1 : sum ≥ best
    · rw [if_pos h1]
      refine Run.sat_ret (SearchPost.refl_of_empty ?_)
      intro y hy hf
      have := leafTotal_ge hD (by omega) hy hf
      omega
    rw [if_neg h1]
    by_cases h2 : can_still_be_nonneg exprs ub d x pos = true
    swap
    · simp only [Bool.not_eq_true] at h2
      simp only [h2, Bool.not_false, if_true]
      refine Run.sat_ret (SearchPost.refl_of_empty ?_)
      intro y hy hf
      exact absurd hf (can_still_false (by omega) h2 hy)
    simp only [h2, Bool.not_true, Bool.false_eq_true, if_false, bind_eq_bind]
    have hbox : ∀ y, Ext ub d pos x y → 0 ≤ y pos ∧ y pos ≤ ub.getD pos 0 :=
      fun y hy => hy.2 pos (le_refl _) (by omega)
    split
    · -- downward loop
      have := forDown_sat (fun v best1 => Run.bind (narrow64 (sum + (v : Int)))
          (fun s1 => dfs ld exprs ub d rem (pos + 1) (set1 x pos (v : Int)) s1 best1))
        (fun i b => SearchPost exprs d (fun y => Ext ub d pos x y ∧ (i : Int) ≤ y pos)
          (Ext ub d pos x) best b)
        (fun _ => False) (ub.getD pos 0 + 1).toNat best
        (SearchPost.refl_of_empty (fun y hy _ => by
          have := hbox y hy.1
          have := hy.2
          omega)) ?_
      · refine this.mono ?_ (fun _ h => h)
        rintro b1 ⟨a1, a2, a3⟩
        exact ⟨a1, a2, fun y hy hf => a3 y ⟨hy, by simpa using (hbox y hy).1⟩ hf⟩
      · intro i b hi hI
        refine (visit_sat ih hpos hsum i (by omega) b).mono ?_ (fun _ h => h)
        intro b1 hb1
        refine hI.step hb1 ?_
        rintro y ⟨hy1, hy2⟩
        by_cases hyi : y pos = (i : Int)
        · exact Or.inr ⟨hy1, hyi⟩
        · exact Or.inl ⟨hy1, by omega⟩
    · -- upward loop
      have := forUp_sat (fun v best1 => Run.bind (narrow64 (sum + (v : Int)))
          (fun s1 => dfs ld exprs ub d rem (pos + 1) (set1 x pos (v : Int)) s1 best1))
        (fun i b => SearchPost exprs d (fun y => Ext ub d pos x y ∧ y pos < (i : Int))
          (Ext ub d pos x) best b)
        (fun _ => False) (ub.getD pos 0 + 1).toNat 0 best
        (SearchPost.refl_of_empty (fun y hy _ => by
          have := hbox y hy.1
          have := hy.2
          simp at this
          omega)) ?_
      · refine this.mono ?_ (fun _ h => h)
        rintro b1 ⟨a1, a2, a3⟩
        refine ⟨a1, a2, fun y hy hf => a3 y ⟨hy, ?_⟩ hf⟩
        have := hbox y hy
        simp only [Nat.zero_add]
        omega
      · intro i b _ hi hI
        refine (visit_sat ih hpos hsum i (by omega) b).mono ?_ (fun _ h => h)
        intro b1 hb1
        refine hI.step hb1 ?_
        rintro y ⟨hy1, hy2⟩
        by_cases hyi : y pos = (i : Int)
        · exact Or.inr ⟨hy1, hyi⟩
        · refine Or.inl ⟨hy1, ?_⟩
          push_cast at hy2
          omega

end Day10

namespace Day10

/-! ## Parametrisation -/

theorem inI32_iff (x : Int) : inI32 x = true ↔ -2147483648 ≤ x ∧ x ≤ 2147483647 := by
  simp [inI32]

theorem narrow32_sat (x : Int) :
    (narrow32 x).Sat (fun y => y = x ∧ inI32 x = true) (fun _ => False) := by
  intro hw
  simp only [narrow32, Bool.not_eq_false'] at hw
  simp only [narrow32]
  refine ⟨?_, hw⟩
  rw [inI32_iff] at hw
  unfold wrap32
  omega

theorem sumTargets_sat : ∀ (l : List Int) (s : Int),
    (sumTargets l s).Sat (fun t => t = s + l.sum ∧ (l ≠ [] → inI32 t = true))
      (fun _ => False) := by
  intro l
  induction l with
  | nil =>
    intro s
    unfold sumTargets
    exact Run.sat_ret ⟨by simp, fun h => absurd rfl h⟩
  | cons v vs ih =>
    intro s
    unfold sumTargets
    simp only [bind_eq_bind]
    refine Run.sat_bind (narrow32_sat _) ?_
    rintro s1 ⟨rfl, hs1⟩
    refine (ih (s + v)).mono ?_ (fun _ h => h)
    rintro t ⟨ht, hr⟩
    refine ⟨by rw [ht, List.sum_cons]; ring, fun _ => ?_⟩
    by_cases hvs : vs = []
    · subst hvs
      simp only [List.sum_nil, add_zero] at ht
      rw [ht]; exact hs1
    · exact hr hvs

theorem isPivotCol_iff {m : Nat} {pc : Nat → Int} {c : Nat} :
    isPivotCol m pc c = true ↔ ∃ r, r < m ∧ pc r = (c : Int) := by
  unfold isPivotCol
  simp [List.any_eq_true]

theorem mem_freeCols {m k : Nat} {pc : Nat → Int} {c : Nat} :
    c ∈ freeCols m k pc ↔ c < k ∧ ∀ r, r < m → pc r ≠ (c : Int) := by
  unfold freeCols
  rw [List.mem_filter, List.mem_range]
  constructor
  · rintro ⟨h1, h2⟩
    refine ⟨h1, fun r hr heq => ?_⟩
    have : isPivotCol m pc c = true := isPivotCol_iff.mpr ⟨r, hr, heq⟩
    rw [this] at h2
    exact absurd h2 (by decide)
  · rintro ⟨h1, h2⟩
    refine ⟨h1, ?_⟩
    cases hp : isPivotCol m pc c with
    | false => rfl
    | true =>
      obtain ⟨r, hr, heq⟩ := isPivotCol_iff.mp hp
      exact absurd heq (h2 r hr)

theorem nodup_freeCols (m k : Nat) (pc : Nat → Int) : (freeCols m k pc).Nodup :=
  List.Nodup.filter _ (List.nodup_range k)

theorem freeCols_getD_mem {m k : Nat} {pc : Nat → Int} {fi : Nat}
    (h : fi < (freeCols m k pc).length) : (freeCols m k pc).getD fi 0 ∈ freeCols m k pc := by
  rw [List.getD_eq_getElem _ _ h]
  exact List.getElem_mem _

theorem filter_range_eq {p : Nat → Bool} {n : Nat} :
    ∀ (m : Nat), n ≤ m → (∀ r, r < m → (p r = true ↔ r < n)) →
      (List.range m).filter p = List.range n := by
  intro m
  induction m with
  | zero =>
    intro hn _
    have : n = 0 := by omega
    subst this; rfl
  | succ m ih =>
    intro hn hp
    rw [List.range_succ, List.filter_append]
    by_cases hnm : n = m + 1
    · subst hnm
      have hpm : p m = true := (hp m (by omega)).mpr (by omega)
      rw [List.range_succ]
      congr 1
      · clear ih
        rw [List.filter_eq_self]
        intro a ha
        exact (hp a (by have := List.mem_range.mp ha; omega)).mpr
          (by have := List.mem_range.mp ha; omega)
      · simp [hpm]
    · have hpm : p m = false := by
        cases h : p m with
        | false => rfl
        | true => have := (hp m (by omega)).mp h; omega
      rw [ih (by omega) (fun r hr => hp r (by omega))]
      simp [hpm]

theorem pivotRows_eq {m k col : Nat} {s : Elim} (h : Echelon m k col s) :
    pivotRows m s.pivot_col = List.range s.row := by
  unfold pivotRows
  refine filter_range_eq m h.row_le ?_
  intro r _
  simp only [decide_eq_true_eq]
  constructor
  · intro hne
    by_contra hlt
    exact hne (h.pivot_none r (by omega))
  · intro hlt
    obtain ⟨c, hc, -, -⟩ := h.pivot_lt r hlt
    rw [hc]
    omega

theorem weights_sat (ld : LongDouble) {m k : Nat} {s : Elim} {free_cols : List Nat}
    (hwf : EntriesWF m k s.A s.rhs)
    (hfc : ∀ fi, fi < free_cols.length → free_cols.getD fi 0 < k) :
    (weights ld m s free_cols).Sat (fun _ => True) (fun _ => False) := by
  unfold weights
  have := forUp_sat (fun r (w : List ld.F) =>
      if s.pivot_col r = -1 then pure w
      else
        forUp (fun fi w => do
          let coef ← Rat.sub (Rat.ofInt 0) (s.A r (free_cols.getD fi 0))
          pure (w.set fi (ld.add (w.getD fi (ld.ofInt 1))
            (ld.div (ld.ofInt coef.n) (ld.ofInt coef.d))))) 0 free_cols.length w)
    (fun _ _ => True) (fun _ => False) m 0 (List.replicate free_cols.length (ld.ofInt 1))
    trivial ?_
  · exact this
  · intro r w _ hr _
    beta_reduce
    split
    · exact Run.sat_ret trivial
    · refine forUp_sat _ (fun _ _ => True) (fun _ => False) _ 0 w trivial ?_
      intro fi w1 _ hfi _
      simp only [bind_eq_bind, pure_eq_ret]
      have hA := hwf.1 r _ (by omega) (hfc fi (by omega))
      refine Run.sat_bind (Rat.sub_sat Rat.WF_zero.normal hA.normal hA.in64) ?_
      intro _ _
      exact Run.sat_ret trivial

theorem freeOrder_perm (ld : LongDouble) (w : List ld.F) (ub0 : List Int) (d : Nat) :
    List.Perm (freeOrder ld w ub0 d) (List.range d) :=
  List.perm_insertionSort _ _

/-- Specification of `build_parametrization` on a reduced system. -/
theorem build_parametrization_sat (ld : LongDouble) {m k : Nat} {b : List Int}
    {masks : List Nat} {A0 : Nat → Nat → Rat} {rhs0 : Nat → Rat} {s : Elim}
    (hs : Reduced m k A0 rhs0 s) :
    (build_parametrization ld m k b masks s).Sat (ParamOK m k b masks s)
      (fun e => (e = Err.largeNullspace ∧ 3 < (freeCols m k s.pivot_col).length) ∨
        e = Err.lcmOverflow) := by
  unfold build_parametrization
  simp only
  by_cases hd : (freeCols m k s.pivot_col).length > 3
  · rw [if_pos hd]
    exact Run.sat_throw (Or.inl ⟨rfl, hd⟩)
  rw [if_neg hd]
  simp only [bind_eq_bind, pure_eq_ret]
  have hfck : ∀ fi, fi < (freeCols m k s.pivot_col).length →
      (freeCols m k s.pivot_col).getD fi 0 < k :=
    fun fi hfi => (mem_freeCols.mp (freeCols_getD_mem hfi)).1
  refine Run.sat_bind ((sumTargets_sat b 0).mono (fun _ h => h) (fun _ h => h.elim)) ?_
  rintro sumB ⟨hsum, hsumr⟩
  rw [zero_add] at hsum
  subst hsum
  refine Run.sat_bind ((weights_sat ld hs.inv.wf hfck).mono (fun _ h => h) (fun _ h => h.elim)) ?_
  intro w _
  generalize hfo : freeOrder ld w
    (List.map (ub0Of m b masks b.sum) (freeCols m k s.pivot_col))
    (freeCols m k s.pivot_col).length = fo
  have hperm : List.Perm fo (List.range (freeCols m k s.pivot_col).length) := by
    rw [← hfo]; exact freeOrder_perm _ _ _ _
  have hfomem : ∀ fi, fi ∈ fo → fi < (freeCols m k s.pivot_col).length :=
    fun fi hfi => List.mem_range.mp (hperm.mem_iff.mp hfi)
  rw [pivotRows_eq hs.inv.ech]
  refine Run.sat_bind (P := fun exprs => exprs.length = s.row ∧ ∀ r, r < s.row →
      0 < (exprs.getD r ⟨1, 0, []⟩).D ∧
      (exprs.getD r ⟨1, 0, []⟩).coef.length = fo.length ∧
      (((exprs.getD r ⟨1, 0, []⟩).base : Int) : ℚ)
        = ((exprs.getD r ⟨1, 0, []⟩).D : ℚ) * (s.rhs r).toQ ∧
      ∀ i, i < fo.length →
        ((((exprs.getD r ⟨1, 0, []⟩).coef.getD i 0 : Int)) : ℚ)
          = ((exprs.getD r ⟨1, 0, []⟩).D : ℚ) *
            (-(s.A r ((freeCols m k s.pivot_col).getD (fo.getD i 0) 0)).toQ)) ?_ ?_
  · refine (mapRun_sat (Q := fun e => e = Err.lcmOverflow)
        (P := fun r e => 0 < e.D ∧ e.coef.length = fo.length ∧
        (e.base : ℚ) = (e.D : ℚ) * (s.rhs r).toQ ∧
        ∀ i, i < fo.length → ((e.coef.getD i 0 : Int) : ℚ)
          = (e.D : ℚ) * (-(s.A r ((freeCols m k s.pivot_col).getD (fo.getD i 0) 0)).toQ))
      0 ⟨1, 0, []⟩ (List.range s.row) ?_).mono ?_ ?_
    · intro r hr
      have hrm : r < m := by
        have := List.mem_range.mp hr
        have := hs.inv.ech.row_le
        omega
      exact buildExpr_sat hs.inv.wf hrm (fun fi hfi => hfck fi (hfomem fi hfi))
    · rintro exprs ⟨hlen, hex⟩
      rw [List.length_range] at hlen hex
      refine ⟨hlen, fun r hr => ?_⟩
      have := hex r hr
      have hrg : (List.range s.row).getD r 0 = r := by
        rw [List.getD_eq_getElem (List.range s.row) 0 (by rw [List.length_range]; exact hr),
          List.getElem_range]
      rw [hrg] at this
      exact this
    · intro e he
      exact Or.inr he
  · rintro exprs ⟨hlen, hex⟩
    have hfolen : fo.length = (freeCols m k s.pivot_col).length := by
      rw [hperm.length_eq, List.length_range]
    refine Run.sat_ret ⟨rfl, by simp only; omega, hperm, hsumr, ?_, hlen,
      fun r hr => (hex r hr).1, fun r hr => (hex r hr).2.2.1, ?_⟩
    · simp only
      refine List.map_congr_left (fun fi hfi => ?_)
      have hlt := hfomem fi hfi
      rw [List.getD_eq_getElem _ _ (by rw [List.length_map]; exact hlt), List.getElem_map,
        List.getD_eq_getElem _ _ hlt]
    · intro r hr oi hoi
      simp only at hoi ⊢
      exact (hex r hr).2.2.2 oi (by omega)

end Day10

namespace Day10

/-! ## Pivot columns and free columns -/

theorem Echelon.pcol_eq {m k col : Nat} {s : Elim} (h : Echelon m k col s) {r : Nat}
    (hr : r < s.row) : s.pivot_col r = (s.pcol r : Int) ∧ s.pcol r < k := by
  obtain ⟨c, hc, -, hck⟩ := h.pivot_lt r hr
  unfold Elim.pcol
  rw [hc]
  simp [hck]

theorem colFacts {m k : Nat} {b : List Int} {masks : List Nat} {A0 : Nat → Nat → Rat}
    {rhs0 : Nat → Rat} {s : Elim} {p : Param} (hs : Reduced m k A0 rhs0 s)
    (hp : ParamOK m k b masks s p) :
    ColFacts k s.row p.free_cols.length s.pcol p.fcol := by
  have hech := hs.inv.ech
  have hfolen : p.free_order.length = p.free_cols.length := by
    rw [hp.fo.length_eq, List.length_range]
  have hfond : p.free_order.Nodup := hp.fo.nodup_iff.mpr (List.nodup_range _)
  have hfcnd : p.free_cols.Nodup := by rw [hp.fc]; exact nodup_freeCols _ _ _
  have hfo_lt : ∀ oi, oi < p.free_cols.length → p.free_order.getD oi 0 < p.free_cols.length := by
    intro oi hoi
    have : p.free_order.getD oi 0 ∈ p.free_order := by
      rw [List.getD_eq_getElem _ _ (by omega)]
      exact List.getElem_mem _
    exact List.mem_range.mp (hp.fo.mem_iff.mp this)
  have hfmem : ∀ oi, oi < p.free_cols.length → p.fcol oi ∈ freeCols m k s.pivot_col := by
    intro oi hoi
    unfold Param.fcol
    rw [List.getD_eq_getElem _ _ (hfo_lt oi hoi)]
    rw [← hp.fc]
    exact List.getElem_mem _
  refine ⟨fun r hr => (hech.pcol_eq hr).2, ?_, fun oi hoi => (mem_freeCols.mp (hfmem oi hoi)).1,
    ?_, ?_, ?_⟩
  · intro r r1 hr hr1 heq
    by_contra hne
    have e1 := (hech.pcol_eq hr).1
    have e2 := (hech.pcol_eq hr1).1
    rcases Nat.lt_or_gt_of_ne hne with hlt | hlt
    · have := hech.pivot_mono r r1 hlt hr1
      rw [e1, e2, heq] at this
      omega
    · have := hech.pivot_mono r1 r hlt hr
      rw [e1, e2, heq] at this
      omega
  · intro oi oi1 hoi hoi1 heq
    unfold Param.fcol at heq
    rw [List.getD_eq_getElem _ _ (hfo_lt oi hoi), List.getD_eq_getElem _ _ (hfo_lt oi1 hoi1)] at heq
    have h1 := (hfcnd.getElem_inj_iff).mp heq
    have e1 : p.free_order.getD oi 0 = p.free_order[oi] :=
      List.getD_eq_getElem _ _ (by omega)
    have e2 : p.free_order.getD oi1 0 = p.free_order[oi1] :=
      List.getD_eq_getElem _ _ (by omega)
    exact (hfond.getElem_inj_iff).mp (e1.symm.trans (h1.trans e2))
  · intro r oi hr hoi heq
    have := (mem_freeCols.mp (hfmem oi hoi)).2 r (by have := hech.row_le; omega)
    rw [(hech.pcol_eq hr).1, heq] at this
    exact this rfl
  · intro j hj
    by_cases hpiv : ∃ r, r < m ∧ s.pivot_col r = (j : Int)
    · obtain ⟨r, hr, hrj⟩ := hpiv
      left
      have hrow : r < s.row := by
        by_contra hge
        have := hech.pivot_none r (by omega)
        rw [this] at hrj
        omega
      refine ⟨r, hrow, ?_⟩
      have := (hech.pcol_eq hrow).1
      rw [hrj] at this
      exact_mod_cast this.symm
    · right
      push_neg at hpiv
      have hjF : j ∈ p.free_cols := by
        rw [hp.fc]
        exact mem_freeCols.mpr ⟨hj, hpiv⟩
      obtain ⟨fi, hfi, hfij⟩ := List.getElem_of_mem hjF
      have hfimem : fi ∈ p.free_order := hp.fo.mem_iff.mpr (List.mem_range.mpr hfi)
      obtain ⟨oi, hoi, hoifi⟩ := List.getElem_of_mem hfimem
      refine ⟨oi, by omega, ?_⟩
      unfold Param.fcol
      rw [List.getD_eq_getElem _ _ hoi, hoifi, List.getD_eq_getElem _ _ hfi, hfij]

/-- A sum over all columns splits into the pivot columns and the free columns. -/
theorem ColFacts.sum_split {M : Type} [AddCommMonoid M] {k rank d : Nat} {pc fc : Nat → Nat}
    (h : ColFacts k rank d pc fc) (g : Nat → M) :
    ∑ j in Finset.range k, g j
      = ∑ r in Finset.range rank, g (pc r) + ∑ oi in Finset.range d, g (fc oi) := by
  have hset : Finset.range k
      = (Finset.range rank).image pc ∪ (Finset.range d).image fc := by
    ext j
    simp only [Finset.mem_range, Finset.mem_union, Finset.mem_image]
    constructor
    · intro hj
      rcases h.cover j hj with ⟨r, hr, e⟩ | ⟨oi, hoi, e⟩
      · exact Or.inl ⟨r, hr, e⟩
      · exact Or.inr ⟨oi, hoi, e⟩
    · rintro (⟨r, hr, rfl⟩ | ⟨oi, hoi, rfl⟩)
      · exact h.pc_lt r hr
      · exact h.fc_lt oi hoi
  have hdisj : Disjoint ((Finset.range rank).image pc) ((Finset.range d).image fc) := by
    rw [Finset.disjoint_left]
    intro j h1 h2
    simp only [Finset.mem_image, Finset.mem_range] at h1 h2
    obtain ⟨r, hr, rfl⟩ := h1
    obtain ⟨oi, hoi, e⟩ := h2
    exact h.disj r oi hr hoi e.symm
  rw [hset, Finset.sum_union hdisj, Finset.sum_image, Finset.sum_image]
  · intro a ha b hb e
    exact h.fc_inj a b (Finset.mem_range.mp ha) (Finset.mem_range.mp hb) e
  · intro a ha b hb e
    exact h.pc_inj a b (Finset.mem_range.mp ha) (Finset.mem_range.mp hb) e

end Day10

namespace Day10

/-! ## From the reduced system to press counts -/

theorem build_matrix_wf {b : List Int} {masks : List Nat}
    (hb : ∀ t, t ∈ b → -INT64_MAX ≤ t ∧ t ≤ INT64_MAX) :
    EntriesWF b.length masks.length (build_matrix b masks).A (build_matrix b masks).rhs := by
  refine ⟨fun i j _ _ => ?_, fun i hi => ?_⟩
  · show (Rat.ofInt (if maskBit (masks.getD j 0) i then 1 else 0)).WF
    split
    · exact Rat.WF_one
    · exact Rat.WF_zero
  · show (Rat.ofInt (b.getD i 0)).WF
    have hmem : b.getD i 0 ∈ b := by
      rw [List.getD_eq_getElem _ _ hi]
      exact List.getElem_mem _
    exact Rat.WF_ofInt (hb _ hmem).1 (hb _ hmem).2

theorem build_matrix_solves {b : List Int} {masks : List Nat} (x : Nat → Nat) :
    Solves b.length masks.length (build_matrix b masks).A (build_matrix b masks).rhs
      (fun j => (x j : ℚ)) ↔ IsSolution b masks x := by
  unfold Solves IsSolution
  refine forall_congr' (fun i => forall_congr' (fun _ => ?_))
  have e1 : rowDot masks.length (build_matrix b masks).A (fun j => (x j : ℚ)) i
      = ((rowPresses masks x i : Int) : ℚ) := by
    unfold rowDot rowPresses build_matrix
    push_cast
    refine Finset.sum_congr rfl (fun j _ => ?_)
    simp only [Rat.toQ_ofInt]
    split <;> simp
  have e2 : ((build_matrix b masks).rhs i).toQ = ((b.getD i 0 : Int) : ℚ) := by
    unfold build_matrix
    simp
  rw [e1, e2]
  exact Int.cast_inj

theorem list_sum_eq_range {α : Type} (f : α → Int) (a0 : α) (l : List α) :
    (l.map f).sum = ∑ i in Finset.range l.length, f (l.getD i a0) := by
  induction l with
  | nil => simp
  | cons a l ih =>
    rw [List.map_cons, List.sum_cons, List.length_cons, Finset.sum_range_succ', ih]
    simp [add_comm]

/-- The value of a scaled pivot expression. -/
theorem exprNum_value {m k : Nat} {b : List Int} {masks : List Nat} {s : Elim} {p : Param}
    (hp : ParamOK m k b masks s p) {r : Nat} (hr : r < s.row) (y : Nat → Int) :
    ((exprNum (p.piv_exprs.getD r ⟨1, 0, []⟩) p.free_cols.length y : Int) : ℚ)
      = ((p.piv_exprs.getD r ⟨1, 0, []⟩).D : ℚ) *
        ((s.rhs r).toQ - ∑ oi in Finset.range p.free_cols.length,
          (s.A r (p.fcol oi)).toQ * (y oi : ℚ)) := by
  unfold exprNum
  rw [sumFrom_eq]
  push_cast
  rw [hp.ex_base r hr, mul_sub, Finset.mul_sum, sub_eq_add_neg, ← Finset.sum_neg_distrib]
  congr 1
  refine Finset.sum_congr rfl (fun oi hoi => ?_)
  rw [Nat.zero_add, hp.ex_coef r hr oi (Finset.mem_range.mp hoi)]
  ring

/-- A pivot row of the reduced system: its pivot variable plus the free part. -/
theorem rowDot_pivot {m k : Nat} {A0 : Nat → Nat → Rat} {rhs0 : Nat → Rat} {s : Elim}
    {d : Nat} {fc : Nat → Nat} (hs : Reduced m k A0 rhs0 s)
    (hc : ColFacts k s.row d s.pcol fc) {r : Nat} (hr : r < s.row) (X : Nat → ℚ) :
    rowDot k s.A X r
      = X (s.pcol r) + ∑ oi in Finset.range d, (s.A r (fc oi)).toQ * X (fc oi) := by
  unfold rowDot
  rw [hc.sum_split (fun j => (s.A r j).toQ * X j)]
  congr 1
  have hech := hs.inv.ech
  rw [Finset.sum_eq_single r]
  · rw [hech.pivot_one r (s.pcol r) hr (hech.pcol_eq hr).1, one_mul]
  · intro r1 hr1 hne
    have hr1' := Finset.mem_range.mp hr1
    rw [hech.pivot_clear r1 (s.pcol r1) hr1' (hech.pcol_eq hr1').1 r
      (by have := hech.row_le; omega) (Ne.symm hne), zero_mul]
  · intro h
    exact absurd (Finset.mem_range.mpr hr) h

theorem solves_reduced_iff {m k : Nat} {A0 : Nat → Nat → Rat} {rhs0 : Nat → Rat} {s : Elim}
    {d : Nat} {fc : Nat → Nat} (hs : Reduced m k A0 rhs0 s)
    (hc : ColFacts k s.row d s.pcol fc) (X : Nat → ℚ) :
    Solves m k s.A s.rhs X ↔
      ∀ r, r < s.row →
        X (s.pcol r) = (s.rhs r).toQ - ∑ oi in Finset.range d, (s.A r (fc oi)).toQ * X (fc oi) := by
  have hech := hs.inv.ech
  constructor
  · intro h r hr
    have := h r (by have := hech.row_le; omega)
    rw [rowDot_pivot hs hc hr] at this
    linarith
  · intro h i hi
    by_cases hir : i < s.row
    · rw [rowDot_pivot hs hc hir, h i hir]
      ring
    · rw [hs.zero_rhs i (by omega) hi]
      unfold rowDot
      refine Finset.sum_eq_zero (fun j hj => ?_)
      rw [hs.zero_rows i j (by omega) hi (Finset.mem_range.mp hj), zero_mul]

theorem valSum_eq_range {exprs : List ExprScaled} {d : Nat} (y : Nat → Int) :
    valSum exprs d y = ∑ r in Finset.range exprs.length,
      exprNum (exprs.getD r ⟨1, 0, []⟩) d y / (exprs.getD r ⟨1, 0, []⟩).D := by
  unfold valSum
  exact list_sum_eq_range (fun e => exprNum e d y / e.D) ⟨1, 0, []⟩ exprs

theorem mem_exprs_iff {exprs : List ExprScaled} {e : ExprScaled} :
    e ∈ exprs ↔ ∃ r, r < exprs.length ∧ exprs.getD r ⟨1, 0, []⟩ = e := by
  constructor
  · intro h
    obtain ⟨r, hr, e1⟩ := List.getElem_of_mem h
    exact ⟨r, hr, by rw [List.getD_eq_getElem _ _ hr, e1]⟩
  · rintro ⟨r, hr, rfl⟩
    rw [List.getD_eq_getElem _ _ hr]
    exact List.getElem_mem _

/-- Every rational solution of the reduced system whose free coordinates are the
integers `y` has the pivot coordinates `exprNum / D`. -/
theorem leaf_of_solution {m k : Nat} {b : List Int} {masks : List Nat}
    {A0 : Nat → Nat → Rat} {rhs0 : Nat → Rat} {s : Elim} {p : Param}
    (hs : Reduced m k A0 rhs0 s) (hp : ParamOK m k b masks s p) (X : Nat → Nat)
    (hX : Solves m k s.A s.rhs (fun j => (X j : ℚ))) :
    Feasible p.piv_exprs p.free_cols.length (fun oi => (X (p.fcol oi) : Int)) ∧
    leafTotal p.piv_exprs p.free_cols.length (fun oi => (X (p.fcol oi) : Int))
      = ((∑ j in Finset.range k, X j : Nat) : Int) := by
  have hc := colFacts hs hp
  have hsol := (solves_reduced_iff hs hc _).mp hX
  have hnum : ∀ r, r < s.row →
      exprNum (p.piv_exprs.getD r ⟨1, 0, []⟩) p.free_cols.length
        (fun oi => (X (p.fcol oi) : Int))
        = (p.piv_exprs.getD r ⟨1, 0, []⟩).D * (X (s.pcol r) : Int) := by
    intro r hr
    have h1 := exprNum_value hp hr (fun oi => (X (p.fcol oi) : Int))
    have h2 := hsol r hr
    have h3 : ((exprNum (p.piv_exprs.getD r ⟨1, 0, []⟩) p.free_cols.length
        (fun oi => (X (p.fcol oi) : Int)) : Int) : ℚ)
        = (((p.piv_exprs.getD r ⟨1, 0, []⟩).D * (X (s.pcol r) : Int) : Int) : ℚ) := by
      rw [h1]
      push_cast
      rw [h2]
    exact_mod_cast h3
  refine ⟨?_, ?_⟩
  · intro e he
    obtain ⟨r, hr, rfl⟩ := mem_exprs_iff.mp he
    rw [hp.ex_len] at hr
    rw [hnum r hr]
    exact ⟨Int.mul_nonneg (hp.ex_D r hr).le (Int.ofNat_nonneg _), Dvd.intro _ rfl⟩
  · unfold leafTotal
    rw [valSum_eq_range, sumFrom_eq, hp.ex_len, hc.sum_split (fun j => X j)]
    push_cast
    rw [add_comm]
    congr 1
    · refine Finset.sum_congr rfl (fun r hr => ?_)
      have hr' := Finset.mem_range.mp hr
      rw [hnum r hr']
      exact Int.mul_ediv_cancel_left _ (hp.ex_D r hr').ne'
    · refine Finset.sum_congr rfl (fun oi _ => ?_)
      rw [Nat.zero_add]

/-- A feasible point of the search is a solution of the reduced system in
non-negative integers, with the same total. -/
theorem solution_of_leaf {m k : Nat} {b : List Int} {masks : List Nat}
    {A0 : Nat → Nat → Rat} {rhs0 : Nat → Rat} {s : Elim} {p : Param}
    (hs : Reduced m k A0 rhs0 s) (hp : ParamOK m k b masks s p) (y : Nat → Int)
    (hy0 : ∀ oi, oi < p.free_cols.length → 0 ≤ y oi)
    (hf : Feasible p.piv_exprs p.free_cols.length y) :
    ∃ X : Nat → Nat, Solves m k s.A s.rhs (fun j => (X j : ℚ)) ∧
      ((∑ j in Finset.range k, X j : Nat) : Int) = leafTotal p.piv_exprs p.free_cols.length y := by
  classical
  have hc := colFacts hs hp
  let X : Nat → Nat := fun j =>
    if h : ∃ oi, oi < p.free_cols.length ∧ p.fcol oi = j then (y (Classical.choose h)).toNat
    else if h : ∃ r, r < s.row ∧ s.pcol r = j then
      (exprNum (p.piv_exprs.getD (Classical.choose h) ⟨1, 0, []⟩) p.free_cols.length y
        / (p.piv_exprs.getD (Classical.choose h) ⟨1, 0, []⟩).D).toNat
    else 0
  have hXf : ∀ oi, oi < p.free_cols.length → (X (p.fcol oi) : Int) = y oi := by
    intro oi hoi
    have h : ∃ oi1, oi1 < p.free_cols.length ∧ p.fcol oi1 = p.fcol oi := ⟨oi, hoi, rfl⟩
    have hch := Classical.choose_spec h
    have : Classical.choose h = oi := hc.fc_inj _ _ hch.1 hoi hch.2
    simp only [X, dif_pos h, this]
    exact Int.toNat_of_nonneg (hy0 oi hoi)
  have hval : ∀ r, r < s.row →
      0 ≤ exprNum (p.piv_exprs.getD r ⟨1, 0, []⟩) p.free_cols.length y
        / (p.piv_exprs.getD r ⟨1, 0, []⟩).D ∧
      (p.piv_exprs.getD r ⟨1, 0, []⟩).D ∣
        exprNum (p.piv_exprs.getD r ⟨1, 0, []⟩) p.free_cols.length y := by
    intro r hr
    have hmem : p.piv_exprs.getD r ⟨1, 0, []⟩ ∈ p.piv_exprs :=
      mem_exprs_iff.mpr ⟨r, by rw [hp.ex_len]; exact hr, rfl⟩
    exact ⟨Int.ediv_nonneg (hf _ hmem).1 (hp.ex_D r hr).le, (hf _ hmem).2⟩
  have hXp : ∀ r, r < s.row → (X (s.pcol r) : Int)
      = exprNum (p.piv_exprs.getD r ⟨1, 0, []⟩) p.free_cols.length y
        / (p.piv_exprs.getD r ⟨1, 0, []⟩).D := by
    intro r hr
    have hno : ¬ ∃ oi, oi < p.free_cols.length ∧ p.fcol oi = s.pcol r := by
      rintro ⟨oi, hoi, e⟩
      exact hc.disj r oi hr hoi e.symm
    have h : ∃ r1, r1 < s.row ∧ s.pcol r1 = s.pcol r := ⟨r, hr, rfl⟩
    have hch := Classical.choose_spec h
    have : Classical.choose h = r := hc.pc_inj _ _ hch.1 hr hch.2
    simp only [X, dif_neg hno, dif_pos h, this]
    exact Int.toNat_of_nonneg (hval r hr).1
  refine ⟨X, ?_, ?_⟩
  · rw [solves_reduced_iff hs hc]
    intro r hr
    have h1 := exprNum_value hp hr y
    have hD := hp.ex_D r hr
    have hDq : ((p.piv_exprs.getD r ⟨1, 0, []⟩).D : ℚ) ≠ 0 := by exact_mod_cast hD.ne'
    obtain ⟨q, hq⟩ := (hval r hr).2
    have hXq : (X (s.pcol r) : Int) = q := by
      rw [hXp r hr, hq]
      exact Int.mul_ediv_cancel_left _ hD.ne'
    have h2 : ((X (s.pcol r) : Nat) : ℚ) = (q : ℚ) := by exact_mod_cast hXq
    rw [h2]
    rw [hq] at h1
    push_cast at h1
    have h3 := mul_left_cancel₀ hDq h1
    rw [h3]
    congr 1
    refine Finset.sum_congr rfl (fun oi hoi => ?_)
    have := hXf oi (Finset.mem_range.mp hoi)
    have h4 : ((X (p.fcol oi) : Nat) : ℚ) = (y oi : ℚ) := by exact_mod_cast this
    rw [h4]
  · unfold leafTotal
    rw [valSum_eq_range, sumFrom_eq, hp.ex_len, hc.sum_split (fun j => X j)]
    push_cast
    rw [add_comm]
    congr 1
    · refine Finset.sum_congr rfl (fun oi hoi => ?_)
      rw [Nat.zero_add]
      exact hXf oi (Finset.mem_range.mp hoi)
    · refine Finset.sum_congr rfl (fun r hr => ?_)
      exact hXp r (Finset.mem_range.mp hr)

end Day10

namespace Day10

/-! ## Bounds of the free variables -/

theorem bestBound_ge {b : List Int} {mask : Nat} {sumB v : Int} :
    ∀ (m : Nat), v ≤ sumB → (∀ i, i < m → maskBit mask i = true → v ≤ b.getD i 0) →
      v ≤ bestBound m b mask sumB := by
  intro m
  induction m with
  | zero => intro h _; simpa [bestBound] using h
  | succ m ih =>
    intro h hall
    have := ih h (fun i hi hbit => hall i (by omega) hbit)
    unfold bestBound at this ⊢
    rw [List.range_succ, List.foldl_append]
    simp only [List.foldl_cons, List.foldl_nil]
    split
    · rename_i hbit
      exact le_min this (hall m (by omega) hbit)
    · exact this

theorem le_ub0Of {m : Nat} {b : List Int} {masks : List Nat} {sumB v : Int} {fc : Nat}
    (h1 : v ≤ sumB) (h2 : ∀ i, i < m → maskBit (masks.getD fc 0) i = true → v ≤ b.getD i 0) :
    v ≤ ub0Of m b masks sumB fc := by
  unfold ub0Of
  have := bestBound_ge m h1 h2
  simp only
  split
  · rename_i hneg
    have : v ≤ min sumB (bestBound m b (masks.getD fc 0) sumB) := le_min h1 this
    omega
  · exact le_min h1 this

theorem zeroEmpty_le (m : Nat) (masks : List Nat) (x : Nat → Nat) (j : Nat) :
    zeroEmpty m masks x j ≤ x j := by
  unfold zeroEmpty
  split
  · exact le_refl _
  · exact Nat.zero_le _

theorem zeroEmpty_bit {m : Nat} {masks : List Nat} {x : Nat → Nat} {i j : Nat} (hi : i < m)
    (hbit : maskBit (masks.getD j 0) i = true) : zeroEmpty m masks x j = x j := by
  unfold zeroEmpty
  rw [if_pos]
  rw [List.any_eq_true]
  exact ⟨i, List.mem_range.mpr hi, hbit⟩

theorem zeroEmpty_solution {b : List Int} {masks : List Nat} {x : Nat → Nat}
    (h : IsSolution b masks x) : IsSolution b masks (zeroEmpty b.length masks x) := by
  intro i hi
  rw [← h i hi]
  congr 1
  unfold rowPresses
  refine Finset.sum_congr rfl (fun j _ => ?_)
  split
  · rename_i hbit
    exact zeroEmpty_bit hi hbit
  · rfl

theorem zeroEmpty_total (m : Nat) (masks : List Nat) (x : Nat → Nat) :
    totalPresses masks (zeroEmpty m masks x) ≤ totalPresses masks x :=
  Finset.sum_le_sum (fun j _ => zeroEmpty_le m masks x j)

theorem target_le_sum {b : List Int} (hb : ∀ t, t ∈ b → 0 ≤ t) {i : Nat} (hi : i < b.length) :
    b.getD i 0 ≤ b.sum := by
  have h1 := list_sum_eq_range (fun t : Int => t) 0 b
  simp only [List.map_id'] at h1
  rw [h1]
  refine Finset.single_le_sum (f := fun i => b.getD i 0) (fun r hr => ?_) (Finset.mem_range.mpr hi)
  have hr' := Finset.mem_range.mp hr
  refine hb _ ?_
  show b.getD r 0 ∈ b
  rw [List.getD_eq_getElem _ _ hr']
  exact List.getElem_mem _

theorem le_rowPresses {masks : List Nat} {x : Nat → Nat} {i j : Nat} (hj : j < masks.length)
    (hbit : maskBit (masks.getD j 0) i = true) : x j ≤ rowPresses masks x i := by
  unfold rowPresses
  have := Finset.single_le_sum
    (f := fun j => if maskBit (masks.getD j 0) i = true then x j else 0)
    (fun _ _ => Nat.zero_le _) (Finset.mem_range.mpr hj)
  beta_reduce at this
  rw [if_pos hbit] at this
  exact this

/-- An exact assignment without presses on masks that touch no counter stays below
the bound computed for every column. -/
theorem solution_le_ub0 {b : List Int} {masks : List Nat} {x : Nat → Nat}
    (hb : ∀ t, t ∈ b → 0 ≤ t) (h : IsSolution b masks x) {j : Nat} (hj : j < masks.length) :
    (zeroEmpty b.length masks x j : Int) ≤ ub0Of b.length b masks b.sum j := by
  have hsol := zeroEmpty_solution h
  have hrow : ∀ i, i < b.length → maskBit (masks.getD j 0) i = true →
      (zeroEmpty b.length masks x j : Int) ≤ b.getD i 0 := by
    intro i hi hbit
    rw [← hsol i hi]
    exact_mod_cast le_rowPresses hj hbit
  refine le_ub0Of ?_ hrow
  by_cases hany : (List.range b.length).any (fun i => maskBit (masks.getD j 0) i) = true
  · rw [List.any_eq_true] at hany
    obtain ⟨i, hi, hbit⟩ := hany
    have hi' := List.mem_range.mp hi
    exact le_trans (hrow i hi' hbit) (target_le_sum hb hi')
  · unfold zeroEmpty
    rw [if_neg hany]
    exact_mod_cast List.sum_nonneg hb

/-- The total of such an assignment is at most the sum of the targets. -/
theorem total_le_sum {b : List Int} {masks : List Nat} {x : Nat → Nat}
    (h : IsSolution b masks x) :
    (totalPresses masks (zeroEmpty b.length masks x) : Int) ≤ b.sum := by
  have hsol := zeroEmpty_solution h
  have h1 := list_sum_eq_range (fun t : Int => t) 0 b
  simp only [List.map_id'] at h1
  rw [h1]
  have h2 : ∑ i in Finset.range b.length, b.getD i 0
      = ∑ i in Finset.range b.length,
          ((rowPresses masks (zeroEmpty b.length masks x) i : Nat) : Int) :=
    Finset.sum_congr rfl (fun i hi => (hsol i (Finset.mem_range.mp hi)).symm)
  rw [h2, ← Nat.cast_sum]
  refine Int.ofNat_le.mpr ?_
  unfold totalPresses rowPresses
  rw [Finset.sum_comm]
  refine Finset.sum_le_sum (fun j _ => ?_)
  by_cases hany : (List.range b.length).any (fun i => maskBit (masks.getD j 0) i) = true
  · rw [List.any_eq_true] at hany
    obtain ⟨i, hi, hbit⟩ := hany
    have := Finset.single_le_sum
      (f := fun i => if maskBit (masks.getD j 0) i = true
        then zeroEmpty b.length masks x j else 0)
      (fun _ _ => Nat.zero_le _) (Finset.mem_range.mpr (List.mem_range.mp hi))
    beta_reduce at this
    rw [if_pos hbit] at this
    exact this
  · unfold zeroEmpty
    rw [if_neg hany]
    exact Nat.zero_le _

end Day10

namespace Day10

/-! ## The solver as a whole -/

theorem Run.sat_bind_eq {α β : Type} {x : Run α} {f : α → Run β} {P : α → Prop}
    {R : β → Prop} {Q : Err → Prop} (hx : x.Sat P Q)
    (hf : ∀ a, x = ⟨Res.ok a, false⟩ → P a → (f a).Sat R Q) :
    (Run.bind x f).Sat R Q := by
  intro hw
  have hxw := Run.bind_wrapped hw
  have h1 := hx hxw
  obtain ⟨xo, xw⟩ := x
  simp only at hxw
  subst hxw
  cases xo with
  | error e => exact h1
  | ok a =>
    have := hf a rfl h1
    simp only [Run.bind, Bool.false_or] at hw ⊢
    exact this hw

theorem freeCount_eq {b : List Int} {masks : List Nat} {s : Elim}
    (h : gauss_jordan_rref b.length masks.length (build_matrix b masks) = ⟨Res.ok s, false⟩) :
    freeCount b masks = (freeCols b.length masks.length s.pivot_col).length := by
  unfold gauss_jordan_rref at h
  simp only [bind_eq_bind, pure_eq_ret] at h
  obtain ⟨s1, h1, h2⟩ := Run.bind_eq_ok h
  obtain ⟨u, _, h4⟩ := Run.bind_eq_ok h2
  have hs : s1 = s := by
    simp only [Run.ret, Run.mk.injEq, Res.ok.injEq, and_true] at h4
    exact h4
  subst hs
  unfold freeCount
  rw [h1]

/-- Specification of `enumerate`. -/
theorem enumerate_sat (ld : LongDouble) {m k : Nat} {b : List Int} {masks : List Nat}
    {s : Elim} {p : Param} (hp : ParamOK m k b masks s p) :
    (enumerate ld p).Sat
      (fun v => v < BEST0 ∧
        (∃ y, Ext p.ub p.free_cols.length 0 (fun _ => 0) y ∧
          Feasible p.piv_exprs p.free_cols.length y ∧
          leafTotal p.piv_exprs p.free_cols.length y = v) ∧
        ∀ y, Ext p.ub p.free_cols.length 0 (fun _ => 0) y →
          Feasible p.piv_exprs p.free_cols.length y →
          v ≤ leafTotal p.piv_exprs p.free_cols.length y)
      (fun e => e = Err.noSolution ∧
        ∀ y, Ext p.ub p.free_cols.length 0 (fun _ => 0) y →
          Feasible p.piv_exprs p.free_cols.length y →
          BEST0 ≤ leafTotal p.piv_exprs p.free_cols.length y) := by
  unfold enumerate
  simp only [bind_eq_bind, pure_eq_ret]
  have hD : ∀ e, e ∈ p.piv_exprs → 0 < e.D := by
    intro e he
    obtain ⟨r, hr, rfl⟩ := mem_exprs_iff.mp he
    exact hp.ex_D r (by rw [← hp.ex_len]; exact hr)
  refine Run.sat_bind ((dfs_sat ld p.piv_exprs p.ub p.free_cols.length hD p.free_cols.length 0
    (fun _ => 0) 0 BEST0 (by omega) (by simp [sumFrom])).mono (fun _ h => h)
    (fun _ h => h.elim)) ?_
  rintro best ⟨h1, h2, h3⟩
  by_cases hge : best ≥ BEST0
  · rw [if_pos hge]
    refine Run.sat_throw ⟨rfl, fun y hy hf => ?_⟩
    exact le_trans hge (h3 y hy hf)
  · rw [if_neg hge]
    refine Run.sat_ret ⟨by omega, ?_, h3⟩
    rcases h2 with h2 | h2
    · omega
    · exact h2

/-- The point of the search box that belongs to an exact assignment. -/
theorem leaf_in_box {m k : Nat} {b : List Int} {masks : List Nat} {s : Elim} {p : Param}
    {A0 : Nat → Nat → Rat} {rhs0 : Nat → Rat} (hs : Reduced m k A0 rhs0 s)
    (hp : ParamOK m k b masks s p) (X : Nat → Nat)
    (hX : ∀ j, j < k → (X j : Int) ≤ ub0Of m b masks b.sum j) :
    Ext p.ub p.free_cols.length 0 (fun _ => 0) (fun oi => (X (p.fcol oi) : Int)) := by
  have hc := colFacts hs hp
  refine ⟨fun i hi => by omega, fun oi _ hoi => ⟨Int.ofNat_nonneg _, ?_⟩⟩
  have hfolen : p.free_order.length = p.free_cols.length := by
    rw [hp.fo.length_eq, List.length_range]
  have : p.ub.getD oi 0 = ub0Of m b masks b.sum (p.fcol oi) := by
    rw [hp.ub, List.getD_eq_getElem _ _ (by rw [List.length_map]; omega), List.getElem_map]
    unfold Param.fcol
    rw [List.getD_eq_getElem p.free_order 0 (by omega)]
  rw [this]
  exact hX _ (hc.fc_lt oi hoi)

/-- Specification of the solver: absent overflow, a returned value is the minimum
number of presses, and a thrown error is justified. -/
theorem solve_sat (ld : LongDouble) (b : List Int) (masks : List Nat)
    (hb : ∀ t, t ∈ b → 0 ≤ t ∧ t ≤ 2147483647) :
    (minimal_presses_for_machine ld b masks).Sat (IsMinimum b masks) (ErrorSpec b masks) := by
  unfold minimal_presses_for_machine
  simp only
  by_cases hm : b.length = 0
  · rw [if_pos hm]
    exact Run.sat_throw (Or.inl ⟨rfl, List.length_eq_zero.mp hm⟩)
  rw [if_neg hm]
  have hbne : b ≠ [] := fun h => hm (by rw [h]; rfl)
  by_cases hk : masks.length = 0
  · rw [if_pos hk]
    exact Run.sat_throw (Or.inr (Or.inl ⟨rfl, hbne, List.length_eq_zero.mp hk⟩))
  rw [if_neg hk]
  have hmne : masks ≠ [] := fun h => hk (by rw [h]; rfl)
  simp only [bind_eq_bind]
  have hwf : EntriesWF b.length masks.length (build_matrix b masks).A (build_matrix b masks).rhs :=
    build_matrix_wf (fun t ht => by
      have := hb t ht
      unfold INT64_MAX
      omega)
  have hnosol : (¬ ∃ x, Solves b.length masks.length (build_matrix b masks).A
      (build_matrix b masks).rhs x) → ¬ ∃ x, IsSolution b masks x := by
    rintro h ⟨x, hx⟩
    exact h ⟨_, (build_matrix_solves x).mpr hx⟩
  refine Run.sat_bind_eq ((gauss_jordan_rref_sat hwf).mono (fun _ h => h) ?_) ?_
  · rintro e ⟨he, hno⟩
    exact Or.inr (Or.inr (Or.inl ⟨Or.inl he, hbne, hmne, hnosol hno⟩))
  intro s hseq hs
  refine Run.sat_bind ((build_parametrization_sat ld hs).mono (fun _ h => h) ?_) ?_
  · rintro e (⟨he, hlt⟩ | he)
    · refine Or.inr (Or.inr (Or.inr (Or.inl ⟨he, ?_⟩)))
      rw [freeCount_eq hseq]
      exact hlt
    · exact Or.inr (Or.inr (Or.inr (Or.inr he)))
  intro p hp
  -- every exact assignment gives a feasible point of the box with a total that is no larger
  have hcomplete : ∀ X, IsSolution b masks X →
      ∃ y, Ext p.ub p.free_cols.length 0 (fun _ => 0) y ∧
        Feasible p.piv_exprs p.free_cols.length y ∧
        leafTotal p.piv_exprs p.free_cols.length y
          = (totalPresses masks (zeroEmpty b.length masks X) : Int) := by
    intro X hX
    have hX1 := zeroEmpty_solution hX
    have hX2 := (hs.inv.sol _).mpr ((build_matrix_solves _).mpr hX1)
    obtain ⟨hf, htot⟩ := leaf_of_solution hs hp _ hX2
    exact ⟨_, leaf_in_box hs hp _ (fun j hj => solution_le_ub0 (fun t ht => (hb t ht).1) hX hj),
      hf, htot⟩
  refine (enumerate_sat ld hp).mono ?_ ?_
  · rintro v ⟨-, ⟨y, hy, hf, hyv⟩, hmin⟩
    refine ⟨?_, ?_⟩
    · obtain ⟨X, hX, htot⟩ := solution_of_leaf hs hp y
        (fun oi hoi => (hy.2 oi (Nat.zero_le _) hoi).1) hf
      refine ⟨X, (build_matrix_solves X).mp ((hs.inv.sol _).mp hX), ?_⟩
      unfold totalPresses
      rw [htot, hyv]
    · intro X hX
      obtain ⟨y1, hy1, hf1, htot1⟩ := hcomplete X hX
      have h1 := hmin y1 hy1 hf1
      have h2 := zeroEmpty_total b.length masks X
      rw [htot1] at h1
      exact le_trans h1 (by exact_mod_cast h2)
  · rintro e ⟨he, hall⟩
    refine Or.inr (Or.inr (Or.inl ⟨Or.inr he, hbne, hmne, ?_⟩))
    rintro ⟨X, hX⟩
    obtain ⟨y1, hy1, hf1, htot1⟩ := hcomplete X hX
    have h1 := hall y1 hy1 hf1
    rw [htot1] at h1
    have h2 := total_le_sum hX
    have h3 := (inI32_iff _).mp (hp.sum_ok hbne)
    unfold BEST0 at h1
    omega

end Day10

namespace Day10

/-! ## The claims about the solver -/

theorem no_solution_one : ¬ ∃ x : Nat → Nat, IsSolution [1] [0] x := by
  rintro ⟨x, hx⟩
  have := hx 0 (by decide)
  simp [rowPresses, maskBit] at this

end Day10

namespace Day10

/-! ## The claims about exact rationals -/

theorem Rat.Normal.zero_canonical {r : Rat} (h : r.Normal) (hn : r.n = 0) : r.d = 1 := by
  obtain ⟨h1, h2⟩ := h
  rw [hn, Int.gcd_zero_left] at h2
  omega

theorem Run.bind_out_error {α β : Type} {x : Run α} {f : α → Run β} {e : Err}
    (h : (Run.bind x f).out = Res.error e) :
    x.out = Res.error e ∨ ∃ a, x.out = Res.ok a ∧ (f a).out = Res.error e := by
  unfold Run.bind at h
  cases hx : x.out with
  | error e1 =>
    rw [hx] at h
    simp only [Res.error.injEq] at h
    exact Or.inl (by rw [h])
  | ok a =>
    rw [hx] at h
    exact Or.inr ⟨a, rfl, h⟩

theorem narrow64_out (x : Int) : (narrow64 x).out = Res.ok (wrap64 x) := rfl

theorem igcd_out (a b : Int) : ∃ g, (igcd a b).out = Res.ok g := by
  unfold igcd
  simp only [bind_eq_bind, pure_eq_ret]
  by_cases ha : a < 0 <;> by_cases hb : b < 0 <;>
    simp [ha, hb, Run.bind, narrow64, Run.ret]

theorem Rat.normalize_error {r : Rat} {e : Err} (h : (Rat.normalize r).out = Res.error e) :
    e = Err.zeroDenominator := by
  unfold Rat.normalize at h
  split at h
  · simp only [Run.throw_out, Res.error.injEq] at h
    exact h.symm
  · split at h
    · simp [Run.ret] at h
    · simp only [bind_eq_bind, pure_eq_ret] at h
      rcases Run.bind_out_error h with h1 | ⟨d1, -, h⟩
      · split at h1 <;> simp [narrow64, Run.ret] at h1
      · rcases Run.bind_out_error h with h1 | ⟨n1, -, h⟩
        · split at h1 <;> simp [narrow64, Run.ret] at h1
        · rcases Run.bind_out_error h with h1 | ⟨g, -, h⟩
          · obtain ⟨g, hg⟩ := igcd_out n1 d1
            rw [hg] at h1
            simp at h1
          · simp [Run.ret] at h

theorem Rat.mul_error {a b : Rat} {e : Err} (h : (Rat.mul a b).out = Res.error e) :
    e = Err.zeroDenominator := by
  unfold Rat.mul at h
  split at h
  · simp [Run.ret] at h
  · simp only [bind_eq_bind] at h
    rcases Run.bind_out_error h with h1 | ⟨g1, -, h⟩
    · obtain ⟨g, hg⟩ := igcd_out a.n b.d
      rw [hg] at h1
      simp at h1
    · rcases Run.bind_out_error h with h1 | ⟨g2, -, h⟩
      · obtain ⟨g, hg⟩ := igcd_out b.n a.d
        rw [hg] at h1
        simp at h1
      · rcases Run.bind_out_error h with h1 | ⟨rn, -, h⟩
        · simp [narrow64] at h1
        · rcases Run.bind_out_error h with h1 | ⟨rd, -, h⟩
          · simp [narrow64] at h1
          · exact Rat.normalize_error h

theorem Rat.div_error {a b : Rat} {e : Err} (hb : b.n ≠ 0)
    (h : (Rat.div a b).out = Res.error e) : e = Err.zeroDenominator := by
  unfold Rat.div Rat.mk2 at h
  rw [if_neg hb] at h
  simp only [bind_eq_bind] at h
  rcases Run.bind_out_error h with h1 | ⟨i1, -, h⟩
  · exact Rat.normalize_error h1
  · rcases Run.bind_out_error h with h1 | ⟨i2, -, h⟩
    · exact Rat.normalize_error h1
    · exact Rat.mul_error h

/-- C6 (normal-form invariant of Rat): absent 64-bit overflow, the constructors
`Rat(n)` and `Rat(n, d)` with `d != 0`, and `+`, `-`, `*`, `/` on normalized operands
with `int64_t` fields, return a fraction with denominator `d > 0` and
`gcd(|n|, d) = 1`, in which zero is `(0, 1)`. -/
theorem rat_normal_form (a b : Rat) (n d : Int) (ha : a.Normal) (hb : b.Normal)
    (hb64 : b.In64) (hn : inI64 n = true) (hd : inI64 d = true) (hd0 : d ≠ 0) :
    ((Rat.ofInt n).Normal ∧ ((Rat.ofInt n).n = 0 → (Rat.ofInt n).d = 1)) ∧
    ((Rat.mk2 n d).wrapped = false →
      ∃ r, Rat.mk2 n d = ⟨Res.ok r, false⟩ ∧ r.Normal ∧ (r.n = 0 → r.d = 1)) ∧
    ((Rat.add a b).wrapped = false →
      ∃ r, Rat.add a b = ⟨Res.ok r, false⟩ ∧ r.Normal ∧ (r.n = 0 → r.d = 1)) ∧
    ((Rat.sub a b).wrapped = false →
      ∃ r, Rat.sub a b = ⟨Res.ok r, false⟩ ∧ r.Normal ∧ (r.n = 0 → r.d = 1)) ∧
    ((Rat.mul a b).wrapped = false →
      ∃ r, Rat.mul a b = ⟨Res.ok r, false⟩ ∧ r.Normal ∧ (r.n = 0 → r.d = 1)) ∧
    (b.n ≠ 0 → (Rat.div a b).wrapped = false →
      ∃ r, Rat.div a b = ⟨Res.ok r, false⟩ ∧ r.Normal ∧ (r.n = 0 → r.d = 1)) := by
  have key : ∀ {x : Run Rat} {v : ℚ}, x.Sat (fun q => q.WF ∧ q.toQ = v) (fun _ => False) →
      x.wrapped = false → ∃ r, x = ⟨Res.ok r, false⟩ ∧ r.Normal ∧ (r.n = 0 → r.d = 1) := by
    intro x v hs hw
    obtain ⟨r, hr, hwf, -⟩ := hs.exists_ok hw
    exact ⟨r, hr, hwf.normal, hwf.normal.zero_canonical⟩
  refine ⟨⟨⟨by simp [Rat.ofInt], by simp [Rat.ofInt]⟩, fun _ => rfl⟩, ?_, ?_, ?_, ?_, ?_⟩
  · exact key (Rat.normalize_sat ⟨n, d⟩ hd0 ⟨hn, hd⟩)
  · exact key (Rat.add_sat ha hb)
  · exact key (Rat.sub_sat ha hb hb64)
  · exact key (Rat.mul_sat ha hb)
  · intro hbn
    exact key (Rat.div_sat ha hb64 hbn)

/-- Witness for C6 at `a = 1/2`, `b = -1/3`, `Rat(5)`, `Rat(6, -4)`. -/
theorem rat_normal_form_witness :
    (Rat.mk2 6 (-4) = ⟨Res.ok ⟨-3, 2⟩, false⟩ ∧ Rat.div ⟨1, 2⟩ ⟨-1, 3⟩ = ⟨Res.ok ⟨-3, 2⟩, false⟩) ∧
    (((Rat.ofInt 5).Normal ∧ ((Rat.ofInt 5).n = 0 → (Rat.ofInt 5).d = 1)) ∧
    ((Rat.mk2 5 (-4)).wrapped = false →
      ∃ r, Rat.mk2 5 (-4) = ⟨Res.ok r, false⟩ ∧ r.Normal ∧ (r.n = 0 → r.d = 1)) ∧
    ((Rat.add ⟨1, 2⟩ ⟨-1, 3⟩).wrapped = false →
      ∃ r, Rat.add ⟨1, 2⟩ ⟨-1, 3⟩ = ⟨Res.ok r, false⟩ ∧ r.Normal ∧ (r.n = 0 → r.d = 1)) ∧
    ((Rat.sub ⟨1, 2⟩ ⟨-1, 3⟩).wrapped = false →
      ∃ r, Rat.sub ⟨1, 2⟩ ⟨-1, 3⟩ = ⟨Res.ok r, false⟩ ∧ r.Normal ∧ (r.n = 0 → r.d = 1)) ∧
    ((Rat.mul ⟨1, 2⟩ ⟨-1, 3⟩).wrapped = false →
      ∃ r, Rat.mul ⟨1, 2⟩ ⟨-1, 3⟩ = ⟨Res.ok r, false⟩ ∧ r.Normal ∧ (r.n = 0 → r.d = 1)) ∧
    ((-1 : Int) ≠ 0 → (Rat.div ⟨1, 2⟩ ⟨-1, 3⟩).wrapped = false →
      ∃ r, Rat.div ⟨1, 2⟩ ⟨-1, 3⟩ = ⟨Res.ok r, false⟩ ∧ r.Normal ∧ (r.n = 0 → r.d = 1))) :=
  ⟨⟨by decide, by decide⟩,
    rat_normal_form ⟨1, 2⟩ ⟨-1, 3⟩ 5 (-4) ⟨by decide, by decide⟩ ⟨by decide, by decide⟩
      ⟨by decide, by decide⟩ (by decide) (by decide) (by decide)⟩

/-- C7 (round trips of Rat arithmetic): for normalized `a`, `b` with `int64_t` fields,
when no 64-bit overflow occurs in the intermediate results, `(a + b) - b == a` and,
for `b` not zero, `(a * b) / b == a` under the field-wise `operator==`. -/
theorem rat_round_trips (a b : Rat) (ha : a.Normal) (hb : b.Normal) (hb64 : b.In64) :
    ((Run.bind (Rat.add a b) (fun s => Rat.sub s b)).wrapped = false →
      ∃ r, Run.bind (Rat.add a b) (fun s => Rat.sub s b) = ⟨Res.ok r, false⟩ ∧
        Rat.eq r a = true) ∧
    (b.n ≠ 0 → (Run.bind (Rat.mul a b) (fun p => Rat.div p b)).wrapped = false →
      ∃ r, Run.bind (Rat.mul a b) (fun p => Rat.div p b) = ⟨Res.ok r, false⟩ ∧
        Rat.eq r a = true) := by
  have heq : ∀ r : Rat, r.WF ∧ r.toQ = a.toQ → Rat.eq r a = true := by
    rintro r ⟨hr, hv⟩
    have := Rat.eq_of_toQ_eq hr.normal ha hv
    rw [this]
    simp [Rat.eq]
  refine ⟨fun hw => ?_, fun hbn hw => ?_⟩
  · have hs : (Run.bind (Rat.add a b) (fun s => Rat.sub s b)).Sat
        (fun r => r.WF ∧ r.toQ = a.toQ) (fun _ => False) := by
      refine Run.sat_bind (Rat.add_sat ha hb) ?_
      rintro s ⟨hs, hsv⟩
      refine (Rat.sub_sat hs.normal hb hb64).mono ?_ (fun _ h => h)
      rintro r ⟨hr, hrv⟩
      exact ⟨hr, by rw [hrv, hsv]; ring⟩
    obtain ⟨r, hr, hwf⟩ := hs.exists_ok hw
    exact ⟨r, hr, heq r hwf⟩
  · have hbq : b.toQ ≠ 0 := by
      rw [Ne, Rat.toQ_eq_zero hb.1]; exact hbn
    have hs : (Run.bind (Rat.mul a b) (fun p => Rat.div p b)).Sat
        (fun r => r.WF ∧ r.toQ = a.toQ) (fun _ => False) := by
      refine Run.sat_bind (Rat.mul_sat ha hb) ?_
      rintro s ⟨hs, hsv⟩
      refine (Rat.div_sat hs.normal hb64 hbn).mono ?_ (fun _ h => h)
      rintro r ⟨hr, hrv⟩
      exact ⟨hr, by rw [hrv, hsv]; field_simp⟩
    obtain ⟨r, hr, hwf⟩ := hs.exists_ok hw
    exact ⟨r, hr, heq r hwf⟩

/-- Witness for C7 at `a = 3/4`, `b = -5/6`. -/
theorem rat_round_trips_witness :
    (Run.bind (Rat.add ⟨3, 4⟩ ⟨-5, 6⟩) (fun s => Rat.sub s ⟨-5, 6⟩) = ⟨Res.ok ⟨3, 4⟩, false⟩ ∧
      Run.bind (Rat.mul ⟨3, 4⟩ ⟨-5, 6⟩) (fun p => Rat.div p ⟨-5, 6⟩) = ⟨Res.ok ⟨3, 4⟩, false⟩) ∧
    (((Run.bind (Rat.add ⟨3, 4⟩ ⟨-5, 6⟩) (fun s => Rat.sub s ⟨-5, 6⟩)).wrapped = false →
      ∃ r, Run.bind (Rat.add ⟨3, 4⟩ ⟨-5, 6⟩) (fun s => Rat.sub s ⟨-5, 6⟩) = ⟨Res.ok r, false⟩ ∧
        Rat.eq r ⟨3, 4⟩ = true) ∧
    ((-5 : Int) ≠ 0 →
      (Run.bind (Rat.mul ⟨3, 4⟩ ⟨-5, 6⟩) (fun p => Rat.div p ⟨-5, 6⟩)).wrapped = false →
      ∃ r, Run.bind (Rat.mul ⟨3, 4⟩ ⟨-5, 6⟩) (fun p => Rat.div p ⟨-5, 6⟩) = ⟨Res.ok r, false⟩ ∧
        Rat.eq r ⟨3, 4⟩ = true)) :=
  ⟨⟨by decide, by decide⟩,
    rat_round_trips ⟨3, 4⟩ ⟨-5, 6⟩ ⟨by decide, by decide⟩ ⟨by decide, by decide⟩
      ⟨by decide, by decide⟩⟩

/-- C8 (the code at the failing inputs): on normalized operands with `int64_t` fields
`operator+`, `operator-` and `operator*` return, without any error, a fraction whose
value is not the exact result once the 128-bit numerator leaves the 64-bit range. -/
theorem rat_arith_wraps :
    (Rat.Normal ⟨4611686018427387905, 1⟩ ∧ Rat.In64 ⟨4611686018427387905, 1⟩ ∧
      Rat.Normal ⟨4611686018427387904, 1⟩ ∧ Rat.In64 ⟨4611686018427387904, 1⟩ ∧
      (Rat.add ⟨4611686018427387905, 1⟩ ⟨4611686018427387904, 1⟩).out
        = Res.ok ⟨-9223372036854775807, 1⟩ ∧
      (Rat.mk (-9223372036854775807) 1).toQ
        ≠ (Rat.mk 4611686018427387905 1).toQ + (Rat.mk 4611686018427387904 1).toQ) ∧
    (Rat.Normal ⟨-4611686018427387905, 1⟩ ∧ Rat.In64 ⟨-4611686018427387905, 1⟩ ∧
      (Rat.sub ⟨-4611686018427387905, 1⟩ ⟨4611686018427387904, 1⟩).out
        = Res.ok ⟨9223372036854775807, 1⟩ ∧
      (Rat.mk 9223372036854775807 1).toQ
        ≠ (Rat.mk (-4611686018427387905) 1).toQ - (Rat.mk 4611686018427387904 1).toQ) ∧
    (Rat.Normal ⟨4294967296, 1⟩ ∧ Rat.In64 ⟨4294967296, 1⟩ ∧
      (Rat.mul ⟨4294967296, 1⟩ ⟨4294967296, 1⟩).out = Res.ok ⟨0, 1⟩ ∧
      (Rat.mk 0 1).toQ ≠ (Rat.mk 4294967296 1).toQ * (Rat.mk 4294967296 1).toQ) := by
  refine ⟨⟨⟨by decide, by decide⟩, ⟨by decide, by decide⟩, ⟨by decide, by decide⟩,
    ⟨by decide, by decide⟩, by decide, ?_⟩, ⟨⟨by decide, by decide⟩, ⟨by decide, by decide⟩,
    by decide, ?_⟩, ⟨⟨by decide, by decide⟩, ⟨by decide, by decide⟩, by decide, ?_⟩⟩
  · norm_num [Rat.toQ]
  · norm_num [Rat.toQ]
  · norm_num [Rat.toQ]

/-- C9 (division by zero): for normalized `a`, `b` with `int64_t` fields, `a / b` throws
"division by zero" if and only if `b.n == 0`; when `b` is not zero (negative or
positive) and no 64-bit overflow occurs, it returns the normalized fraction whose
value is the exact quotient. -/
theorem rat_div_by_zero (a b : Rat) (ha : a.Normal) (hb : b.Normal) (hb64 : b.In64) :
    ((Rat.div a b).out = Res.error Err.divisionByZero ↔ b.n = 0) ∧
    (b.n ≠ 0 → (Rat.div a b).wrapped = false →
      ∃ r, Rat.div a b = ⟨Res.ok r, false⟩ ∧ r.Normal ∧ r.toQ = a.toQ / b.toQ) := by
  refine ⟨⟨fun h => ?_, fun h => ?_⟩, fun hbn hw => ?_⟩
  · by_contra hbn
    have := Rat.div_error hbn h
    exact absurd this (by decide)
  · unfold Rat.div
    rw [if_pos h]
    rfl
  · have hbd := hb.1
    obtain ⟨r, hr, hwf, hv⟩ := (Rat.div_sat ha hb64 hbn).exists_ok hw
    exact ⟨r, hr, hwf.normal, hv⟩

/-- Witness for C9 at `a = 1/2`, `b = -1/3` (negative divisor) and at `b = 0`. -/
theorem rat_div_by_zero_witness :
    (Rat.div ⟨1, 2⟩ ⟨-1, 3⟩ = ⟨Res.ok ⟨-3, 2⟩, false⟩ ∧
      (Rat.div ⟨1, 2⟩ ⟨0, 1⟩).out = Res.error Err.divisionByZero) ∧
    (((Rat.div ⟨1, 2⟩ ⟨-1, 3⟩).out = Res.error Err.divisionByZero ↔ (-1 : Int) = 0) ∧
    ((-1 : Int) ≠ 0 → (Rat.div ⟨1, 2⟩ ⟨-1, 3⟩).wrapped = false →
      ∃ r, Rat.div ⟨1, 2⟩ ⟨-1, 3⟩ = ⟨Res.ok r, false⟩ ∧ r.Normal ∧
        r.toQ = (Rat.mk 1 2).toQ / (Rat.mk (-1) 3).toQ)) :=
  ⟨⟨by decide, by decide⟩,
    rat_div_by_zero ⟨1, 2⟩ ⟨-1, 3⟩ ⟨by decide, by decide⟩ ⟨by decide, by decide⟩
      ⟨by decide, by decide⟩⟩

end Day10

namespace Day10

/-! ## Idempotence of the elimination -/

end Day10

namespace Day10

/-! ## Raising one target -/

/-- A family of natural numbers can be lowered pointwise to any smaller total. -/
theorem lower_sum : ∀ (k : Nat) (f : Nat → Nat) (n : Nat),
    n ≤ ∑ j in Finset.range k, f j →
    ∃ g : Nat → Nat, (∀ j, g j ≤ f j) ∧ ∑ j in Finset.range k, g j = n := by
  intro k
  induction k with
  | zero =>
    intro f n hn
    simp only [Finset.range_zero, Finset.sum_empty, Nat.le_zero_eq] at hn
    exact ⟨fun _ => 0, fun _ => Nat.zero_le _, by simp [hn]⟩
  | succ k ih =>
    intro f n hn
    rw [Finset.sum_range_succ] at hn
    by_cases hle : n ≤ ∑ j in Finset.range k, f j
    · obtain ⟨g, hg1, hg2⟩ := ih f n hle
      refine ⟨fun j => if j < k then g j else 0, fun j => ?_, ?_⟩
      · by_cases hj : j < k
        · simp only [hj, if_true]; exact hg1 j
        · simp only [hj, if_false]; exact Nat.zero_le _
      · rw [Finset.sum_range_succ]
        simp only [Nat.lt_irrefl, if_false, add_zero]
        rw [← hg2]
        refine Finset.sum_congr rfl (fun j hj => ?_)
        rw [if_pos (Finset.mem_range.mp hj)]
    · refine ⟨fun j => if j < k then f j else if j = k then n - ∑ j in Finset.range k, f j else 0,
        fun j => ?_, ?_⟩
      · by_cases hj : j < k
        · simp only [hj, if_true]; exact le_refl _
        · simp only [hj, if_false]
          by_cases hjk : j = k
          · simp only [hjk, if_true]; omega
          · simp only [hjk, if_false]; exact Nat.zero_le _
      · rw [Finset.sum_range_succ]
        simp only [Nat.lt_irrefl, if_false, if_true]
        have : ∑ j in Finset.range k, (if j < k then f j else if j = k then
            n - ∑ j in Finset.range k, f j else 0) = ∑ j in Finset.range k, f j :=
          Finset.sum_congr rfl (fun j hj => by rw [if_pos (Finset.mem_range.mp hj)])
        rw [this]
        omega

/-- C4 as amended (monotonicity when the raised counter has its own buttons): if
the raised counter `i` is touched only by masks that touch no other counter, and the
solver returns without overflow on `(t, masks)` and on `(t', masks)`, where `t'` is
`t` with position `i` raised, then `solve(t', masks) ≥ solve(t, masks)`. -/
theorem solve_monotone_singleton (ld : LongDouble) (b b1 : List Int) (masks : List Nat)
    (i : Nat) (v v1 : Int)
    (hb : ∀ t, t ∈ b → 0 ≤ t ∧ t ≤ 2147483647) (hb1 : ∀ t, t ∈ b1 → 0 ≤ t ∧ t ≤ 2147483647)
    (hlen : b.length = b1.length) (hi : i < b.length)
    (hsame : ∀ r, r < b.length → r ≠ i → b.getD r 0 = b1.getD r 0)
    (hlt : b.getD i 0 < b1.getD i 0)
    (honly : ∀ j, j < masks.length → maskBit (masks.getD j 0) i = true →
      ∀ r, r < b.length → r ≠ i → maskBit (masks.getD j 0) r = false)
    (h : minimal_presses_for_machine ld b masks = ⟨Res.ok v, false⟩)
    (h1 : minimal_presses_for_machine ld b1 masks = ⟨Res.ok v1, false⟩) : v ≤ v1 := by
  obtain ⟨⟨X1, hX1, htot1⟩, -⟩ := (solve_sat ld b1 masks hb1).of_ok h1
  have hmin := ((solve_sat ld b masks hb).of_ok h).2
  have hbi : 0 ≤ b.getD i 0 := by
    refine (hb _ ?_).1
    rw [List.getD_eq_getElem _ _ hi]
    exact List.getElem_mem _
  have hrow1 := hX1 i (by omega)
  have hn : (b.getD i 0).toNat ≤ ∑ j in Finset.range masks.length,
      (if maskBit (masks.getD j 0) i then X1 j else 0) := by
    have : ((rowPresses masks X1 i : Nat) : Int) = b1.getD i 0 := hrow1
    unfold rowPresses at this
    omega
  obtain ⟨g, hg1, hg2⟩ := lower_sum masks.length _ _ hn
  have hg0 : ∀ j, maskBit (masks.getD j 0) i = false → g j = 0 := by
    intro j hj
    have := hg1 j
    simp only [hj, Bool.false_eq_true, if_false, Nat.le_zero_eq] at this
    exact this
  have hgle : ∀ j, maskBit (masks.getD j 0) i = true → g j ≤ X1 j := by
    intro j hj
    have := hg1 j
    simp only [hj, if_true] at this
    exact this
  have hsol : IsSolution b masks (fun j => if maskBit (masks.getD j 0) i then g j else X1 j) := by
    intro r hr
    by_cases hri : r = i
    · subst hri
      have : rowPresses masks (fun j => if maskBit (masks.getD j 0) r then g j else X1 j) r
          = ∑ j in Finset.range masks.length, g j := by
        unfold rowPresses
        refine Finset.sum_congr rfl (fun j _ => ?_)
        by_cases hbit : maskBit (masks.getD j 0) r = true
        · simp only [hbit, if_true]
        · simp only [Bool.not_eq_true] at hbit
          simp only [hbit, Bool.false_eq_true, if_false]
          exact (hg0 j hbit).symm
      rw [this, hg2]
      exact Int.toNat_of_nonneg hbi
    · have : rowPresses masks (fun j => if maskBit (masks.getD j 0) i then g j else X1 j) r
          = rowPresses masks X1 r := by
        unfold rowPresses
        refine Finset.sum_congr rfl (fun j hj => ?_)
        by_cases hbit : maskBit (masks.getD j 0) r = true
        · simp only [hbit, if_true]
          by_cases hbi2 : maskBit (masks.getD j 0) i = true
          · have := honly j (Finset.mem_range.mp hj) hbi2 r hr hri
            rw [this] at hbit
            exact absurd hbit (by decide)
          · rw [if_neg hbi2]
        · rw [if_neg hbit, if_neg hbit]
      rw [this, hX1 r (by omega), hsame r hr hri]
  have h2 := hmin _ hsol
  have h3 : totalPresses masks (fun j => if maskBit (masks.getD j 0) i then g j else X1 j)
      ≤ totalPresses masks X1 := by
    refine Finset.sum_le_sum (fun j _ => ?_)
    by_cases hbit : maskBit (masks.getD j 0) i = true
    · simp only [hbit, if_true]; exact hgle j hbit
    · rw [if_neg hbit]
  rw [← htot1]
  exact le_trans h2 (by exact_mod_cast h3)

/-- Witness for the amended C4: targets `{1, 1}` and `{2, 1}` with masks `[{0}, {1}]`. -/
theorem solve_monotone_singleton_witness :
    minimal_presses_for_machine exactLD [1, 1] [1, 2] = ⟨Res.ok 2, false⟩ ∧
    minimal_presses_for_machine exactLD [2, 1] [1, 2] = ⟨Res.ok 3, false⟩ ∧
    (2 : Int) ≤ 3 :=
  ⟨by decide!, by decide!,
    solve_monotone_singleton exactLD [1, 1] [2, 1] [1, 2] 0 2 3 (by decide) (by decide)
      (by decide) (by decide) (by decide) (by decide) (by decide) (by decide!) (by decide!)⟩

/-- C4 as stated fails: with masks `[{0}, {1}, {0,1,2}]` the targets `{2, 2, 0}` need
4 presses, and raising the third target to 1 lowers the minimum to 3. -/
theorem solve_monotone_counterexample :
    minimal_presses_for_machine exactLD [2, 2, 0] [1, 2, 7] = ⟨Res.ok 4, false⟩ ∧
    minimal_presses_for_machine exactLD [2, 2, 1] [1, 2, 7] = ⟨Res.ok 3, false⟩ ∧
    ¬ ((4 : Int) ≤ 3) :=
  ⟨by decide!, by decide!, by decide⟩

end Day10

namespace Day10

/-! ## The number of free columns and the rank -/

theorem rowDot_extFin {k : Nat} (A : Nat → Nat → Rat) (z : Fin k → ℚ) (i : Nat) :
    rowDot k A (extFin z) i = ∑ j : Fin k, (A i j).toQ * z j := by
  unfold rowDot
  rw [Finset.sum_range]
  refine Finset.sum_congr rfl (fun j _ => ?_)
  simp [extFin]

theorem rowDot_congr {k : Nat} (A : Nat → Nat → Rat) {x y : Nat → ℚ} (i : Nat)
    (h : ∀ j, j < k → x j = y j) : rowDot k A x i = rowDot k A y i := by
  unfold rowDot
  refine Finset.sum_congr rfl (fun j hj => ?_)
  rw [h j (Finset.mem_range.mp hj)]

theorem rowDot_add {k : Nat} (A : Nat → Nat → Rat) (x y : Nat → ℚ) (i : Nat) :
    rowDot k A (fun j => x j + y j) i = rowDot k A x i + rowDot k A y i := by
  unfold rowDot
  rw [← Finset.sum_add_distrib]
  refine Finset.sum_congr rfl (fun j _ => ?_)
  ring

theorem mem_ker_maskMatrix {b : List Int} {masks : List Nat} (z : Fin masks.length → ℚ) :
    z ∈ LinearMap.ker (maskMatrix b.length masks).mulVecLin ↔
      ∀ i, i < b.length → rowDot masks.length (build_matrix b masks).A (extFin z) i = 0 := by
  rw [LinearMap.mem_ker, Matrix.mulVecLin_apply]
  have key : ∀ i : Fin b.length, (maskMatrix b.length masks).mulVec z i
      = rowDot masks.length (build_matrix b masks).A (extFin z) i := by
    intro i
    rw [rowDot_extFin]
    unfold Matrix.mulVec Matrix.dotProduct maskMatrix build_matrix
    refine Finset.sum_congr rfl (fun j _ => ?_)
    simp only [Rat.toQ_ofInt]
    split <;> simp
  constructor
  · intro h i hi
    have := congrFun h ⟨i, hi⟩
    rw [key] at this
    exact this
  · intro h
    funext i
    rw [key]
    exact h i i.2

/-- The columns of the reduced system split into pivot columns and the list `free_cols`. -/
theorem colFacts_free {m k : Nat} {A0 : Nat → Nat → Rat} {rhs0 : Nat → Rat} {s : Elim}
    (hs : Reduced m k A0 rhs0 s) :
    ColFacts k s.row (freeCols m k s.pivot_col).length s.pcol
      (fun oi => (freeCols m k s.pivot_col).getD oi 0) := by
  have hech := hs.inv.ech
  have hnd := nodup_freeCols m k s.pivot_col
  refine ⟨fun r hr => (hech.pcol_eq hr).2, ?_,
    fun oi hoi => (mem_freeCols.mp (freeCols_getD_mem hoi)).1, ?_, ?_, ?_⟩
  · intro r r1 hr hr1 heq
    by_contra hne
    have e1 := (hech.pcol_eq hr).1
    have e2 := (hech.pcol_eq hr1).1
    rcases Nat.lt_or_gt_of_ne hne with hlt | hlt
    · have := hech.pivot_mono r r1 hlt hr1
      rw [e1, e2, heq] at this
      omega
    · have := hech.pivot_mono r1 r hlt hr
      rw [e1, e2, heq] at this
      omega
  · intro oi oi1 hoi hoi1 heq
    simp only at heq
    rw [List.getD_eq_getElem _ _ hoi, List.getD_eq_getElem _ _ hoi1] at heq
    exact (hnd.getElem_inj_iff).mp heq
  · intro r oi hr hoi heq
    have := (mem_freeCols.mp (freeCols_getD_mem hoi)).2 r (by have := hech.row_le; omega)
    rw [(hech.pcol_eq hr).1, heq] at this
    exact this rfl
  · intro j hj
    by_cases hpiv : ∃ r, r < m ∧ s.pivot_col r = (j : Int)
    · obtain ⟨r, hr, hrj⟩ := hpiv
      left
      have hrow : r < s.row := by
        by_contra hge
        have := hech.pivot_none r (by omega)
        rw [this] at hrj
        omega
      refine ⟨r, hrow, ?_⟩
      have := (hech.pcol_eq hrow).1
      rw [hrj] at this
      exact_mod_cast this.symm
    · right
      push_neg at hpiv
      have hjF : j ∈ freeCols m k s.pivot_col := mem_freeCols.mpr ⟨hj, hpiv⟩
      obtain ⟨fi, hfi, hfij⟩ := List.getElem_of_mem hjF
      exact ⟨fi, hfi, by rw [List.getD_eq_getElem _ _ hfi, hfij]⟩

/-- The homogeneous reduced system: each pivot coordinate is determined by the free ones. -/
theorem homog_reduced_iff {m k : Nat} {A0 : Nat → Nat → Rat} {rhs0 : Nat → Rat} {s : Elim}
    {d : Nat} {fc : Nat → Nat} (hs : Reduced m k A0 rhs0 s)
    (hc : ColFacts k s.row d s.pcol fc) (z : Nat → ℚ) :
    (∀ i, i < m → rowDot k s.A z i = 0) ↔
      ∀ r, r < s.row →
        z (s.pcol r) = -∑ oi in Finset.range d, (s.A r (fc oi)).toQ * z (fc oi) := by
  have hech := hs.inv.ech
  constructor
  · intro h r hr
    have := h r (by have := hech.row_le; omega)
    rw [rowDot_pivot hs hc hr] at this
    linarith
  · intro h i hi
    by_cases hir : i < s.row
    · rw [rowDot_pivot hs hc hir, h i hir]
      ring
    · unfold rowDot
      refine Finset.sum_eq_zero (fun j hj => ?_)
      rw [hs.zero_rows i j (by omega) hi (Finset.mem_range.mp hj), zero_mul]

/-- A reduced system has a rational solution. -/
theorem reduced_consistent {m k : Nat} {A0 : Nat → Nat → Rat} {rhs0 : Nat → Rat} {s : Elim}
    (hs : Reduced m k A0 rhs0 s) : ∃ x, Solves m k s.A s.rhs x := by
  classical
  have hc := colFacts_free hs
  refine ⟨fun j => if h : ∃ r, r < s.row ∧ s.pcol r = j then (s.rhs (Classical.choose h)).toQ
    else 0, ?_⟩
  rw [solves_reduced_iff hs hc]
  intro r hr
  have h : ∃ r1, r1 < s.row ∧ s.pcol r1 = s.pcol r := ⟨r, hr, rfl⟩
  have hch := Classical.choose_spec h
  have hcr : Classical.choose h = r := hc.pc_inj _ _ hch.1 hr hch.2
  have hsum : ∑ oi in Finset.range (freeCols m k s.pivot_col).length,
      (s.A r ((freeCols m k s.pivot_col).getD oi 0)).toQ *
        (if h : ∃ r, r < s.row ∧ s.pcol r = (freeCols m k s.pivot_col).getD oi 0
          then (s.rhs (Classical.choose h)).toQ else 0) = 0 := by
    refine Finset.sum_eq_zero (fun oi hoi => ?_)
    have hno : ¬ ∃ r, r < s.row ∧ s.pcol r = (freeCols m k s.pivot_col).getD oi 0 := by
      rintro ⟨r1, hr1, e⟩
      exact hc.disj r1 oi hr1 (Finset.mem_range.mp hoi) e
    rw [dif_neg hno, mul_zero]
  simp only [dif_pos h, hcr]
  rw [hsum, sub_zero]

/-- The reduced matrix has the same kernel as the original one. -/
theorem homog_iff {m k : Nat} {A0 : Nat → Nat → Rat} {rhs0 : Nat → Rat} {s : Elim}
    (hs : Reduced m k A0 rhs0 s) (z : Nat → ℚ) :
    (∀ i, i < m → rowDot k s.A z i = 0) ↔ (∀ i, i < m → rowDot k A0 z i = 0) := by
  obtain ⟨x0, hx0⟩ := reduced_consistent hs
  have hx1 : Solves m k A0 rhs0 x0 := (hs.inv.sol x0).mp hx0
  have e1 : (∀ i, i < m → rowDot k s.A z i = 0) ↔ Solves m k s.A s.rhs (fun j => x0 j + z j) := by
    unfold Solves
    refine forall_congr' (fun i => forall_congr' (fun hi => ?_))
    rw [rowDot_add, hx0 i hi]
    constructor
    · intro h; rw [h, add_zero]
    · intro h; linarith
  have e2 : (∀ i, i < m → rowDot k A0 z i = 0) ↔ Solves m k A0 rhs0 (fun j => x0 j + z j) := by
    unfold Solves
    refine forall_congr' (fun i => forall_congr' (fun hi => ?_))
    rw [rowDot_add, hx1 i hi]
    constructor
    · intro h; rw [h, add_zero]
    · intro h; linarith
  rw [e1, e2]
  exact hs.inv.sol _

end Day10

namespace Day10

theorem extFin_apply {k : Nat} (z : Fin k → ℚ) {j : Nat} (hj : j < k) :
    extFin z j = z ⟨j, hj⟩ := by
  simp [extFin, hj]

/-- The kernel of the coefficient matrix has as many dimensions as the reduced system
has free columns. -/
theorem finrank_ker_eq {b : List Int} {masks : List Nat} {s : Elim}
    (hs : Reduced b.length masks.length (build_matrix b masks).A (build_matrix b masks).rhs s) :
    Module.finrank ℚ (LinearMap.ker (maskMatrix b.length masks).mulVecLin)
      = (freeCols b.length masks.length s.pivot_col).length := by
  classical
  have hc := colFacts_free hs
  -- the kernel in terms of the reduced system
  have hker : ∀ z : Fin masks.length → ℚ,
      z ∈ LinearMap.ker (maskMatrix b.length masks).mulVecLin ↔
        ∀ r, r < s.row → extFin z (s.pcol r)
          = -∑ oi in Finset.range (freeCols b.length masks.length s.pivot_col).length,
              (s.A r ((freeCols b.length masks.length s.pivot_col).getD oi 0)).toQ *
                extFin z ((freeCols b.length masks.length s.pivot_col).getD oi 0) := by
    intro z
    rw [mem_ker_maskMatrix, ← homog_iff hs, homog_reduced_iff hs hc]
  let fcF : Fin (freeCols b.length masks.length s.pivot_col).length → Fin masks.length :=
    fun oi => ⟨(freeCols b.length masks.length s.pivot_col).getD oi 0, hc.fc_lt oi oi.2⟩
  let φ : LinearMap.ker (maskMatrix b.length masks).mulVecLin →ₗ[ℚ]
      (Fin (freeCols b.length masks.length s.pivot_col).length → ℚ) :=
    (LinearMap.funLeft ℚ ℚ fcF).comp
      (LinearMap.ker (maskMatrix b.length masks).mulVecLin).subtype
  have hφ : ∀ z oi, φ z oi = z.1 (fcF oi) := fun z oi => rfl
  have hinj : Function.Injective φ := by
    rw [injective_iff_map_eq_zero]
    intro z hz
    have hfree : ∀ oi, oi < (freeCols b.length masks.length s.pivot_col).length →
        extFin z.1 ((freeCols b.length masks.length s.pivot_col).getD oi 0) = 0 := by
      intro oi hoi
      rw [extFin_apply z.1 (hc.fc_lt oi hoi)]
      have := congrFun hz ⟨oi, hoi⟩
      rw [hφ] at this
      exact this
    have hpiv := (hker z.1).mp z.2
    apply Subtype.ext
    funext j
    show z.1 j = 0
    have hj := j.2
    rcases hc.cover j.1 hj with ⟨r, hr, e⟩ | ⟨oi, hoi, e⟩
    · have h1 := hpiv r hr
      rw [Finset.sum_eq_zero (fun oi hoi => by
        rw [hfree oi (Finset.mem_range.mp hoi), mul_zero]), neg_zero, e,
        extFin_apply z.1 hj] at h1
      exact h1
    · have h1 := hfree oi hoi
      rw [e, extFin_apply z.1 hj] at h1
      exact h1
  have hsurj : Function.Surjective φ := by
    intro w
    let wN : Nat → ℚ := fun oi =>
      if h : oi < (freeCols b.length masks.length s.pivot_col).length then w ⟨oi, h⟩ else 0
    let zN : Nat → ℚ := fun j =>
      if h : ∃ oi, oi < (freeCols b.length masks.length s.pivot_col).length ∧
          (freeCols b.length masks.length s.pivot_col).getD oi 0 = j then wN (Classical.choose h)
      else if h : ∃ r, r < s.row ∧ s.pcol r = j then
        -∑ oi in Finset.range (freeCols b.length masks.length s.pivot_col).length,
          (s.A (Classical.choose h)
            ((freeCols b.length masks.length s.pivot_col).getD oi 0)).toQ * wN oi
      else 0
    have hzf : ∀ oi, oi < (freeCols b.length masks.length s.pivot_col).length →
        zN ((freeCols b.length masks.length s.pivot_col).getD oi 0) = wN oi := by
      intro oi hoi
      have h : ∃ oi1, oi1 < (freeCols b.length masks.length s.pivot_col).length ∧
          (freeCols b.length masks.length s.pivot_col).getD oi1 0
            = (freeCols b.length masks.length s.pivot_col).getD oi 0 := ⟨oi, hoi, rfl⟩
      have hch := Classical.choose_spec h
      have : Classical.choose h = oi := hc.fc_inj _ _ hch.1 hoi hch.2
      simp only [zN, dif_pos h, this]
    have hzp : ∀ r, r < s.row → zN (s.pcol r)
        = -∑ oi in Finset.range (freeCols b.length masks.length s.pivot_col).length,
          (s.A r ((freeCols b.length masks.length s.pivot_col).getD oi 0)).toQ * wN oi := by
      intro r hr
      have hno : ¬ ∃ oi, oi < (freeCols b.length masks.length s.pivot_col).length ∧
          (freeCols b.length masks.length s.pivot_col).getD oi 0 = s.pcol r := by
        rintro ⟨oi, hoi, e⟩
        exact hc.disj r oi hr hoi e.symm
      have h : ∃ r1, r1 < s.row ∧ s.pcol r1 = s.pcol r := ⟨r, hr, rfl⟩
      have hch := Classical.choose_spec h
      have : Classical.choose h = r := hc.pc_inj _ _ hch.1 hr hch.2
      simp only [zN, dif_neg hno, dif_pos h, this]
    have hext : ∀ j, j < masks.length →
        extFin (fun j : Fin masks.length => zN j.1) j = zN j := by
      intro j hj
      rw [extFin_apply _ hj]
    have hmem : (fun j : Fin masks.length => zN j.1)
        ∈ LinearMap.ker (maskMatrix b.length masks).mulVecLin := by
      rw [hker]
      intro r hr
      rw [hext _ (hc.pc_lt r hr), hzp r hr]
      congr 1
      refine Finset.sum_congr rfl (fun oi hoi => ?_)
      have hoi' := Finset.mem_range.mp hoi
      rw [hext _ (hc.fc_lt oi hoi'), hzf oi hoi']
    refine ⟨⟨_, hmem⟩, ?_⟩
    funext oi
    rw [hφ]
    show zN ((freeCols b.length masks.length s.pivot_col).getD oi.1 0) = w oi
    rw [hzf oi.1 oi.2]
    simp only [wN, dif_pos oi.2]
  rw [(LinearEquiv.ofBijective φ ⟨hinj, hsurj⟩).finrank_eq, Module.finrank_fin_fun]

/-- Rank–nullity for the coefficient matrix: free columns plus rank is the number of masks. -/
theorem freeCols_add_rank {b : List Int} {masks : List Nat} {s : Elim}
    (hs : Reduced b.length masks.length (build_matrix b masks).A (build_matrix b masks).rhs s) :
    (freeCols b.length masks.length s.pivot_col).length + (maskMatrix b.length masks).rank
      = masks.length := by
  have h := LinearMap.finrank_range_add_finrank_ker (maskMatrix b.length masks).mulVecLin
  rw [finrank_ker_eq hs, Module.finrank_fin_fun] at h
  unfold Matrix.rank
  omega

end Day10

namespace Day10

/-! ## Reordering the masks -/

end Day10

namespace Day10

/-! ## Independence of the order of the masks -/

theorem reduced_of_consistent {m k : Nat} {A0 : Nat → Nat → Rat} {rhs0 : Nat → Rat} {s : Elim}
    (h : GaussInv m k ⟨A0, rhs0, fun _ => -1, 0⟩ k s) (hc : ∃ x, Solves m k A0 rhs0 x) :
    Reduced m k A0 rhs0 s := by
  have hzero : ∀ r c, s.row ≤ r → r < m → c < k → (s.A r c).toQ = 0 :=
    fun r c h1 h2 h3 => h.ech.below_zero r c h1 h2 h3 h3
  refine ⟨h, hzero, ?_⟩
  intro r h1 h2
  obtain ⟨x, hx⟩ := hc
  have := (h.sol x).mpr hx r h2
  rw [← this]
  unfold rowDot
  refine Finset.sum_eq_zero (fun j hj => ?_)
  rw [hzero r j h1 h2 (Finset.mem_range.mp hj), zero_mul]

end Day10

namespace Day10

/-! ## The helpers `igcd` and `ilcm` -/

theorem igcd_eq {a b : Int} (ha1 : -INT64_MAX ≤ a) (ha2 : a ≤ INT64_MAX)
    (hb1 : -INT64_MAX ≤ b) (hb2 : b ≤ INT64_MAX) :
    igcd a b = ⟨Res.ok ((Nat.gcd a.natAbs b.natAbs : Nat) : Int), false⟩ := by
  unfold INT64_MAX at ha1 ha2 hb1 hb2
  have e1 : (if a < 0 then narrow64 (-a) else Run.ret a) = Run.ret |a| := by
    split
    · rw [narrow64_ok (by rw [inI64_iff]; omega), abs_of_neg (by assumption)]
      rfl
    · rw [abs_of_nonneg (by omega)]
  have e2 : (if b < 0 then narrow64 (-b) else Run.ret b) = Run.ret |b| := by
    split
    · rw [narrow64_ok (by rw [inI64_iff]; omega), abs_of_neg (by assumption)]
      rfl
    · rw [abs_of_nonneg (by omega)]
  unfold igcd
  simp only [bind_eq_bind, pure_eq_ret]
  rw [e1, Run.ret_bind, e2, Run.ret_bind, igcdLoop_eq (abs_nonneg a) (abs_nonneg b)]
  simp [Run.ret, Int.gcd, Int.natAbs_abs]

theorem tdiv_gcd_mul_eq_lcm {a b : Int} (ha : 0 < a) (hb : 0 < b) :
    Int.tdiv a ((Nat.gcd a.natAbs b.natAbs : Nat) : Int) * b = ((Int.lcm a b : Nat) : Int) := by
  obtain ⟨A, rfl⟩ := Int.eq_ofNat_of_zero_le ha.le
  obtain ⟨B, rfl⟩ := Int.eq_ofNat_of_zero_le hb.le
  simp only [Int.natAbs_ofNat, Int.lcm]
  rw [← Int.ofNat_tdiv]
  have hg : Nat.gcd A B ∣ A := Nat.gcd_dvd_left A B
  have : A / Nat.gcd A B * B = Nat.lcm A B := by
    rw [Nat.lcm, Nat.mul_comm A B, Nat.mul_div_assoc B hg, Nat.mul_comm]
  rw [← this]
  push_cast
  rfl

/-- C20 (gcd and lcm helpers): for 64-bit `a`, `b` other than `INT64_MIN`, `igcd(a, b)`
returns the gcd of `|a|` and `|b|` (so `igcd(a, 0) = |a|` and `igcd(0, 0) = 0`);
`ilcm(a, b)` returns 0 when `a = 0` or `b = 0`; for positive `a`, `b` whose least
common multiple fits in 64 bits `ilcm(a, b)` returns it (it is positive, a multiple of
`a` and of `b`, and divides every common multiple); and for non-zero `a`, `b` with
`a / gcd * b` above the 64-bit maximum `ilcm` throws "lcm overflow". -/
theorem igcd_ilcm_spec (a b : Int) (ha : inI64 a = true) (hb : inI64 b = true)
    (hamin : a ≠ -9223372036854775808) (hbmin : b ≠ -9223372036854775808) :
    igcd a b = ⟨Res.ok ((Nat.gcd a.natAbs b.natAbs : Nat) : Int), false⟩ ∧
    igcd a 0 = ⟨Res.ok |a|, false⟩ ∧
    igcd 0 0 = ⟨Res.ok 0, false⟩ ∧
    (a = 0 ∨ b = 0 → ilcm a b = ⟨Res.ok 0, false⟩) ∧
    (0 < a → 0 < b → ((Int.lcm a b : Nat) : Int) ≤ INT64_MAX →
      ilcm a b = ⟨Res.ok ((Int.lcm a b : Nat) : Int), false⟩ ∧
      0 < ((Int.lcm a b : Nat) : Int) ∧ a ∣ ((Int.lcm a b : Nat) : Int) ∧
      b ∣ ((Int.lcm a b : Nat) : Int) ∧
      ∀ c : Int, a ∣ c → b ∣ c → ((Int.lcm a b : Nat) : Int) ∣ c) ∧
    (a ≠ 0 → b ≠ 0 →
      INT64_MAX < Int.tdiv a ((Nat.gcd a.natAbs b.natAbs : Nat) : Int) * b →
      ilcm a b = ⟨Res.error Err.lcmOverflow, false⟩) := by
  rw [inI64_iff] at ha hb
  have ha1 : -INT64_MAX ≤ a := by unfold INT64_MAX; omega
  have ha2 : a ≤ INT64_MAX := by unfold INT64_MAX; omega
  have hb1 : -INT64_MAX ≤ b := by unfold INT64_MAX; omega
  have hb2 : b ≤ INT64_MAX := by unfold INT64_MAX; omega
  have h0 : -INT64_MAX ≤ (0 : Int) ∧ (0 : Int) ≤ INT64_MAX := by
    unfold INT64_MAX; omega
  refine ⟨igcd_eq ha1 ha2 hb1 hb2, ?_, ?_, ?_, ?_, ?_⟩
  · rw [igcd_eq ha1 ha2 h0.1 h0.2]
    simp
  · rw [igcd_eq h0.1 h0.2 h0.1 h0.2]
    simp
  · intro h
    unfold ilcm
    rw [if_pos h]
    rfl
  · intro hpa hpb hfit
    have hne : ¬ (a = 0 ∨ b = 0) := by omega
    refine ⟨?_, ?_, Int.dvd_lcm_left, Int.dvd_lcm_right, fun c => Int.lcm_dvd⟩
    · unfold ilcm
      rw [if_neg hne]
      simp only [bind_eq_bind]
      rw [Run.bind_of_ok _ (igcd_eq ha1 ha2 hb1 hb2), tdiv_gcd_mul_eq_lcm hpa hpb,
        if_neg (by omega)]
      exact narrow64_ok (by rw [inI64_iff]; unfold INT64_MAX at hfit; omega)
    · have : 0 < Int.lcm a b := by
        unfold Int.lcm
        exact Nat.lcm_pos (Int.natAbs_pos.mpr (by omega)) (Int.natAbs_pos.mpr (by omega))
      omega
  · intro hpa hpb hbig
    have hne : ¬ (a = 0 ∨ b = 0) := by omega
    unfold ilcm
    rw [if_neg hne]
    simp only [bind_eq_bind]
    rw [Run.bind_of_ok _ (igcd_eq ha1 ha2 hb1 hb2), if_pos hbig]
    rfl

/-- Witness for C20 at `a = -12`, `b = 18`, and at `a = 4`, `b = 6` for the lcm. -/
theorem igcd_ilcm_spec_witness :
    (igcd (-12) 18 = ⟨Res.ok 6, false⟩ ∧ ilcm 4 6 = ⟨Res.ok 12, false⟩ ∧
      ilcm 4294967296 4294967297 = ⟨Res.error Err.lcmOverflow, false⟩) ∧
    (igcd 4 6 = ⟨Res.ok ((Nat.gcd (4 : Int).natAbs (6 : Int).natAbs : Nat) : Int), false⟩ ∧
    igcd 4 0 = ⟨Res.ok |4|, false⟩ ∧
    igcd 0 0 = ⟨Res.ok 0, false⟩ ∧
    ((4 : Int) = 0 ∨ (6 : Int) = 0 → ilcm 4 6 = ⟨Res.ok 0, false⟩) ∧
    ((0 : Int) < 4 → (0 : Int) < 6 → ((Int.lcm 4 6 : Nat) : Int) ≤ INT64_MAX →
      ilcm 4 6 = ⟨Res.ok ((Int.lcm 4 6 : Nat) : Int), false⟩ ∧
      0 < ((Int.lcm 4 6 : Nat) : Int) ∧ (4 : Int) ∣ ((Int.lcm 4 6 : Nat) : Int) ∧
      (6 : Int) ∣ ((Int.lcm 4 6 : Nat) : Int) ∧
      ∀ c : Int, 4 ∣ c → 6 ∣ c → ((Int.lcm 4 6 : Nat) : Int) ∣ c) ∧
    ((4 : Int) ≠ 0 → (6 : Int) ≠ 0 →
      INT64_MAX < Int.tdiv 4 ((Nat.gcd (4 : Int).natAbs (6 : Int).natAbs : Nat) : Int) * 6 →
      ilcm 4 6 = ⟨Res.error Err.lcmOverflow, false⟩)) :=
  ⟨⟨by decide, by decide, by decide⟩,
    igcd_ilcm_spec 4 6 (by decide) (by decide) (by decide) (by decide)⟩

/-! ## Elimination: solution set, reduced form, inconsistency -/

end Day10

namespace Day10

/-! ## Which errors each part of the program can throw -/

theorem Run.throws_ret {α : Type} (a : α) (S : Err → Prop) : (Run.ret a).Throws S := by
  intro e h
  simp at h

theorem Run.throws_throw {α : Type} {e0 : Err} {S : Err → Prop} (h : S e0) :
    (Run.throw e0 : Run α).Throws S := by
  intro e he
  simp only [Run.throw_out, Res.error.injEq] at he
  subst he
  exact h

theorem Run.throws_bind {α β : Type} {x : Run α} {f : α → Run β} {S : Err → Prop}
    (hx : x.Throws S) (hf : ∀ a, (f a).Throws S) : (Run.bind x f).Throws S := by
  intro e he
  rcases Run.bind_out_error he with h | ⟨a, -, hfa⟩
  · exact hx e h
  · exact hf a e hfa

theorem Run.Throws.weaken {α : Type} {x : Run α} {S T : Err → Prop} (h : x.Throws S)
    (hST : ∀ e, S e → T e) : x.Throws T :=
  fun e he => hST e (h e he)

theorem forUp_throws {σ : Type} {body : Nat → σ → Run σ} {S : Err → Prop}
    (hb : ∀ i s, (body i s).Throws S) : ∀ (n lo : Nat) (s : σ), (forUp body lo n s).Throws S := by
  intro n
  induction n with
  | zero => intro lo s; exact Run.throws_ret s S
  | succ n ih =>
    intro lo s
    unfold forUp
    exact Run.throws_bind (hb lo s) (fun s1 => ih (lo + 1) s1)

theorem forDown_throws {σ : Type} {body : Nat → σ → Run σ} {S : Err → Prop}
    (hb : ∀ i s, (body i s).Throws S) : ∀ (n : Nat) (s : σ), (forDown body n s).Throws S := by
  intro n
  induction n with
  | zero => intro s; exact Run.throws_ret s S
  | succ n ih =>
    intro s
    unfold forDown
    exact Run.throws_bind (hb n s) (fun s1 => ih s1)

theorem mapRun_throws {α β : Type} {f : α → Run β} {S : Err → Prop}
    (hf : ∀ a, (f a).Throws S) : ∀ (l : List α), (mapRun f l).Throws S := by
  intro l
  induction l with
  | nil => exact Run.throws_ret _ S
  | cons a l ih =>
    unfold mapRun
    simp only [bind_eq_bind, pure_eq_ret]
    exact Run.throws_bind (hf a) (fun b => Run.throws_bind ih (fun bs => Run.throws_ret _ S))

theorem narrow64_throws (x : Int) (S : Err → Prop) : (narrow64 x).Throws S := by
  intro e h
  simp [narrow64] at h

theorem narrow32_throws (x : Int) (S : Err → Prop) : (narrow32 x).Throws S := by
  intro e h
  simp [narrow32] at h

theorem igcd_throws (a b : Int) (S : Err → Prop) : (igcd a b).Throws S := by
  intro e h
  obtain ⟨g, hg⟩ := igcd_out a b
  rw [hg] at h
  simp at h

theorem Rat.normalize_throws (r : Rat) :
    (Rat.normalize r).Throws (fun e => e = Err.zeroDenominator) :=
  fun _ h => Rat.normalize_error h

theorem Rat.add_throws (a b : Rat) :
    (Rat.add a b).Throws (fun e => e = Err.zeroDenominator) := by
  unfold Rat.add
  simp only [bind_eq_bind]
  exact Run.throws_bind (igcd_throws _ _ _) (fun g =>
    Run.throws_bind (narrow64_throws _ _) (fun rn =>
      Run.throws_bind (narrow64_throws _ _) (fun rd => Rat.normalize_throws _)))

theorem Rat.sub_throws (a b : Rat) :
    (Rat.sub a b).Throws (fun e => e = Err.zeroDenominator) := by
  unfold Rat.sub Rat.mk2
  simp only [bind_eq_bind]
  exact Run.throws_bind (narrow64_throws _ _) (fun nb =>
    Run.throws_bind (Rat.normalize_throws _) (fun mb => Rat.add_throws _ _))

theorem Rat.mul_throws (a b : Rat) :
    (Rat.mul a b).Throws (fun e => e = Err.zeroDenominator) :=
  fun _ h => Rat.mul_error h

theorem Rat.div_throws (a : Rat) {b : Rat} (hb : b.n ≠ 0) :
    (Rat.div a b).Throws (fun e => e = Err.zeroDenominator) :=
  fun _ h => Rat.div_error hb h

theorem scaleRow_throws (k col row : Nat) {pv : Rat} (hpv : pv.n ≠ 0) (A : Nat → Nat → Rat) :
    (scaleRow k col row pv A).Throws (fun e => e = Err.zeroDenominator) := by
  unfold scaleRow
  refine forUp_throws (fun j A => ?_) _ _ _
  simp only [bind_eq_bind, pure_eq_ret]
  exact Run.throws_bind (Rat.div_throws _ hpv) (fun v => Run.throws_ret _ _)

theorem elimRow_throws (k col row r : Nat) (f : Rat) (A : Nat → Nat → Rat) :
    (elimRow k col row r f A).Throws (fun e => e = Err.zeroDenominator) := by
  unfold elimRow
  refine forUp_throws (fun j A => ?_) _ _ _
  simp only [bind_eq_bind, pure_eq_ret]
  exact Run.throws_bind (Rat.mul_throws _ _) (fun p =>
    Run.throws_bind (Rat.sub_throws _ _) (fun v => Run.throws_ret _ _))

theorem elimCol_throws (m k col row : Nat) (s : (Nat → Nat → Rat) × (Nat → Rat)) :
    (elimCol m k col row s).Throws (fun e => e = Err.zeroDenominator) := by
  unfold elimCol
  refine forUp_throws (fun r s => ?_) _ _ _
  beta_reduce
  split
  · exact Run.throws_ret _ _
  · simp only
    split
    · exact Run.throws_ret _ _
    · simp only [bind_eq_bind, pure_eq_ret]
      exact Run.throws_bind (elimRow_throws _ _ _ _ _ _) (fun A =>
        Run.throws_bind (Rat.mul_throws _ _) (fun p =>
          Run.throws_bind (Rat.sub_throws _ _) (fun v => Run.throws_ret _ _)))

/-- The divisions of one elimination step never divide by a zero pivot, whatever the
state: the pivot value is the entry the pivot search found non-zero. -/
theorem gaussStep_throws (m k col : Nat) (s : Elim) :
    (gaussStep m k col s).Throws (fun e => e = Err.zeroDenominator) := by
  unfold gaussStep
  split
  · exact Run.throws_ret _ _
  · cases hfp : findPivot s.A col s.row (m - s.row) with
    | none => exact Run.throws_ret _ _
    | some piv =>
      simp only [bind_eq_bind, pure_eq_ret]
      obtain ⟨-, -, hp3, -⟩ := findPivot_some _ _ _ hfp
      have hpv : ((if piv ≠ s.row then swap1 s.A piv s.row else s.A) s.row col).n ≠ 0 := by
        have hz : (s.A piv col).n ≠ 0 := by
          intro h0
          simp [Rat.is_zero, h0] at hp3
        by_cases hne : piv ≠ s.row
        · rw [if_pos hne]
          unfold swap1
          rw [if_neg (Ne.symm hne), if_pos rfl]
          exact hz
        · rw [if_neg hne]
          push_neg at hne
          rw [← hne]
          exact hz
      exact Run.throws_bind (scaleRow_throws _ _ _ hpv _) (fun A1 =>
        Run.throws_bind (Rat.div_throws _ hpv) (fun rv =>
          Run.throws_bind (elimCol_throws _ _ _ _ _) (fun s2 => Run.throws_ret _ _)))

theorem gaussLoop_throws (m k : Nat) (s : Elim) :
    (gaussLoop m k s).Throws (fun e => e = Err.zeroDenominator) := by
  unfold gaussLoop
  exact forUp_throws (fun col s => gaussStep_throws m k col s) _ _ _

theorem checkConsistent_throws (m k : Nat) (s : Elim) :
    (checkConsistent m k s).Throws (fun e => e = Err.inconsistent) := by
  unfold checkConsistent
  refine forUp_throws (fun r u => ?_) _ _ _
  beta_reduce
  split
  · exact Run.throws_throw rfl
  · exact Run.throws_ret _ _

theorem gauss_jordan_rref_throws (m k : Nat) (s : Elim) :
    (gauss_jordan_rref m k s).Throws
      (fun e => e = Err.zeroDenominator ∨ e = Err.inconsistent) := by
  unfold gauss_jordan_rref
  simp only [bind_eq_bind, pure_eq_ret]
  exact Run.throws_bind ((gaussLoop_throws _ _ _).weaken (fun _ h => Or.inl h)) (fun s1 =>
    Run.throws_bind ((checkConsistent_throws _ _ _).weaken (fun _ h => Or.inr h))
      (fun _ => Run.throws_ret _ _))

theorem sumTargets_throws (S : Err → Prop) : ∀ (l : List Int) (s : Int),
    (sumTargets l s).Throws S := by
  intro l
  induction l with
  | nil => intro s; exact Run.throws_ret _ _
  | cons v vs ih =>
    intro s
    unfold sumTargets
    simp only [bind_eq_bind]
    exact Run.throws_bind (narrow32_throws _ _) (fun s1 => ih s1)

theorem weights_throws (ld : LongDouble) (m : Nat) (s : Elim) (free_cols : List Nat) :
    (weights ld m s free_cols).Throws (fun e => e = Err.zeroDenominator) := by
  unfold weights
  refine forUp_throws (fun r w => ?_) _ _ _
  beta_reduce
  split
  · exact Run.throws_ret _ _
  · refine forUp_throws (fun fi w => ?_) _ _ _
    simp only [bind_eq_bind, pure_eq_ret]
    exact Run.throws_bind (Rat.sub_throws _ _) (fun c => Run.throws_ret _ _)

theorem ilcm_throws (a b : Int) : (ilcm a b).Throws (fun e => e = Err.lcmOverflow) := by
  unfold ilcm
  split
  · exact Run.throws_ret _ _
  · simp only [bind_eq_bind]
    refine Run.throws_bind (igcd_throws _ _ _) (fun g => ?_)
    split
    · exact Run.throws_throw rfl
    · exact narrow64_throws _ _

theorem lcmAll_throws : ∀ (cs : List Rat) (D : Int),
    (lcmAll cs D).Throws (fun e => e = Err.lcmOverflow) := by
  intro cs
  induction cs with
  | nil => intro D; exact Run.throws_ret _ _
  | cons c cs ih =>
    intro D
    unfold lcmAll
    simp only [bind_eq_bind]
    exact Run.throws_bind (ilcm_throws _ _) (fun D1 => ih D1)

theorem buildExpr_throws (s : Elim) (free_cols free_order : List Nat) (r : Nat) :
    (buildExpr s free_cols free_order r).Throws
      (fun e => e = Err.zeroDenominator ∨ e = Err.lcmOverflow ∨ e = Err.badDenominator) := by
  unfold buildExpr
  simp only [bind_eq_bind, pure_eq_ret]
  refine Run.throws_bind ((mapRun_throws (fun fi => Rat.sub_throws _ _) _).weaken
    (fun _ h => Or.inl h)) (fun coef_r => ?_)
  refine Run.throws_bind ((lcmAll_throws _ _).weaken (fun _ h => Or.inr (Or.inl h))) (fun D => ?_)
  split
  · exact Run.throws_throw (Or.inr (Or.inr rfl))
  · exact Run.throws_bind (narrow64_throws _ _) (fun eb =>
      Run.throws_bind (mapRun_throws (fun c => narrow64_throws _ _) _)
        (fun ec => Run.throws_ret _ _))

theorem build_parametrization_throws (ld : LongDouble) (m k : Nat) (b : List Int)
    (masks : List Nat) (s : Elim) :
    (build_parametrization ld m k b masks s).Throws
      (fun e => e = Err.zeroDenominator ∨ e = Err.lcmOverflow ∨ e = Err.badDenominator ∨
        (e = Err.largeNullspace ∧ 3 < (freeCols m k s.pivot_col).length)) := by
  unfold build_parametrization
  simp only
  split
  · rename_i hd
    exact Run.throws_throw (Or.inr (Or.inr (Or.inr ⟨rfl, hd⟩)))
  · simp only [bind_eq_bind, pure_eq_ret]
    refine Run.throws_bind (sumTargets_throws _ _ _) (fun sumB => ?_)
    refine Run.throws_bind ((weights_throws _ _ _ _).weaken (fun _ h => Or.inl h)) (fun w => ?_)
    refine Run.throws_bind ((mapRun_throws (fun r => buildExpr_throws _ _ _ r) _).weaken ?_)
      (fun ex => Run.throws_ret _ _)
    rintro e (h | h | h)
    · exact Or.inl h
    · exact Or.inr (Or.inl h)
    · exact Or.inr (Or.inr (Or.inl h))

theorem evalLeaf_throws (d : Nat) (x : Nat → Int) (best : Int) (S : Err → Prop) :
    ∀ (es : List ExprScaled) (total : Int), (evalLeaf d x best es total).Throws S := by
  intro es
  induction es with
  | nil => intro total; exact Run.throws_ret _ _
  | cons e es ih =>
    intro total
    unfold evalLeaf
    simp only
    split
    · exact Run.throws_ret _ _
    · simp only [bind_eq_bind, pure_eq_ret]
      refine Run.throws_bind (narrow64_throws _ _) (fun n64 => ?_)
      split
      · exact Run.throws_ret _ _
      · split
        · exact Run.throws_ret _ _
        · refine Run.throws_bind (narrow64_throws _ _) (fun t1 => ?_)
          split
          · exact Run.throws_ret _ _
          · exact ih t1

theorem dfs_throws (ld : LongDouble) (exprs : List ExprScaled) (ub : List Int) (d : Nat)
    (S : Err → Prop) :
    ∀ (rem pos : Nat) (x : Nat → Int) (sum best : Int),
      (dfs ld exprs ub d rem pos x sum best).Throws S := by
  intro rem
  induction rem with
  | zero =>
    intro pos x sum best
    unfold dfs
    split
    · exact Run.throws_ret _ _
    · split
      · exact Run.throws_ret _ _
      · simp only [bind_eq_bind, pure_eq_ret]
        refine Run.throws_bind (evalLeaf_throws _ _ _ _ _ _) (fun r => ?_)
        cases r with
        | none => exact Run.throws_ret _ _
        | some t => exact Run.throws_ret _ _
  | succ rem ih =>
    intro pos x sum best
    unfold dfs
    split
    · exact Run.throws_ret _ _
    · split
      · exact Run.throws_ret _ _
      · simp only [bind_eq_bind]
        split
        · refine forDown_throws (fun v b1 => ?_) _ _
          exact Run.throws_bind (narrow64_throws _ _) (fun s1 => ih _ _ _ _)
        · refine forUp_throws (fun v b1 => ?_) _ _ _
          exact Run.throws_bind (narrow64_throws _ _) (fun s1 => ih _ _ _ _)

theorem enumerate_throws (ld : LongDouble) (p : Param) :
    (enumerate ld p).Throws (fun e => e = Err.noSolution) := by
  unfold enumerate
  simp only [bind_eq_bind, pure_eq_ret]
  refine Run.throws_bind (dfs_throws _ _ _ _ _ _ _ _ _ _) (fun best => ?_)
  split
  · exact Run.throws_throw rfl
  · exact Run.throws_ret _ _

/-- On a machine with at least one counter and one button, the only errors the solver
can throw — in any execution, overflowing or not — are the ones of elimination, of the
parametrization and of the search; "division by zero" is not among them. -/
theorem solve_throws (ld : LongDouble) {b : List Int} {masks : List Nat}
    (hb : b ≠ []) (hm : masks ≠ []) :
    (minimal_presses_for_machine ld b masks).Throws
      (fun e => e = Err.zeroDenominator ∨ e = Err.inconsistent ∨ e = Err.lcmOverflow ∨
        e = Err.badDenominator ∨ e = Err.largeNullspace ∨ e = Err.noSolution) := by
  unfold minimal_presses_for_machine
  simp only
  rw [if_neg (by rw [List.length_eq_zero]; exact hb),
    if_neg (by rw [List.length_eq_zero]; exact hm)]
  simp only [bind_eq_bind]
  refine Run.throws_bind ((gauss_jordan_rref_throws _ _ _).weaken ?_) (fun s => ?_)
  · rintro e (h | h)
    · exact Or.inl h
    · exact Or.inr (Or.inl h)
  refine Run.throws_bind ((build_parametrization_throws _ _ _ _ _ _).weaken ?_) (fun p => ?_)
  · rintro e (h | h | h | ⟨h, -⟩)
    · exact Or.inl h
    · exact Or.inr (Or.inr (Or.inl h))
    · exact Or.inr (Or.inr (Or.inr (Or.inl h)))
    · exact Or.inr (Or.inr (Or.inr (Or.inr (Or.inl h))))
  · exact (enumerate_throws _ _).weaken
      (fun _ h => Or.inr (Or.inr (Or.inr (Or.inr (Or.inr h)))))

end Day10

namespace Day10

/-! ## Errors of the solver: invalid input, defensive checks, large nullspace -/

/-- C12 (invalid input): the solver throws "empty machine" or "no buttons" if and only
if the target list or the mask list is empty; with no targets the execution is the
single `throw` of "empty machine", with targets but no masks it is the single `throw`
of "no buttons" (nothing is eliminated or searched and no value is returned). -/
theorem invalid_input_iff (ld : LongDouble) (b : List Int) (masks : List Nat) :
    (((minimal_presses_for_machine ld b masks).out = Res.error Err.emptyMachine ∨
      (minimal_presses_for_machine ld b masks).out = Res.error Err.noButtons) ↔
        (b.length = 0 ∨ masks.length = 0)) ∧
    (b.length = 0 →
      minimal_presses_for_machine ld b masks = ⟨Res.error Err.emptyMachine, false⟩) ∧
    (b.length ≠ 0 → masks.length = 0 →
      minimal_presses_for_machine ld b masks = ⟨Res.error Err.noButtons, false⟩) := by
  have h1 : b.length = 0 →
      minimal_presses_for_machine ld b masks = ⟨Res.error Err.emptyMachine, false⟩ := by
    intro h
    unfold minimal_presses_for_machine
    simp only
    rw [if_pos h]
    rfl
  have h2 : b.length ≠ 0 → masks.length = 0 →
      minimal_presses_for_machine ld b masks = ⟨Res.error Err.noButtons, false⟩ := by
    intro hb h
    unfold minimal_presses_for_machine
    simp only
    rw [if_neg hb, if_pos h]
    rfl
  refine ⟨⟨fun h => ?_, fun h => ?_⟩, h1, h2⟩
  · by_contra hne
    push_neg at hne
    have hb : b ≠ [] := fun h0 => hne.1 (by rw [h0]; rfl)
    have hm : masks ≠ [] := fun h0 => hne.2 (by rw [h0]; rfl)
    have ht := solve_throws ld hb hm
    rcases h with h | h
    · have := ht _ h
      simp at this
    · have := ht _ h
      simp at this
  · by_cases hb : b.length = 0
    · exact Or.inl (by rw [h1 hb])
    · rcases h with h | h
      · exact absurd h hb
      · exact Or.inr (by rw [h2 hb h])

/-- The number of free columns in terms of the rank, for a system that is consistent
over the rationals and whose elimination runs without overflow. -/
theorem freeCount_add_rank_of_solves {b : List Int} {masks : List Nat}
    (hwf : EntriesWF b.length masks.length (build_matrix b masks).A (build_matrix b masks).rhs)
    (hw : (gaussLoop b.length masks.length
      ⟨(build_matrix b masks).A, (build_matrix b masks).rhs, fun _ => -1, 0⟩).wrapped = false)
    (hc : ∃ x : Nat → ℚ, Solves b.length masks.length (build_matrix b masks).A
      (build_matrix b masks).rhs x) :
    freeCount b masks + (maskMatrix b.length masks).rank = masks.length := by
  obtain ⟨s, hs, hinv⟩ := (gaussLoop_sat hwf).exists_ok hw
  have hred := reduced_of_consistent hinv hc
  have := freeCols_add_rank hred
  unfold freeCount
  rw [hs]
  exact this

end Day10

namespace Day10

/-! ## The parametrization: scaled pivot expressions and free-variable bounds -/

/-- C17 as amended (free-variable bounds are valid for non-empty masks): for
non-negative targets whose `int` sum `sumB` is computed without overflow, every
non-negative integer solution `x` and every column `j` (free or not) whose mask
contains at least one counter satisfy `x_j ≤ ub0[j]`; and for any solution `x`,
resetting to zero the counts of the masks that contain no counter gives a solution
within all the bounds whose total is not larger, so the restriction to
`[0, ub0[j]]` excludes no minimal solution. -/
theorem free_bounds_valid (b : List Int) (masks : List Nat) (x : Nat → Nat) (sumB : Int)
    (hb : ∀ t, t ∈ b → 0 ≤ t) (hsum : sumTargets b 0 = ⟨Res.ok sumB, false⟩)
    (hx : IsSolution b masks x) :
    (∀ j, j < masks.length → (∃ i, i < b.length ∧ maskBit (masks.getD j 0) i = true) →
      (x j : Int) ≤ ub0Of b.length b masks sumB j) ∧
    (IsSolution b masks (zeroEmpty b.length masks x) ∧
      (∀ j, j < masks.length →
        (zeroEmpty b.length masks x j : Int) ≤ ub0Of b.length b masks sumB j) ∧
      totalPresses masks (zeroEmpty b.length masks x) ≤ totalPresses masks x) := by
  have hs : sumB = b.sum := by
    have := ((sumTargets_sat b 0).of_ok hsum).1
    rw [this, zero_add]
  subst hs
  refine ⟨fun j hj hne => ?_, zeroEmpty_solution hx, fun j hj => solution_le_ub0 hb hx hj,
    zeroEmpty_total _ _ _⟩
  obtain ⟨i, hi, hbit⟩ := hne
  have := solution_le_ub0 hb hx hj
  rw [zeroEmpty_bit hi hbit] at this
  exact this

theorem isSolution_two_three : IsSolution [2, 3] [1, 2, 3] (fun j => if j = 2 then 2 else if j = 1 then 1 else 0) := by
  intro i hi
  have : i = 0 ∨ i = 1 := by
    simp only [List.length_cons, List.length_nil] at hi
    omega
  rcases this with rfl | rfl <;> decide

/-- Witness for the amended C17: targets `{2, 3}`, masks `[{0}, {1}, {0,1}]`, the
solution `x = (0, 1, 2)` and the free column 2, whose bound is 2. -/
theorem free_bounds_valid_witness :
    ub0Of 2 [2, 3] [1, 2, 3] 5 2 = 2 ∧
    (((fun j => if j = 2 then 2 else if j = 1 then 1 else 0 : Nat → Nat) 2 : Nat) : Int)
      ≤ ub0Of 2 [2, 3] [1, 2, 3] 5 2 :=
  ⟨by decide,
    (free_bounds_valid [2, 3] [1, 2, 3] (fun j => if j = 2 then 2 else if j = 1 then 1 else 0) 5
      (by decide) (by decide) isSolution_two_three).1 2 (by decide) ⟨0, by decide, by decide⟩⟩

theorem isSolution_empty_mask : IsSolution [1] [1, 0] (fun j => if j = 0 then 1 else 5) := by
  intro i hi
  have : i = 0 := by simpa using hi
  subst this
  decide

/-- C17 as stated fails for an empty mask: with the target `{1}` and the masks
`[{0}, {}]` the parametrization finds the free column 1 with bound `ub0 = 1` (the sum
of the targets), while `x = (1, 5)` is a non-negative integer solution with
`x_1 = 5 > 1`. -/
theorem free_bounds_counterexample :
    Run.bind (gauss_jordan_rref 1 2 (build_matrix [1] [1, 0]))
      (fun s => Run.bind (build_parametrization exactLD 1 2 [1] [1, 0] s)
        (fun p => Run.ret (p.free_cols, p.ub))) = ⟨Res.ok ([1], [1]), false⟩ ∧
    sumTargets [1] 0 = ⟨Res.ok 1, false⟩ ∧
    ub0Of 1 [1] [1, 0] 1 1 = 1 ∧
    IsSolution [1] [1, 0] (fun j => if j = 0 then 1 else 5) ∧
    ¬ ((((fun j => if j = 0 then 1 else 5 : Nat → Nat) 1 : Nat) : Int)
      ≤ ub0Of 1 [1] [1, 0] 1 1) :=
  ⟨by decide!, by decide, by decide, isSolution_empty_mask, by decide⟩

end Day10

namespace Day10

/-! ## The search against exhaustive enumeration -/

theorem mem_boxPoints : ∀ (ub l : List Int), l ∈ boxPoints ub ↔
    l.length = ub.length ∧ ∀ i, i < ub.length → 0 ≤ l.getD i 0 ∧ l.getD i 0 ≤ ub.getD i 0 := by
  intro ub
  induction ub with
  | nil =>
    intro l
    simp only [boxPoints, List.mem_singleton, List.length_nil]
    constructor
    · rintro rfl
      exact ⟨rfl, fun i hi => absurd hi (Nat.not_lt_zero _)⟩
    · rintro ⟨h, -⟩
      exact List.length_eq_zero.mp h
  | cons u us ih =>
    intro l
    simp only [boxPoints, List.mem_flatten, List.mem_map, List.mem_range]
    constructor
    · rintro ⟨ls, ⟨v, hv, rfl⟩, hl⟩
      obtain ⟨l1, hl1, rfl⟩ := List.mem_map.mp hl
      obtain ⟨hlen, hbnd⟩ := (ih l1).mp hl1
      refine ⟨by rw [List.length_cons, List.length_cons, hlen], fun i hi => ?_⟩
      cases i with
      | zero =>
        rw [List.getD_cons_zero, List.getD_cons_zero]
        omega
      | succ i =>
        rw [List.getD_cons_succ, List.getD_cons_succ]
        rw [List.length_cons] at hi
        exact hbnd i (by omega)
    · rintro ⟨hlen, hbnd⟩
      cases l with
      | nil => simp at hlen
      | cons a l1 =>
        have h0 := hbnd 0 (by simp)
        rw [List.getD_cons_zero, List.getD_cons_zero] at h0
        refine ⟨(boxPoints us).map (fun l => (a.toNat : Int) :: l), ⟨a.toNat, by omega, rfl⟩, ?_⟩
        refine List.mem_map.mpr ⟨l1, (ih l1).mpr ⟨?_, fun i hi => ?_⟩, ?_⟩
        · simpa using hlen
        · have := hbnd (i + 1) (by simp; omega)
          rw [List.getD_cons_succ, List.getD_cons_succ] at this
          exact this
        · rw [Int.toNat_of_nonneg h0.1]

theorem feasibleB_iff {exprs : List ExprScaled} {d : Nat} {x : Nat → Int} :
    feasibleB exprs d x = true ↔ Feasible exprs d x := by
  unfold feasibleB Feasible
  simp only [List.all_eq_true, Bool.and_eq_true, decide_eq_true_eq]

theorem pointOf_map_range (y : Nat → Int) {d i : Nat} (hi : i < d) :
    pointOf ((List.range d).map y) i = y i := by
  unfold pointOf
  rw [List.getD_eq_getElem _ _ (by rw [List.length_map, List.length_range]; exact hi),
    List.getElem_map, List.getElem_range]

/-- The totals of the exhaustive enumeration are exactly the totals of the feasible
points of the box the search ranges over. -/
theorem mem_feasibleTotals {exprs : List ExprScaled} {ub : List Int} {t : Int} :
    t ∈ feasibleTotals exprs ub ↔
      ∃ y, Ext ub ub.length 0 (fun _ => 0) y ∧ Feasible exprs ub.length y ∧
        leafTotal exprs ub.length y = t := by
  unfold feasibleTotals
  simp only [List.mem_map, List.mem_filter]
  constructor
  · rintro ⟨l, ⟨hl, hf⟩, rfl⟩
    obtain ⟨-, hbnd⟩ := (mem_boxPoints ub l).mp hl
    exact ⟨pointOf l, ⟨fun i hi => absurd hi (Nat.not_lt_zero _), fun i _ hi => hbnd i hi⟩,
      feasibleB_iff.mp hf, rfl⟩
  · rintro ⟨y, hy, hf, rfl⟩
    have hagree : ∀ i, i < ub.length → pointOf ((List.range ub.length).map y) i = y i :=
      fun i hi => pointOf_map_range y hi
    refine ⟨(List.range ub.length).map y, ⟨?_, ?_⟩, leafTotal_congr hagree⟩
    · refine (mem_boxPoints ub _).mpr ⟨by rw [List.length_map, List.length_range], ?_⟩
      intro i hi
      have := hagree i hi
      unfold pointOf at this
      rw [this]
      exact hy.2 i (Nat.zero_le _) hi
    · exact feasibleB_iff.mpr ((Feasible_congr hagree).mpr hf)

theorem foldl_min_spec : ∀ (ts : List Int) (t : Int),
    ts.foldl min t ∈ t :: ts ∧ ∀ u, u ∈ t :: ts → ts.foldl min t ≤ u := by
  intro ts
  induction ts with
  | nil =>
    intro t
    simp
  | cons a ts ih =>
    intro t
    rw [List.foldl_cons]
    obtain ⟨h1, h2⟩ := ih (min t a)
    constructor
    · rcases List.mem_cons.mp h1 with h | h
      · rw [h]
        rcases min_choice t a with hc | hc <;> rw [hc] <;> simp
      · exact List.mem_cons_of_mem _ (List.mem_cons_of_mem _ h)
    · intro u hu
      rcases List.mem_cons.mp hu with rfl | hu
      · exact le_trans (h2 _ (List.mem_cons_self _ _)) (min_le_left _ _)
      · rcases List.mem_cons.mp hu with rfl | hu
        · exact le_trans (h2 _ (List.mem_cons_self _ _)) (min_le_right _ _)
        · exact h2 u (List.mem_cons_of_mem _ hu)

theorem exhaustiveMin_spec (exprs : List ExprScaled) (ub : List Int) :
    (feasibleTotals exprs ub = [] ∧ exhaustiveMin exprs ub = BEST0) ∨
    (exhaustiveMin exprs ub ∈ feasibleTotals exprs ub ∧
      ∀ t, t ∈ feasibleTotals exprs ub → exhaustiveMin exprs ub ≤ t) := by
  unfold exhaustiveMin
  cases h : feasibleTotals exprs ub with
  | nil => exact Or.inl ⟨rfl, rfl⟩
  | cons t ts => exact Or.inr (foldl_min_spec ts t)

/-- C18 as amended (the pruned search equals exhaustive enumeration, capped at `2^60`):
for scaled pivot expressions with `D > 0` and bounds `ub` of length `d`, `dfs(0)`
started with `best = 2^60`, `sum_free = 0` and run without overflow ends with `best`
equal to the smaller of `2^60` and the minimum, over the integer points of the box
`0 ≤ x[i] ≤ ub[i]` at which every pivot numerator is non-negative and divisible by its
`D`, of `sum(x)` plus the pivot quotients (so `best` stays `2^60` when there is no
such point or when every such total is at least `2^60`); the result is the same for
every choice of the iteration directions, and the enumeration it is compared with
uses no pruning. -/
theorem dfs_exhaustive (ld : LongDouble) (exprs : List ExprScaled) (ub : List Int)
    (hD : ∀ e, e ∈ exprs → 0 < e.D)
    (hw : (dfs ld exprs ub ub.length ub.length 0 (fun _ => 0) 0 BEST0).wrapped = false) :
    dfs ld exprs ub ub.length ub.length 0 (fun _ => 0) 0 BEST0
      = ⟨Res.ok (min BEST0 (exhaustiveMin exprs ub)), false⟩ ∧
    ∀ ld2 : LongDouble,
      (dfs ld2 exprs ub ub.length ub.length 0 (fun _ => 0) 0 BEST0).wrapped = false →
      dfs ld2 exprs ub ub.length ub.length 0 (fun _ => 0) 0 BEST0
        = dfs ld exprs ub ub.length ub.length 0 (fun _ => 0) 0 BEST0 := by
  have key : ∀ ld1 : LongDouble,
      (dfs ld1 exprs ub ub.length ub.length 0 (fun _ => 0) 0 BEST0).wrapped = false →
      dfs ld1 exprs ub ub.length ub.length 0 (fun _ => 0) 0 BEST0
        = ⟨Res.ok (min BEST0 (exhaustiveMin exprs ub)), false⟩ := by
    intro ld1 hw1
    obtain ⟨best1, hrun, hle, hatt, hlow⟩ :=
      (dfs_sat ld1 exprs ub ub.length hD ub.length 0 (fun _ => 0) 0 BEST0 (by omega)
        (by simp [sumFrom])).exists_ok hw1
    rw [hrun]
    have hval : best1 = min BEST0 (exhaustiveMin exprs ub) := by
      rcases exhaustiveMin_spec exprs ub with ⟨hnil, hmin⟩ | ⟨hmem, hmin⟩
      · rw [hmin, min_self]
        rcases hatt with h | ⟨y, hy, hf, ht⟩
        · exact h
        · have : best1 ∈ feasibleTotals exprs ub := mem_feasibleTotals.mpr ⟨y, hy, hf, ht⟩
          rw [hnil] at this
          simp at this
      · obtain ⟨y, hy, hf, ht⟩ := mem_feasibleTotals.mp hmem
        have h1 : best1 ≤ exhaustiveMin exprs ub := by
          rw [← ht]
          exact hlow y hy hf
        rcases hatt with h | ⟨z, hz, hfz, htz⟩
        · rw [h] at h1 ⊢
          exact (min_eq_left h1).symm
        · have h2 : exhaustiveMin exprs ub ≤ best1 :=
            hmin best1 (mem_feasibleTotals.mpr ⟨z, hz, hfz, htz⟩)
          have h3 : best1 = exhaustiveMin exprs ub := le_antisymm h1 h2
          rw [← h3]
          exact (min_eq_right hle).symm
    rw [hval]
  exact ⟨key ld hw, fun ld2 hw2 => by rw [key ld2 hw2, key ld hw]⟩

/-- Witness for the amended C18: the expressions `(4 - 2 * x0) / 1` and
`(x0 - 1) / 1` over the box `0 ≤ x0 ≤ 5`; the minimum total is 3. -/
theorem dfs_exhaustive_witness :
    exhaustiveMin [⟨1, 4, [-2]⟩, ⟨1, -1, [1]⟩] [5] = 3 ∧
    dfs exactLD [⟨1, 4, [-2]⟩, ⟨1, -1, [1]⟩] [5] 1 1 0 (fun _ => 0) 0 BEST0
      = ⟨Res.ok (min BEST0 (exhaustiveMin [⟨1, 4, [-2]⟩, ⟨1, -1, [1]⟩] [5])), false⟩ :=
  ⟨by decide!,
    (dfs_exhaustive exactLD [⟨1, 4, [-2]⟩, ⟨1, -1, [1]⟩] [5] (by decide) (by decide!)).1⟩

/-- C18 as stated fails when every feasible total is at least `2^60`: with the single
expression `(2^61 + x0) / 1` and the bound `ub = [1]` the feasible points `x0 = 0, 1`
have totals `2^61` and `2^61 + 2`, so the minimum is `2^61`, but `dfs(0)` leaves
`best = 2^60`. -/
theorem dfs_exhaustive_counterexample :
    dfs exactLD [⟨1, 2305843009213693952, [1]⟩] [1] 1 1 0 (fun _ => 0) 0 BEST0
      = ⟨Res.ok 1152921504606846976, false⟩ ∧
    feasibleTotals [⟨1, 2305843009213693952, [1]⟩] [1]
      = [2305843009213693952, 2305843009213693954] ∧
    exhaustiveMin [⟨1, 2305843009213693952, [1]⟩] [1] = 2305843009213693952 ∧
    (1152921504606846976 : Int) ≠ 2305843009213693952 :=
  ⟨by decide!, by decide!, by decide!, by decide⟩

end Day10
